import Mathlib

/-!
Shallow embedding of the contour_tracing crate (STPR/contour_tracing) and
proofs about its specification claims.

The embedding follows `src/rust/src/array.rs` (`bits_to_paths` / `trace_bits`,
the bordered signed-integer backend) and `src/rust/src/image.rs`
(`single_l8_to_paths` / `trace_single_l8`, the unbordered clamped u8 backend).

Modelling conventions:
- `i8` cell counters are modelled as `Int`.  Accumulated per-cell deltas on any
  reachable state stay far inside the i8 range, so plain integer addition
  coincides with the Rust arithmetic there; `u8` pixel stamping in the image
  backend uses the genuine mod-256 arithmetic of the source's
  `as i8` / `wrapping_add` / `as u8` cast chain.
- `usize` / `u32` coordinate arithmetic (`wrapping_add` of a sign-extended
  offset) is modelled with the genuine wrap-around modulus `2 ^ 64` / `2 ^ 32`.
- The mutable `Vec<Vec<i8>>` contour grid is modelled as a total function
  `Nat → Nat → Int` updated pointwise; the `ImageBuffer` is modelled as a
  row-major `List (List Nat)` of u8 values so that the pixel domain is exact.
- The two unbounded `loop`s of the tracer take explicit fuel; `none` means the
  Rust loop has not terminated within that fuel.
-/

namespace ContourTracing

/-- One SVG path command as emitted by the tracer: `M x y`, `H x`, `V y`, `Z`. -/
inductive Op where
  | M (x y : Nat)
  | H (x : Nat)
  | V (y : Nat)
  | Z
deriving DecidableEq

/-- Textual form of one command, as produced by the `format!` calls. -/
def Op.render : Op → String
  | .M x y => "M" ++ toString x ++ " " ++ toString y
  | .H x => "H" ++ toString x
  | .V y => "V" ++ toString y
  | .Z => "Z"

/-- The accumulated `paths` string of the source is the concatenation of the
emitted commands. -/
def renderOps (l : List Op) : String := String.join (l.map Op.render)

/-- Rust `usize::wrapping_add` of a small signed offset (the source writes
`x.wrapping_add(d as usize)` where `d : i8` is sign-extended). -/
def uAdd (x : Nat) (d : Int) : Nat := (((x : Int) + d) % (2 : Int) ^ 64).toNat

/-- Rust `u32::wrapping_add` of a small signed offset. -/
def uAdd32 (x : Nat) (d : Int) : Nat := (((x : Int) + d) % (2 : Int) ^ 32).toNat

/-- Moore neighborhood offsets, `const MN` of the source. -/
def MN : List (Int × Int) :=
  [(0, -1), (1, -1), (1, 0), (1, 1), (0, 1), (-1, 1), (-1, 0), (-1, -1)]

/-- Bottom left vertex offsets with a border, `const O_VERTEX_WITH_BORDER`. -/
def O_VERTEX_WITH_BORDER : List (Int × Int) :=
  [(-1, 0), (0, 0), (-1, -1), (0, 0), (0, -1), (0, 0), (0, 0)]

/-- Bottom right vertex offsets with a border, `const H_VERTEX_WITH_BORDER`. -/
def H_VERTEX_WITH_BORDER : List (Int × Int) :=
  [(0, 0), (0, 0), (-1, 0), (0, 0), (-1, -1), (0, 0), (0, -1)]

/-- Per-orientation deltas for outline traces, `const O_VALUE_FOR_SIGNED`. -/
def O_VALUE_FOR_SIGNED : List Int := [1, 0, 2, 0, 4, 0, 8]

/-- Per-orientation deltas for hole traces, `const H_VALUE_FOR_SIGNED`. -/
def H_VALUE_FOR_SIGNED : List Int := [-4, 0, -8, 0, -1, 0, -2]

/-- Bottom left vertex offsets without a border, `const O_VERTEX_NO_BORDER`. -/
def O_VERTEX_NO_BORDER : List (Int × Int) :=
  [(0, 1), (0, 0), (0, 0), (0, 0), (1, 0), (0, 0), (1, 1)]

/-- Bottom right vertex offsets without a border, `const H_VERTEX_NO_BORDER`. -/
def H_VERTEX_NO_BORDER : List (Int × Int) :=
  [(1, 1), (0, 0), (0, 1), (0, 0), (0, 0), (0, 0), (1, 0)]

/-- Per-orientation deltas for outline traces in the image backend. -/
def O_VALUE_FOR_UNSIGNED : List Int := [-1, 0, -2, 0, -4, 0, -8]

/-- Per-orientation deltas for hole traces in the image backend. -/
def H_VALUE_FOR_UNSIGNED : List Int := [4, 0, 8, 0, 1, 0, 2]

/-- Rust slice `rotate_left(k)`: the element at index `k` moves to index 0. -/
def rotL (l : List Nat) (k : Nat) : List Nat := l.drop k ++ l.take k

/-- Rust slice `rotate_right(k)`: the element at index `len - k` moves to
index 0 (for `k ≤ len`). -/
def rotR (l : List Nat) (k : Nat) : List Nat := rotL l (l.length - k)

/-- Rust `i8::rem_euclid(8)` applied to the `rot` parameter. -/
def remEuclid8 (r : Int) : Nat := (r % 8).toNat

/-- Read of the orientation array `o[i]` (always in range in the source). -/
def oGet (o : List Nat) (i : Nat) : Nat := o.getD i 0

/-- Read of the `neighbors` array `neighbors[i]`. -/
def nbGet (nb : List Int) (i : Nat) : Int := nb.getD i 0

/-- Read of a delta table `value[i]`. -/
def vGet (v : List Int) (i : Nat) : Int := v.getD i 0

/-- Read of a vertex offset table `vertex[i]`. -/
def vxGet (v : List (Int × Int)) (i : Nat) : Int × Int := v.getD i (0, 0)

/-! ## Array backend (`array.rs` / `lib.rs`) -/

/-- The mutable contour grid `contours : Vec<Vec<i8>>`, addressed as
`g cursor_y cursor_x`. -/
abbrev Grid := Nat → Nat → Int

/-- In-place `contours[y][x] += d` of the source. -/
def stampCell (g : Grid) (x y : Nat) (d : Int) : Grid :=
  fun y' x' => if y' = y ∧ x' = x then g y x + d else g y' x'

/-- The 8-entry `neighbors` array read at the tracer position (N, NE, E, SE,
S, SW, W, NW).  The source indexes `contours[tracer_y - 1][tracer_x]` etc.;
the tracer coordinates stay ≥ 1 on all reachable states. -/
def neighborsAt (g : Grid) (x y : Nat) : List Int :=
  [g (y - 1) x, g (y - 1) (x + 1), g y (x + 1), g (y + 1) (x + 1),
   g (y + 1) x, g (y + 1) (x - 1), g y (x - 1), g (y - 1) (x - 1)]

/-- The reachable-neighbor classification `rn` of `trace_bits`. -/
def rnOf (outline : Bool) (nb : List Int) (o : List Nat) : Nat :=
  if outline then
    if 0 < nbGet nb (oGet o 7) ∧ 0 < nbGet nb (oGet o 0) then 1
    else if 0 < nbGet nb (oGet o 0) then 2
    else if 0 < nbGet nb (oGet o 1) ∧ 0 < nbGet nb (oGet o 2) then 3
    else 0
  else
    if nbGet nb (oGet o 1) < 0 ∧ nbGet nb (oGet o 0) < 0 then 1
    else if nbGet nb (oGet o 0) < 0 then 2
    else if nbGet nb (oGet o 7) < 0 ∧ nbGet nb (oGet o 6) < 0 then 3
    else 0

/-- The repeated emission site
`if o[0] == 0 || o[0] == 4 \x7b H... \x7d else \x7b V... \x7d`. -/
def emitHV (vertex : List (Int × Int)) (o : List Nat) (x y : Nat) : Op :=
  if oGet o 0 = 0 ∨ oGet o 0 = 4 then Op.H (uAdd x (vxGet vertex (oGet o 0)).1)
  else Op.V (uAdd y (vxGet vertex (oGet o 0)).2)

/-- Mutable state of one `trace_bits` call: tracer position, orientation
array, `vertices_nbr`, the contour grid and the emitted commands so far. -/
structure TState where
  x : Nat
  y : Nat
  o : List Nat
  vn : Nat
  g : Grid
  ops : List Op

/-- One iteration body of the walking `loop` of `trace_bits` (everything
before the `break` test). -/
def walkStep (outline : Bool) (rotk viv0 viv1 : Nat) (vertex : List (Int × Int))
    (value : List Int) (s : TState) : TState :=
  let nb := neighborsAt s.g s.x s.y
  match rnOf outline nb s.o with
  | 1 =>
    let g1 := stampCell s.g s.x s.y (vGet value (oGet s.o 0))
    let x1 := uAdd s.x (vxGet MN (oGet s.o viv0)).1
    let y1 := uAdd s.y (vxGet MN (oGet s.o viv0)).2
    let o1 := rotR s.o rotk
    { x := x1, y := y1, o := o1, vn := s.vn + 1, g := g1,
      ops := s.ops ++ [emitHV vertex o1 x1 y1] }
  | 2 =>
    let g1 := stampCell s.g s.x s.y (vGet value (oGet s.o 0))
    { s with
        g := g1,
        x := uAdd s.x (vxGet MN (oGet s.o 0)).1,
        y := uAdd s.y (vxGet MN (oGet s.o 0)).2 }
  | 3 =>
    let g1 := stampCell s.g s.x s.y (vGet value (oGet s.o 0))
    let oL := rotL s.o rotk
    let g2 := stampCell g1 s.x s.y (vGet value (oGet oL 0))
    let op1 := emitHV vertex oL s.x s.y
    let oR := rotR oL rotk
    let x1 := uAdd s.x (vxGet MN (oGet oR viv1)).1
    let y1 := uAdd s.y (vxGet MN (oGet oR viv1)).2
    { x := x1, y := y1, o := oR, vn := s.vn + 2, g := g2,
      ops := s.ops ++ [op1, emitHV vertex oR x1 y1] }
  | _ =>
    let g1 := stampCell s.g s.x s.y (vGet value (oGet s.o 0))
    let o1 := rotL s.o rotk
    { s with
        g := g1,
        o := o1,
        vn := s.vn + 1,
        ops := s.ops ++ [emitHV vertex o1 s.x s.y] }

/-- The walking `loop` of `trace_bits`, with fuel; stops when the tracer is
back on the start cell with more than 2 vertices emitted. -/
def walkLoop (outline : Bool) (rotk viv0 viv1 : Nat) (vertex : List (Int × Int))
    (value : List Int) (cx cy : Nat) : Nat → TState → Option TState
  | 0, _ => none
  | fuel + 1, s =>
    let s1 := walkStep outline rotk viv0 viv1 vertex value s
    if s1.x = cx ∧ s1.y = cy ∧ 2 < s1.vn then some s1
    else walkLoop outline rotk viv0 viv1 vertex value cx cy fuel s1

/-- The closing `loop` of `trace_bits`: stamp, stop at the terminal
orientation `viv.2`, otherwise rotate and emit. -/
def closeLoop (rotk viv2 : Nat) (vertex : List (Int × Int)) (value : List Int) :
    Nat → TState → Option TState
  | 0, _ => none
  | fuel + 1, s =>
    let g1 := stampCell s.g s.x s.y (vGet value (oGet s.o 0))
    if oGet s.o 0 = viv2 then some { s with g := g1 }
    else
      closeLoop rotk viv2 vertex value fuel
        { s with
            g := g1,
            o := rotL s.o rotk,
            vn := s.vn + 1,
            ops := s.ops ++ [emitHV vertex (rotL s.o rotk) s.x s.y] }

/-- The function `trace_bits` of `array.rs`: emit the initial `M` command,
run the walking loop, then the closing loop, then optionally `Z`. -/
def trace_bits (fuel : Nat) (outline : Bool) (cursor_x cursor_y : Nat)
    (o : List Nat) (rot : Int) (viv : Nat × Nat × Nat)
    (vertex : List (Int × Int)) (value : List Int) (g : Grid) (ops : List Op)
    (closepaths : Bool) : Option (Grid × List Op) :=
  let rotk := remEuclid8 rot
  let s0 : TState :=
    { x := cursor_x, y := cursor_y, o := o, vn := 1, g := g,
      ops := ops ++ [Op.M (uAdd cursor_x (vxGet vertex (oGet o 0)).1)
                          (uAdd cursor_y (vxGet vertex (oGet o 0)).2)] }
  match walkLoop outline rotk viv.1 viv.2.1 vertex value cursor_x cursor_y fuel s0 with
  | none => none
  | some s1 =>
    match closeLoop rotk viv.2.2 vertex value fuel s1 with
    | none => none
    | some s2 => some (s2.g, if closepaths then s2.ops ++ [Op.Z] else s2.ops)

/-- The per-cell level bookkeeping of the scanner: the `match` on
`contours[cursor_y][cursor_x].abs()` updating `ol` / `hl`. -/
def levelUpdate (v : Int) (ol hl : Nat) : Nat × Nat :=
  if v.natAbs = 2 ∨ v.natAbs = 4 ∨ v.natAbs = 10 ∨ v.natAbs = 12 then
    if 0 < v then (uAdd ol 1, hl) else (ol, uAdd hl 1)
  else if v.natAbs = 5 ∨ v.natAbs = 7 ∨ v.natAbs = 13 ∨ v.natAbs = 15 then
    if 0 < v then (uAdd ol (-1), hl) else (ol, uAdd hl (-1))
  else (ol, hl)

/-- One scanner cell of `bits_to_paths`: possibly start a trace, then update
the levels from the (possibly rewritten) cell value. -/
def scanCell (fuel : Nat) (closepaths : Bool) (cursor_y : Nat)
    (st : Grid × List Op × Nat × Nat) (cursor_x : Nat) :
    Option (Grid × List Op × Nat × Nat) :=
  let g := st.1
  let ops := st.2.1
  let ol := st.2.2.1
  let hl := st.2.2.2
  let traced : Option (Grid × List Op) :=
    if ol = hl ∧ g cursor_y cursor_x = 1 then
      trace_bits fuel true cursor_x cursor_y [2, 3, 4, 5, 6, 7, 0, 1] 2 (7, 1, 0)
        O_VERTEX_WITH_BORDER O_VALUE_FOR_SIGNED g ops closepaths
    else if hl < ol ∧ g cursor_y cursor_x = -1 then
      trace_bits fuel false cursor_x cursor_y [4, 5, 6, 7, 0, 1, 2, 3] (-2) (1, 7, 6)
        H_VERTEX_WITH_BORDER H_VALUE_FOR_SIGNED g ops closepaths
    else some (g, ops)
  match traced with
  | none => none
  | some (g1, ops1) =>
    let lv := levelUpdate (g1 cursor_y cursor_x) ol hl
    some (g1, ops1, lv.1, lv.2)

/-- The inner scanner loop `for cursor_x in 1..=cols`. -/
def scanRow (fuel : Nat) (closepaths : Bool) (cursor_y : Nat) :
    List Nat → Grid × List Op × Nat × Nat → Option (Grid × List Op × Nat × Nat)
  | [], st => some st
  | x :: xs, st =>
    match scanCell fuel closepaths cursor_y st x with
    | none => none
    | some st1 => scanRow fuel closepaths cursor_y xs st1

/-- The outer scanner loop `for cursor_y in 1..=rows`, resetting
`ol = hl = 0` at each row. -/
def scanRows (fuel : Nat) (closepaths : Bool) (cols : Nat) :
    List Nat → Grid × List Op → Option (Grid × List Op)
  | [], st => some st
  | y :: ys, st =>
    match scanRow fuel closepaths y (List.range' 1 cols) (st.1, st.2, 0, 0) with
    | none => none
    | some (g1, ops1, _, _) => scanRows fuel closepaths cols ys (g1, ops1)

/-- Construction of the bordered contour grid: a zero border of one cell and
`contours[r+1][c+1] = if bits[r][c] == 1 \x7b 1 \x7d else \x7b -1 \x7d`. -/
def initContours (bits : List (List Int)) (rows cols : Nat) : Grid :=
  fun y x =>
    if 1 ≤ y ∧ y ≤ rows ∧ 1 ≤ x ∧ x ≤ cols then
      if (bits.getD (y - 1) []).getD (x - 1) 0 = 1 then 1 else -1
    else 0

/-- Fuel budget used by the top-level embedding; large enough for every
terminating trace considered in this development. -/
def gridFuel (rows cols : Nat) : Nat := (rows + 2) * (cols + 2) * 8 + 64

/-- The command sequence produced by `bits_to_paths` (before rendering to a
string); `none` if some trace exhausts its fuel. -/
def bitsToPathsOps (bits : List (List Int)) (closepaths : Bool) : Option (List Op) :=
  let rows := bits.length
  let cols := (bits.headD []).length
  match scanRows (gridFuel rows cols) closepaths cols (List.range' 1 rows)
      (initContours bits rows cols, []) with
  | none => none
  | some (_, ops) => some ops

/-- The function `bits_to_paths` of `array.rs` on well-formed input. -/
def bits_to_paths (bits : List (List Int)) (closepaths : Bool) : Option String :=
  (bitsToPathsOps bits closepaths).map renderOps

/-- Entry of `bits_to_paths` with the panicking prologue made explicit: the
source evaluates `bits[0].len()` (which panics on an empty outer vector, and
the inner construction loop `0..=cols-1` reads `bits[r][c]` for every
`c < cols`, which panics as soon as some row is shorter than the first row;
with `cols = 0` the degenerate inclusive range still reads `bits[r][0]`).
The outer `none` is a panic; rows longer than the first row are silently
truncated, exactly as in the source. -/
def bits_to_paths_checked (bits : List (List Int)) (closepaths : Bool) :
    Option (Option String) :=
  if bits.length = 0 then none
  else
    let cols := (bits.headD []).length
    if cols = 0 then none
    else if bits.any (fun row => row.length < cols) then none
    else some (bits_to_paths bits closepaths)

/-! ## Image backend (`image.rs`) -/

/-- Pixel read `buffer[(x, y)][0]` on the row-major pixel model. -/
def pixGet (b : List (List Nat)) (x y : Nat) : Nat := (b.getD y []).getD x 0

/-- Pixel write `buffer.put_pixel(x, y, Luma([v]))`. -/
def pixSet (b : List (List Nat)) (x y : Nat) (v : Nat) : List (List Nat) :=
  b.set y ((b.getD y []).set x v)

/-- The stamping cast chain
`(buffer[(x, y)][0] as i8).wrapping_add(d) as u8`, which is addition
modulo 256 on the u8 value. -/
def pixStamp (p : Nat) (d : Int) : Nat := (((p : Int) + d) % 256).toNat

/-- The boundary-clamped `neighbors` array of `trace_single_l8`
(`image.rs` lines 81 to 90): an out-of-range neighbor reads as 32. -/
def neighborsImg (b : List (List Nat)) (maxx maxy x y : Nat) : List Nat :=
  [if y = 0 then 32 else pixGet b x (y - 1),
   if x = maxx ∨ y = 0 then 32 else pixGet b (x + 1) (y - 1),
   if x = maxx then 32 else pixGet b (x + 1) y,
   if x = maxx ∨ y = maxy then 32 else pixGet b (x + 1) (y + 1),
   if y = maxy then 32 else pixGet b x (y + 1),
   if x = 0 ∨ y = maxy then 32 else pixGet b (x - 1) (y + 1),
   if x = 0 then 32 else pixGet b (x - 1) y,
   if x = 0 ∨ y = 0 then 32 else pixGet b (x - 1) (y - 1)]

/-- Read of the u8 `neighbors` array (always in range in the source). -/
def nbGetU (nb : List Nat) (i : Nat) : Nat := nb.getD i 32

/-- The reachable-neighbor classification `rn` of `trace_single_l8`:
foreground pixels are below 32, background pixels above 32. -/
def rnOfImg (outline : Bool) (nb : List Nat) (o : List Nat) : Nat :=
  if outline then
    if nbGetU nb (oGet o 7) < 32 ∧ nbGetU nb (oGet o 0) < 32 then 1
    else if nbGetU nb (oGet o 0) < 32 then 2
    else if nbGetU nb (oGet o 1) < 32 ∧ nbGetU nb (oGet o 2) < 32 then 3
    else 0
  else
    if 32 < nbGetU nb (oGet o 1) ∧ 32 < nbGetU nb (oGet o 0) then 1
    else if 32 < nbGetU nb (oGet o 0) then 2
    else if 32 < nbGetU nb (oGet o 7) ∧ 32 < nbGetU nb (oGet o 6) then 3
    else 0

/-- The emission site of `trace_single_l8` (u32 coordinates). -/
def emitHVImg (vertex : List (Int × Int)) (o : List Nat) (x y : Nat) : Op :=
  if oGet o 0 = 0 ∨ oGet o 0 = 4 then Op.H (uAdd32 x (vxGet vertex (oGet o 0)).1)
  else Op.V (uAdd32 y (vxGet vertex (oGet o 0)).2)

/-- Mutable state of one `trace_single_l8` call. -/
structure ISt where
  x : Nat
  y : Nat
  o : List Nat
  vn : Nat
  b : List (List Nat)
  ops : List Op

/-- Stamp the current pixel of `trace_single_l8`. -/
def stampPixel (s : ISt) (value : List Int) (o : List Nat) : List (List Nat) :=
  pixSet s.b s.x s.y (pixStamp (pixGet s.b s.x s.y) (vGet value (oGet o 0)))

/-- One iteration body of the walking `loop` of `trace_single_l8`. -/
def walkStepImg (outline : Bool) (rotk viv0 viv1 : Nat) (vertex : List (Int × Int))
    (value : List Int) (maxx maxy : Nat) (s : ISt) : ISt :=
  let nb := neighborsImg s.b maxx maxy s.x s.y
  match rnOfImg outline nb s.o with
  | 1 =>
    let b1 := stampPixel s value s.o
    let x1 := uAdd32 s.x (vxGet MN (oGet s.o viv0)).1
    let y1 := uAdd32 s.y (vxGet MN (oGet s.o viv0)).2
    let o1 := rotR s.o rotk
    { x := x1, y := y1, o := o1, vn := s.vn + 1, b := b1,
      ops := s.ops ++ [emitHVImg vertex o1 x1 y1] }
  | 2 =>
    let b1 := stampPixel s value s.o
    { s with
        b := b1,
        x := uAdd32 s.x (vxGet MN (oGet s.o 0)).1,
        y := uAdd32 s.y (vxGet MN (oGet s.o 0)).2 }
  | 3 =>
    let b1 := stampPixel s value s.o
    let oL := rotL s.o rotk
    let b2 := stampPixel { s with b := b1 } value oL
    let op1 := emitHVImg vertex oL s.x s.y
    let oR := rotR oL rotk
    let x1 := uAdd32 s.x (vxGet MN (oGet oR viv1)).1
    let y1 := uAdd32 s.y (vxGet MN (oGet oR viv1)).2
    { x := x1, y := y1, o := oR, vn := s.vn + 2, b := b2,
      ops := s.ops ++ [op1, emitHVImg vertex oR x1 y1] }
  | _ =>
    let b1 := stampPixel s value s.o
    let o1 := rotL s.o rotk
    { s with
        b := b1,
        o := o1,
        vn := s.vn + 1,
        ops := s.ops ++ [emitHVImg vertex o1 s.x s.y] }

/-- The walking `loop` of `trace_single_l8`, with fuel. -/
def walkLoopImg (outline : Bool) (rotk viv0 viv1 : Nat) (vertex : List (Int × Int))
    (value : List Int) (maxx maxy cx cy : Nat) : Nat → ISt → Option ISt
  | 0, _ => none
  | fuel + 1, s =>
    let s1 := walkStepImg outline rotk viv0 viv1 vertex value maxx maxy s
    if s1.x = cx ∧ s1.y = cy ∧ 2 < s1.vn then some s1
    else walkLoopImg outline rotk viv0 viv1 vertex value maxx maxy cx cy fuel s1

/-- The closing `loop` of `trace_single_l8`, with fuel. -/
def closeLoopImg (rotk viv2 : Nat) (vertex : List (Int × Int)) (value : List Int) :
    Nat → ISt → Option ISt
  | 0, _ => none
  | fuel + 1, s =>
    let b1 := stampPixel s value s.o
    if oGet s.o 0 = viv2 then some { s with b := b1 }
    else
      closeLoopImg rotk viv2 vertex value fuel
        { s with
            b := b1,
            o := rotL s.o rotk,
            vn := s.vn + 1,
            ops := s.ops ++ [emitHVImg vertex (rotL s.o rotk) s.x s.y] }

/-- The function `trace_single_l8` of `image.rs`; `max_x` / `max_y` are the
u32 computations `buffer.width() - 1` / `buffer.height() - 1`. -/
def trace_single_l8 (fuel : Nat) (outline : Bool) (cursor_x cursor_y : Nat)
    (o : List Nat) (rot : Int) (viv : Nat × Nat × Nat)
    (vertex : List (Int × Int)) (value : List Int) (width height : Nat)
    (b : List (List Nat)) (ops : List Op) (closepaths : Bool) :
    Option (List (List Nat) × List Op) :=
  let rotk := remEuclid8 rot
  let maxx := uAdd32 width (-1)
  let maxy := uAdd32 height (-1)
  let s0 : ISt :=
    { x := cursor_x, y := cursor_y, o := o, vn := 1, b := b,
      ops := ops ++ [Op.M (uAdd32 cursor_x (vxGet vertex (oGet o 0)).1)
                          (uAdd32 cursor_y (vxGet vertex (oGet o 0)).2)] }
  match walkLoopImg outline rotk viv.1 viv.2.1 vertex value maxx maxy
      cursor_x cursor_y fuel s0 with
  | none => none
  | some s1 =>
    match closeLoopImg rotk viv.2.2 vertex value fuel s1 with
    | none => none
    | some s2 => some (s2.b, if closepaths then s2.ops ++ [Op.Z] else s2.ops)

/-- Rust `p as i8` on a u8 value. -/
def i8OfU8 (p : Nat) : Int := ((p : Int) + 128) % 256 - 128

/-- Wrap an integer into the i8 range (the `32i8 - ...` subtraction). -/
def i8Wrap (z : Int) : Int := (z + 128) % 256 - 128

/-- The per-cell level bookkeeping of `single_l8_to_paths`:
`integer_from_luma = 32i8 - buffer[(cursor_x, cursor_y)][0] as i8`, then the
same `match` as the array backend. -/
def levelUpdateImg (p : Nat) (ol hl : Nat) : Nat × Nat :=
  levelUpdate (i8Wrap (32 - i8OfU8 p)) ol hl

/-- One scanner cell of `single_l8_to_paths`. -/
def scanCellImg (fuel : Nat) (closepaths : Bool) (width height : Nat)
    (cursor_y : Nat) (st : List (List Nat) × List Op × Nat × Nat)
    (cursor_x : Nat) : Option (List (List Nat) × List Op × Nat × Nat) :=
  let b := st.1
  let ops := st.2.1
  let ol := st.2.2.1
  let hl := st.2.2.2
  let traced : Option (List (List Nat) × List Op) :=
    if ol = hl ∧ pixGet b cursor_x cursor_y = 31 then
      trace_single_l8 fuel true cursor_x cursor_y [2, 3, 4, 5, 6, 7, 0, 1] 2 (7, 1, 0)
        O_VERTEX_NO_BORDER O_VALUE_FOR_UNSIGNED width height b ops closepaths
    else if hl < ol ∧ pixGet b cursor_x cursor_y = 33 then
      trace_single_l8 fuel false cursor_x cursor_y [4, 5, 6, 7, 0, 1, 2, 3] (-2) (1, 7, 6)
        H_VERTEX_NO_BORDER H_VALUE_FOR_UNSIGNED width height b ops closepaths
    else some (b, ops)
  match traced with
  | none => none
  | some (b1, ops1) =>
    let lv := levelUpdateImg (pixGet b1 cursor_x cursor_y) ol hl
    some (b1, ops1, lv.1, lv.2)

/-- The inner scanner loop `for cursor_x in 0..buffer.width()`. -/
def scanRowImg (fuel : Nat) (closepaths : Bool) (width height : Nat)
    (cursor_y : Nat) : List Nat → List (List Nat) × List Op × Nat × Nat →
    Option (List (List Nat) × List Op × Nat × Nat)
  | [], st => some st
  | x :: xs, st =>
    match scanCellImg fuel closepaths width height cursor_y st x with
    | none => none
    | some st1 => scanRowImg fuel closepaths width height cursor_y xs st1

/-- The outer scanner loop `for cursor_y in 0..buffer.height()`, resetting
`ol = hl = 0` at each row. -/
def scanRowsImg (fuel : Nat) (closepaths : Bool) (width height : Nat) :
    List Nat → List (List Nat) × List Op → Option (List (List Nat) × List Op)
  | [], st => some st
  | y :: ys, st =>
    match scanRowImg fuel closepaths width height y (List.range width)
        (st.1, st.2, 0, 0) with
    | none => none
    | some (b1, ops1, _, _) => scanRowsImg fuel closepaths width height ys (b1, ops1)

/-- The initial remapping pass of `single_l8_to_paths`: every pixel equal to
the foreground luma becomes 31, every other pixel becomes 33. -/
def remapPixels (b : List (List Nat)) (luma : Nat) : List (List Nat) :=
  b.map (fun row => row.map (fun p => if p = luma then 31 else 33))

/-- The command sequence of `single_l8_to_paths` (before rendering). -/
def singleL8Ops (b : List (List Nat)) (luma : Nat) (closepaths : Bool) :
    Option (List Op) :=
  let height := b.length
  let width := (b.headD []).length
  match scanRowsImg (gridFuel height width) closepaths width height
      (List.range height) (remapPixels b luma, []) with
  | none => none
  | some (_, ops) => some ops

/-- The function `single_l8_to_paths` of `image.rs`. -/
def single_l8_to_paths (b : List (List Nat)) (luma : Nat) (closepaths : Bool) :
    Option String :=
  (singleL8Ops b luma closepaths).map renderOps

/-! ## Sanity checks against the crate's own doctests and test fixtures -/

/-- The 3 by 3 diagonal doctest of `bits_to_paths`. -/
theorem sanity_bits_3x3 :
    bits_to_paths [[1, 0, 0], [0, 1, 0], [0, 0, 1]] true =
      some "M0 0H1V1H0ZM1 1H2V2H1ZM2 2H3V3H2Z" := by decide

/-- The 5 by 11 doctest of `bits_to_paths` (two rectangles with holes and a
diamond). -/
theorem sanity_bits_5x11 :
    bits_to_paths [[0, 1, 1, 1, 0, 0, 1, 1, 1, 1, 1],
                   [1, 0, 0, 0, 1, 0, 1, 0, 0, 0, 1],
                   [1, 0, 0, 0, 1, 0, 1, 0, 1, 0, 1],
                   [1, 0, 0, 0, 1, 0, 1, 0, 0, 0, 1],
                   [0, 1, 1, 1, 0, 0, 1, 1, 1, 1, 1]] false =
      some "M1 0H4V1H1M6 0H11V5H6M0 1H1V4H0M4 1H5V4H4M7 1V4H10V1M8 2H9V3H8M1 4H4V5H1" := by
  decide

/-- The diamond fixture 006 of `tests_image.rs`. -/
theorem sanity_image_006 :
    single_l8_to_paths [[0, 255, 0], [255, 255, 255], [0, 255, 0]] 255 true =
      some "M1 0H2V1H3V2H2V3H1V2H0V1H1Z" := by decide

/-- The ring fixture 008 of `tests_image.rs` (an outline enclosing a hole). -/
theorem sanity_image_008 :
    single_l8_to_paths [[255, 255, 255], [255, 0, 255], [255, 255, 255]] 255 true =
      some "M0 0H3V3H0ZM1 1V2H2V1Z" := by decide

/-! ## Spec-side scanner variant for claim C5

The claim describes the scanner's start rule in terms of an initial compass
orientation; the following definitions restate the scanner with that
orientation as an explicit parameter, to be compared with the source
definitions. -/

/-- A 3 by 3 grid whose single background cell is a hole. -/
def donutBits : List (List Int) := [[1, 1, 1], [1, 0, 1], [1, 1, 1]]

/-- Modelled from the spec: an orientation array whose front entry `o[0]` is
the compass index `d`.  The source's orientation arrays are exactly the
rotations `[d, d+1, ..., d+7]` (mod 8) of the Moore compass. -/
def startO (d : Nat) : List Nat := (List.range 8).map (fun i => (d + i) % 8)

/-- Compass index of east: one step east is `MN[2] = (1, 0)`. -/
def eastIdx : Nat := 2

/-- Compass index of south: one step south is `MN[4] = (0, 1)`. -/
def southIdx : Nat := 4

/-- The scanner cell written from the claim's words, parametric in the
initial orientation `holeDir` of hole traces (outline traces start east). -/
def scanCellDir (holeDir : Nat) (fuel : Nat) (closepaths : Bool) (cursor_y : Nat)
    (st : Grid × List Op × Nat × Nat) (cursor_x : Nat) :
    Option (Grid × List Op × Nat × Nat) :=
  let g := st.1
  let ops := st.2.1
  let ol := st.2.2.1
  let hl := st.2.2.2
  let traced : Option (Grid × List Op) :=
    if ol = hl ∧ g cursor_y cursor_x = 1 then
      trace_bits fuel true cursor_x cursor_y (startO eastIdx) 2 (7, 1, 0)
        O_VERTEX_WITH_BORDER O_VALUE_FOR_SIGNED g ops closepaths
    else if hl < ol ∧ g cursor_y cursor_x = -1 then
      trace_bits fuel false cursor_x cursor_y (startO holeDir) (-2) (1, 7, 6)
        H_VERTEX_WITH_BORDER H_VALUE_FOR_SIGNED g ops closepaths
    else some (g, ops)
  match traced with
  | none => none
  | some (g1, ops1) =>
    let lv := levelUpdate (g1 cursor_y cursor_x) ol hl
    some (g1, ops1, lv.1, lv.2)

/-- Row scan over the claim-side scanner cell. -/
def scanRowDir (holeDir : Nat) (fuel : Nat) (closepaths : Bool) (cursor_y : Nat) :
    List Nat → Grid × List Op × Nat × Nat → Option (Grid × List Op × Nat × Nat)
  | [], st => some st
  | x :: xs, st =>
    match scanCellDir holeDir fuel closepaths cursor_y st x with
    | none => none
    | some st1 => scanRowDir holeDir fuel closepaths cursor_y xs st1

/-- Outer scan over the claim-side scanner cell, with the per-row reset. -/
def scanRowsDir (holeDir : Nat) (fuel : Nat) (closepaths : Bool) (cols : Nat) :
    List Nat → Grid × List Op → Option (Grid × List Op)
  | [], st => some st
  | y :: ys, st =>
    match scanRowDir holeDir fuel closepaths y (List.range' 1 cols) (st.1, st.2, 0, 0) with
    | none => none
    | some (g1, ops1, _, _) => scanRowsDir holeDir fuel closepaths cols ys (g1, ops1)

/-- The claim-side `bits_to_paths`, parametric in the hole start orientation. -/
def bitsToPathsDir (holeDir : Nat) (bits : List (List Int)) (closepaths : Bool) :
    Option String :=
  let rows := bits.length
  let cols := (bits.headD []).length
  match scanRowsDir holeDir (gridFuel rows cols) closepaths cols (List.range' 1 rows)
      (initContours bits rows cols, []) with
  | none => none
  | some (_, ops) => some (renderOps ops)

/-- With hole traces started facing south, the claim-side scanner cell is the
source scanner cell, definitionally. -/
lemma scanCellDir_south : scanCellDir southIdx = scanCell := rfl

/-- Row scans agree when hole traces start facing south. -/
lemma scanRowDir_south (fuel : Nat) (cp : Bool) (y : Nat) (xs : List Nat)
    (st : Grid × List Op × Nat × Nat) :
    scanRowDir southIdx fuel cp y xs st = scanRow fuel cp y xs st := by
  induction xs generalizing st with
  | nil => rfl
  | cons a t ih =>
    unfold scanRowDir scanRow
    rw [scanCellDir_south]
    cases scanCell fuel cp y st a with
    | none => rfl
    | some st1 => exact ih st1

/-- Outer scans agree when hole traces start facing south. -/
lemma scanRowsDir_south (fuel : Nat) (cp : Bool) (cols : Nat) (ys : List Nat)
    (st : Grid × List Op) :
    scanRowsDir southIdx fuel cp cols ys st = scanRows fuel cp cols ys st := by
  induction ys generalizing st with
  | nil => rfl
  | cons y t ih =>
    unfold scanRowsDir scanRows
    rw [scanRowDir_south]
    cases scanRow fuel cp y (List.range' 1 cols) (st.1, st.2, 0, 0) with
    | none => rfl
    | some st1 => exact ih (st1.1, st1.2.1)

/-- C5 (corrected): the scanner of `bits_to_paths` starts an outline trace at
a cell exactly when `ol == hl` and the cell counter is the untouched
foreground value `+1`, with initial orientation east, and starts a hole trace
exactly when `ol > hl` and the counter is the untouched background value
`-1` — but with initial orientation SOUTH (front compass index 4, `MN[4] =
(0, 1)`), not east; `ol` and `hl` are reset to 0 at the start of every row.
The first conjunct identifies the source pipeline with the claim-side
pipeline whose hole orientation is south; the remaining conjuncts pin the
direction indices to their Moore offsets and exhibit the per-row reset. -/
theorem scanner_start_rule_amended :
    (∀ bits cp, bitsToPathsDir southIdx bits cp = bits_to_paths bits cp) ∧
    vxGet MN eastIdx = (1, 0) ∧ vxGet MN southIdx = (0, 1) ∧
    oGet (startO eastIdx) 0 = eastIdx ∧ oGet (startO southIdx) 0 = southIdx ∧
    (∀ fuel cp cols y ys st, scanRows fuel cp cols (y :: ys) st =
      match scanRow fuel cp y (List.range' 1 cols) (st.1, st.2, 0, 0) with
      | none => none
      | some (g1, ops1, _, _) => scanRows fuel cp cols ys (g1, ops1)) := by
  refine ⟨fun bits cp => ?_, rfl, rfl, rfl, rfl, fun fuel cp cols y ys st => rfl⟩
  simp only [bitsToPathsDir, bits_to_paths, bitsToPathsOps, scanRowsDir_south]
  cases scanRows (gridFuel bits.length (bits.headD []).length) cp
      (bits.headD []).length (List.range' 1 bits.length)
      (initContours bits bits.length (bits.headD []).length, []) with
  | none => rfl
  | some st1 => rfl

/-- C5 counterexample: the claim says hole traces also start with orientation
east.  Running the claim-side scanner with hole orientation east on a 3 by 3
donut changes the emitted hole path (`M1 2H2V1` instead of `M1 1V2H2V1`): the
source's hole traces observably start facing south, not east. -/
theorem scanner_start_rule_cex :
    bitsToPathsDir eastIdx donutBits false ≠ bits_to_paths donutBits false ∧
    bitsToPathsDir eastIdx donutBits false = some "M0 0H3V3H0M1 2H2V1" ∧
    bits_to_paths donutBits false = some "M0 0H3V3H0M1 1V2H2V1" := by
  refine ⟨?_, by decide, by decide⟩
  decide

/-! ## Claim C1: input validation -/

/-- C1 counterexample: the non-rectangular grid `[[1], [1, 1]]` (its second
row is longer than its first) is malformed, yet `bits_to_paths` does not
reject it: the call completes normally and returns a path string, with the
second row silently truncated to the first row's length.  The empty grid, in
turn, panics (models as `none`) instead of being rejected with a distinct
`InvalidInput` condition — no such condition exists in the code. -/
theorem invalid_input_rejected_cex :
    bits_to_paths_checked [[1], [1, 1]] false = some (some "M0 0H1V2H0") ∧
    bits_to_paths_checked ([] : List (List Int)) false = none := by
  constructor <;> decide

/-- C1 (corrected): malformed input is not rejected with a distinct
`InvalidInput` condition.  An empty grid panics at `bits[0]`; a grid with a
row shorter than its first row panics while building the contour grid (both
before any tracing); and a grid whose later rows are longer than the first is
accepted and traced on the first row's width. -/
theorem invalid_input_amended :
    (∀ cp, bits_to_paths_checked [] cp = none) ∧
    (∀ bits cp, bits ≠ ([] : List (List Int)) →
      (∃ row ∈ bits, row.length < (bits.headD []).length) →
      bits_to_paths_checked bits cp = none) ∧
    (∀ bits cp, bits ≠ ([] : List (List Int)) →
      (bits.headD []).length ≠ 0 →
      (∀ row ∈ bits, (bits.headD []).length ≤ row.length) →
      bits_to_paths_checked bits cp = some (bits_to_paths bits cp)) := by
  refine ⟨fun cp => rfl, fun bits cp hne hex => ?_, fun bits cp hne hc hall => ?_⟩
  · obtain ⟨row, hmem, hlt⟩ := hex
    have hlen : ¬bits.length = 0 := fun h => hne (List.length_eq_zero.mp h)
    simp only [bits_to_paths_checked]
    rw [if_neg hlen]
    by_cases hz : (bits.headD []).length = 0
    · rw [if_pos hz]
    · have hany : (bits.any fun row => decide (row.length < (bits.headD []).length)) = true :=
        List.any_eq_true.mpr ⟨row, hmem, by simpa using hlt⟩
      rw [if_neg hz, if_pos hany]
  · have hlen : ¬bits.length = 0 := fun h => hne (List.length_eq_zero.mp h)
    have hany : (bits.any fun row => decide (row.length < (bits.headD []).length)) = false := by
      rw [List.any_eq_false]
      intro row hmem
      simpa using hall row hmem
    simp only [bits_to_paths_checked]
    rw [if_neg hlen, if_neg hc, hany]
    simp

/-- Witness for the amended C1 at concrete malformed inputs. -/
theorem invalid_input_amended_w :
    bits_to_paths_checked [[1, 1], [1]] true = none ∧
    bits_to_paths_checked [[1], [1, 1]] true = some (bits_to_paths [[1], [1, 1]] true) :=
  ⟨invalid_input_amended.2.1 [[1, 1], [1]] true (by decide)
      ⟨[1], by decide, by decide⟩,
   invalid_input_amended.2.2 [[1], [1, 1]] true (by decide) (by decide) (by decide)⟩

/-! ## Claims C8 and C9: background grids and the foreground test -/

/-- On a cell value that is 0 or -1 the scanner's level bookkeeping is
inert. -/
lemma levelUpdate_bg (v : Int) (hv : v = 0 ∨ v = -1) (ol hl : Nat) :
    levelUpdate v ol hl = (ol, hl) := by
  rcases hv with rfl | rfl <;> simp [levelUpdate]

/-- A scanner cell over a grid holding only 0 and -1 starts no trace and
changes nothing. -/
lemma scanCell_bg (fuel : Nat) (cp : Bool) (y x : Nat) (g : Grid) (ops : List Op)
    (h : ∀ y' x', g y' x' = 0 ∨ g y' x' = -1) :
    scanCell fuel cp y (g, ops, 0, 0) x = some (g, ops, 0, 0) := by
  have h1 : g y x ≠ 1 := by
    rcases h y x with h0 | h0 <;> rw [h0] <;> decide
  simp [scanCell, h1, levelUpdate_bg (g y x) (h y x)]

/-- A row scan over a grid holding only 0 and -1 is a no-op. -/
lemma scanRow_bg (fuel : Nat) (cp : Bool) (y : Nat) (xs : List Nat) (g : Grid)
    (ops : List Op) (h : ∀ y' x', g y' x' = 0 ∨ g y' x' = -1) :
    scanRow fuel cp y xs (g, ops, 0, 0) = some (g, ops, 0, 0) := by
  induction xs with
  | nil => rfl
  | cons a t ih =>
    unfold scanRow
    rw [scanCell_bg fuel cp y a g ops h]
    exact ih

/-- The full scan over a grid holding only 0 and -1 is a no-op. -/
lemma scanRows_bg (fuel : Nat) (cp : Bool) (cols : Nat) (ys : List Nat) (g : Grid)
    (ops : List Op) (h : ∀ y' x', g y' x' = 0 ∨ g y' x' = -1) :
    scanRows fuel cp cols ys (g, ops) = some (g, ops) := by
  induction ys with
  | nil => rfl
  | cons y t ih =>
    unfold scanRows
    rw [scanRow_bg fuel cp y (List.range' 1 cols) g ops h]
    exact ih

/-- A `getD` read from a list all of whose members are not 1 is not 1. -/
lemma getD_ne_one (l : List Int) (j : Nat) (h : ∀ v ∈ l, v ≠ 1) :
    l.getD j 0 ≠ 1 := by
  induction l generalizing j with
  | nil => simp
  | cons a t ih =>
    cases j with
    | zero => simpa using h a (by simp)
    | succ j => simpa using ih j (fun v hv => h v (by simp [hv]))

/-- A doubly indexed `getD` read from a grid with no foreground cell is not
1. -/
lemma getD_getD_ne_one (bits : List (List Int)) (i j : Nat)
    (h : ∀ row ∈ bits, ∀ v ∈ row, v ≠ 1) : (bits.getD i []).getD j 0 ≠ 1 := by
  by_cases hi : i < bits.length
  · have hmem : bits.getD i [] ∈ bits := by
      rw [List.getD_eq_getElem bits [] hi]
      exact List.getElem_mem hi
    exact getD_ne_one _ j (h _ hmem)
  · rw [List.getD_eq_default bits [] (by omega)]
    simp

/-- The contour grid of a grid with no foreground cell holds only 0 and
-1. -/
lemma initContours_bg (bits : List (List Int)) (rows cols : Nat)
    (h : ∀ row ∈ bits, ∀ v ∈ row, v ≠ 1) :
    ∀ y x, initContours bits rows cols y x = 0 ∨ initContours bits rows cols y x = -1 := by
  intro y x
  unfold initContours
  split
  · rw [if_neg (getD_getD_ne_one bits (y - 1) (x - 1) h)]
    right
    rfl
  · left
    rfl

/-- Core of claims C8 and C9: any grid whose cells are all classified
background produces the empty string. -/
lemma bg_empty_core (bits : List (List Int)) (cp : Bool)
    (h : ∀ row ∈ bits, ∀ v ∈ row, v ≠ 1) :
    bits_to_paths bits cp = some "" := by
  simp only [bits_to_paths, bitsToPathsOps]
  rw [scanRows_bg _ _ _ _ _ _ (initContours_bg bits _ _ h)]
  rfl

/-- C8: a well-formed grid containing no foreground cell produces the empty
string — no trace is ever started and no command is emitted. -/
theorem all_background_empty_string (bits : List (List Int)) (cp : Bool)
    (h : ∀ row ∈ bits, ∀ v ∈ row, v ≠ 1) :
    bits_to_paths bits cp = some "" :=
  bg_empty_core bits cp h

/-- Witness for C8 at a concrete all-zero grid. -/
theorem all_background_empty_string_w :
    bits_to_paths [[0, 0, 0], [0, 0, 0]] true = some "" :=
  all_background_empty_string [[0, 0, 0], [0, 0, 0]] true (by decide)

/-- The grid with every cell value replaced by its foreground indicator. -/
def toMask (bits : List (List Int)) : List (List Int) :=
  bits.map (fun row => row.map (fun v => if v = 1 then 1 else 0))

/-- A `getD` read of a masked row is the mask of the `getD` read. -/
lemma toMask_getD_cell (l : List Int) (j : Nat) :
    (l.map (fun v => if v = 1 then (1 : Int) else 0)).getD j 0 =
      (if l.getD j 0 = 1 then 1 else 0) := by
  induction l generalizing j with
  | nil => simp
  | cons a t ih =>
    cases j with
    | zero => simp
    | succ j => simpa using ih j

/-- A `getD` read of the masked grid rows is the mask of the row read. -/
lemma toMask_getD_row (bits : List (List Int)) (i : Nat) :
    (toMask bits).getD i [] = (bits.getD i []).map (fun v => if v = 1 then 1 else 0) := by
  induction bits generalizing i with
  | nil => simp [toMask]
  | cons r t ih =>
    cases i with
    | zero => simp [toMask]
    | succ i => simpa [toMask] using ih i

/-- The contour grid only depends on the foreground indicator of each cell. -/
lemma initContours_toMask (bits : List (List Int)) (rows cols : Nat) :
    initContours (toMask bits) rows cols = initContours bits rows cols := by
  funext y x
  unfold initContours
  split
  · rw [toMask_getD_row, toMask_getD_cell]
    by_cases hv : (bits.getD (y - 1) []).getD (x - 1) 0 = 1 <;> simp [hv]
  · rfl

/-- The masked grid has the same outer length. -/
lemma toMask_length (bits : List (List Int)) : (toMask bits).length = bits.length :=
  List.length_map bits _

/-- The masked grid has the same first-row length. -/
lemma toMask_headD_length (bits : List (List Int)) :
    ((toMask bits).headD []).length = (bits.headD []).length := by
  cases bits <;> simp [toMask]

/-- C9: `bits_to_paths` classifies a cell as foreground exactly when its
value is 1: the output only depends on the per-cell indicator `value = 1`
(first conjunct), and in particular a grid whose cells are all 2 is entirely
background and produces the empty string (second conjunct). -/
theorem foreground_iff_value_one :
    (∀ bits cp, bits_to_paths (toMask bits) cp = bits_to_paths bits cp) ∧
    (∀ bits cp, (∀ row ∈ bits, ∀ v ∈ row, v = (2 : Int)) →
      bits_to_paths bits cp = some "") := by
  constructor
  · intro bits cp
    simp only [bits_to_paths, bitsToPathsOps, toMask_length, toMask_headD_length,
      initContours_toMask]
  · intro bits cp h
    exact bg_empty_core bits cp
      (fun row hr v hv => by rw [h row hr v hv]; decide)

/-- Witness for C9 at a concrete grid of 2s and a mixed grid. -/
theorem foreground_iff_value_one_w :
    bits_to_paths [[2, 2], [2, 2]] false = some "" ∧
    bits_to_paths (toMask [[5, 1], [1, -7]]) true = bits_to_paths [[5, 1], [1, -7]] true :=
  ⟨foreground_iff_value_one.2 [[2, 2], [2, 2]] false (by decide),
   foreground_iff_value_one.1 [[5, 1], [1, -7]] true⟩

/-! ## Claim C10: the image output depends only on the luma equality mask -/

/-- Two lists are equal when their lengths agree and all in-range `getD`
reads agree. -/
lemma ext_from_getD {α : Type} (d : α) (l1 l2 : List α) (hl : l1.length = l2.length)
    (h : ∀ j, j < l1.length → l1.getD j d = l2.getD j d) : l1 = l2 := by
  apply List.ext_getElem hl
  intro j h1 h2
  rw [← List.getD_eq_getElem l1 d h1, ← List.getD_eq_getElem l2 d h2]
  exact h j h1

/-- An in-range `getD` read of a mapped list. -/
lemma getD_map_lt {α β : Type} (f : α → β) (l : List α) (j : Nat) (d : α) (d' : β)
    (h : j < l.length) : (l.map f).getD j d' = f (l.getD j d) := by
  rw [List.getD_eq_getElem _ d' (by simpa using h), List.getD_eq_getElem _ d h,
    List.getElem_map]

/-- A `headD` read is a `getD` read at index 0. -/
lemma headD_eq_getD {α : Type} (l : List α) (d : α) : l.headD d = l.getD 0 d := by
  cases l <;> rfl

/-- The remapping passes of two buffers with the same dimensions and the same
luma equality mask coincide. -/
lemma remapPixels_eq_of_mask (b1 b2 : List (List Nat)) (l1 l2 : Nat)
    (hlen : b1.length = b2.length)
    (hrow : ∀ i, (b1.getD i []).length = (b2.getD i []).length)
    (hmask : ∀ i j, j < (b1.getD i []).length →
      ((b1.getD i []).getD j 0 = l1 ↔ (b2.getD i []).getD j 0 = l2)) :
    remapPixels b1 l1 = remapPixels b2 l2 := by
  apply ext_from_getD ([] : List Nat)
  · simp [remapPixels, hlen]
  · intro i hi
    simp only [remapPixels] at hi ⊢
    rw [List.length_map] at hi
    rw [getD_map_lt _ b1 i [] [] hi, getD_map_lt _ b2 i [] [] (by omega)]
    apply ext_from_getD 0
    · rw [List.length_map, List.length_map]
      exact hrow i
    · intro j hj
      rw [List.length_map] at hj
      rw [getD_map_lt _ _ j 0 0 hj, getD_map_lt _ _ j 0 0 (by rw [← hrow i]; exact hj)]
      by_cases hm : (b1.getD i []).getD j 0 = l1
      · rw [if_pos hm, if_pos ((hmask i j hj).mp hm)]
      · rw [if_neg hm, if_neg (fun hc => hm ((hmask i j hj).mpr hc))]

/-- C10: the output of `single_l8_to_paths` depends only on which pixels
equal the foreground luma (first conjunct: identical equality masks on two
same-size buffers give identical outputs), because every pixel is remapped to
one of the two internal values 31 and 33 before any scanning (second
conjunct). -/
theorem single_l8_mask_determines_output :
    (∀ b1 b2 l1 l2 cp, b1.length = b2.length →
      (∀ i, (b1.getD i []).length = (b2.getD i []).length) →
      (∀ i j, j < (b1.getD i []).length →
        ((b1.getD i []).getD j 0 = l1 ↔ (b2.getD i []).getD j 0 = l2)) →
      single_l8_to_paths b1 l1 cp = single_l8_to_paths b2 l2 cp) ∧
    (∀ b luma row, row ∈ remapPixels b luma → ∀ p ∈ row, p = 31 ∨ p = 33) := by
  constructor
  · intro b1 b2 l1 l2 cp hlen hrow hmask
    have hw : (b1.headD []).length = (b2.headD []).length := by
      rw [headD_eq_getD, headD_eq_getD]
      exact hrow 0
    rw [single_l8_to_paths, single_l8_to_paths, singleL8Ops, singleL8Ops,
      remapPixels_eq_of_mask b1 b2 l1 l2 hlen hrow hmask, hlen, hw]
  · intro b luma row hrow p hp
    simp only [remapPixels, List.mem_map] at hrow
    obtain ⟨r0, -, rfl⟩ := hrow
    simp only [List.mem_map] at hp
    obtain ⟨p0, -, rfl⟩ := hp
    by_cases hz : p0 = luma
    · left
      rw [if_pos hz]
    · right
      rw [if_neg hz]

/-- Witness for C10: two different buffers and luma values whose masks
coincide produce byte-identical outputs. -/
theorem single_l8_mask_determines_output_w :
    single_l8_to_paths [[5, 0], [1, 5]] 5 true =
      single_l8_to_paths [[9, 250], [77, 9]] 9 true :=
  single_l8_mask_determines_output.1 [[5, 0], [1, 5]] [[9, 250], [77, 9]] 5 9 true
    rfl
    (fun i => by
      match i with
      | 0 => rfl
      | 1 => rfl
      | n + 2 => rfl)
    (fun i j hj => by
      match i, j with
      | 0, 0 => decide
      | 0, 1 => decide
      | 1, 0 => decide
      | 1, 1 => decide
      | 0, j + 2 => exact absurd (show j + 2 < 2 from hj) (by omega)
      | 1, j + 2 => exact absurd (show j + 2 < 2 from hj) (by omega)
      | i + 2, j => exact absurd (show j < 0 from hj) (by omega))

/-! ## Claim C4: no two consecutive emitted commands share an axis -/

/-- Whether two commands move along the same axis. -/
def sameAxis : Op → Op → Bool
  | .H _, .H _ => true
  | .V _, .V _ => true
  | _, _ => false

/-- No two adjacent commands of the emitted sequence share an axis.  `M` and
`Z` delimit boundary groups, so adjacency in the whole sequence is adjacency
within one group as far as `H`/`V` pairs are concerned. -/
def axisAlt (l : List Op) : Prop :=
  List.Chain' (fun a b => sameAxis a b = false) l

/-- The orientation array is the rotation of the Moore compass whose front
entry is `b % 8`.  Both start arrays of the scanner have this shape and the
tracer only rotates by two entries, so it is an invariant of every trace. -/
def OBase (o : List Nat) (b : Nat) : Prop :=
  o = [b % 8, (b + 1) % 8, (b + 2) % 8, (b + 3) % 8,
       (b + 4) % 8, (b + 5) % 8, (b + 6) % 8, (b + 7) % 8]

/-- Front entry of an orientation array in base form. -/
lemma OBase_oGet0 (o : List Nat) (b : Nat) (h : OBase o b) : oGet o 0 = b % 8 := by
  subst h
  rfl

/-- Rotating left by two entries advances the base by two. -/
lemma OBase_rotL2 (o : List Nat) (b : Nat) (h : OBase o b) : OBase (rotL o 2) (b + 2) := by
  subst h
  show [(b + 2) % 8, (b + 3) % 8, (b + 4) % 8, (b + 5) % 8, (b + 6) % 8, (b + 7) % 8,
      b % 8, (b + 1) % 8] =
    [(b + 2) % 8, (b + 2 + 1) % 8, (b + 2 + 2) % 8, (b + 2 + 3) % 8, (b + 2 + 4) % 8,
      (b + 2 + 5) % 8, (b + 2 + 6) % 8, (b + 2 + 7) % 8]
  simp only [List.cons.injEq, and_true, true_and]
  omega

/-- Rotating left by six entries advances the base by six. -/
lemma OBase_rotL6 (o : List Nat) (b : Nat) (h : OBase o b) : OBase (rotL o 6) (b + 6) := by
  subst h
  show [(b + 6) % 8, (b + 7) % 8, b % 8, (b + 1) % 8, (b + 2) % 8, (b + 3) % 8,
      (b + 4) % 8, (b + 5) % 8] =
    [(b + 6) % 8, (b + 6 + 1) % 8, (b + 6 + 2) % 8, (b + 6 + 3) % 8, (b + 6 + 4) % 8,
      (b + 6 + 5) % 8, (b + 6 + 6) % 8, (b + 6 + 7) % 8]
  simp only [List.cons.injEq, and_true, true_and]
  omega

/-- Rotating right by two entries advances the base by six. -/
lemma OBase_rotR2 (o : List Nat) (b : Nat) (h : OBase o b) : OBase (rotR o 2) (b + 6) := by
  subst h
  show [(b + 6) % 8, (b + 7) % 8, b % 8, (b + 1) % 8, (b + 2) % 8, (b + 3) % 8,
      (b + 4) % 8, (b + 5) % 8] =
    [(b + 6) % 8, (b + 6 + 1) % 8, (b + 6 + 2) % 8, (b + 6 + 3) % 8, (b + 6 + 4) % 8,
      (b + 6 + 5) % 8, (b + 6 + 6) % 8, (b + 6 + 7) % 8]
  simp only [List.cons.injEq, and_true, true_and]
  omega

/-- Rotating right by six entries advances the base by two. -/
lemma OBase_rotR6 (o : List Nat) (b : Nat) (h : OBase o b) : OBase (rotR o 6) (b + 2) := by
  subst h
  show [(b + 2) % 8, (b + 3) % 8, (b + 4) % 8, (b + 5) % 8, (b + 6) % 8, (b + 7) % 8,
      b % 8, (b + 1) % 8] =
    [(b + 2) % 8, (b + 2 + 1) % 8, (b + 2 + 2) % 8, (b + 2 + 3) % 8, (b + 2 + 4) % 8,
      (b + 2 + 5) % 8, (b + 2 + 6) % 8, (b + 2 + 7) % 8]
  simp only [List.cons.injEq, and_true, true_and]
  omega

/-- Constraint tying the last emitted command to the current orientation:
after every emission the command's axis agrees with the front entry, so the
next emission (which always follows one quarter turn) flips axis. -/
def lastOK : Option Op → List Nat → Prop
  | none, _ => True
  | some (Op.M _ _), _ => True
  | some Op.Z, _ => True
  | some (Op.H _), o => oGet o 0 = 0 ∨ oGet o 0 = 4
  | some (Op.V _), o => ¬(oGet o 0 = 0 ∨ oGet o 0 = 4)

/-- Appending one emission after a quarter turn preserves alternation. -/
lemma append_emit_alt (ops : List Op) (vertex : List (Int × Int)) (o o' : List Nat)
    (b d : Nat) (x y : Nat) (hb : OBase o b) (hb' : OBase o' (b + d))
    (hd : d = 2 ∨ d = 6) (heven : b % 2 = 0)
    (hA : axisAlt ops) (hL : lastOK ops.getLast? o) :
    axisAlt (ops ++ [emitHV vertex o' x y]) ∧
      lastOK (ops ++ [emitHV vertex o' x y]).getLast? o' := by
  have h0 : oGet o 0 = b % 8 := OBase_oGet0 o b hb
  have h0' : oGet o' 0 = (b + d) % 8 := OBase_oGet0 o' (b + d) hb'
  constructor
  · rw [axisAlt, List.chain'_append]
    refine ⟨hA, List.chain'_singleton _, ?_⟩
    intro l hl e he
    simp only [List.head?_cons, Option.mem_def, Option.some.injEq] at he
    subst he
    rw [Option.mem_def] at hl
    rw [hl] at hL
    match l with
    | Op.M mx my => unfold emitHV; split <;> rfl
    | Op.Z => unfold emitHV; split <;> rfl
    | Op.H hx =>
      simp only [lastOK] at hL
      have hcond : ¬(oGet o' 0 = 0 ∨ oGet o' 0 = 4) := by
        rw [h0']
        rw [h0] at hL
        rcases hd with rfl | rfl <;> rcases hL with hL | hL <;> omega
      rw [emitHV, if_neg hcond]
      rfl
    | Op.V vy =>
      simp only [lastOK] at hL
      have hcond : oGet o' 0 = 0 ∨ oGet o' 0 = 4 := by
        rw [h0']
        rw [h0] at hL
        rcases hd with rfl | rfl <;> omega
      rw [emitHV, if_pos hcond]
      rfl
  · rw [List.getLast?_concat]
    unfold emitHV
    by_cases hc : oGet o' 0 = 0 ∨ oGet o' 0 = 4
    · rw [if_pos hc]
      exact hc
    · rw [if_neg hc]
      exact hc

/-- Appending a separator command (one that never shares an axis) preserves
alternation. -/
lemma axisAlt_append_sep (ops : List Op) (e : Op) (he : ∀ a, sameAxis a e = false)
    (hA : axisAlt ops) : axisAlt (ops ++ [e]) := by
  rw [axisAlt, List.chain'_append]
  refine ⟨hA, List.chain'_singleton _, ?_⟩
  intro l hl e' he'
  simp only [List.head?_cons, Option.mem_def, Option.some.injEq] at he'
  subst he'
  exact he l

/-- `rn` only takes the values 0 to 3. -/
lemma rnOf_cases (outline : Bool) (nb : List Int) (o : List Nat) :
    rnOf outline nb o = 0 ∨ rnOf outline nb o = 1 ∨ rnOf outline nb o = 2 ∨
      rnOf outline nb o = 3 := by
  unfold rnOf
  split
  · split_ifs <;> simp
  · split_ifs <;> simp

/-- One walking step preserves the orientation-base and alternation
invariant. -/
lemma walkStep_alt (outline : Bool) (rotk viv0 viv1 : Nat) (vertex : List (Int × Int))
    (value : List Int) (s : TState) (b : Nat)
    (hrot : rotk = 2 ∨ rotk = 6) (hb : OBase s.o b) (heven : b % 2 = 0)
    (hA : axisAlt s.ops) (hL : lastOK s.ops.getLast? s.o) :
    ∃ b', OBase (walkStep outline rotk viv0 viv1 vertex value s).o b' ∧ b' % 2 = 0 ∧
      axisAlt (walkStep outline rotk viv0 viv1 vertex value s).ops ∧
      lastOK (walkStep outline rotk viv0 viv1 vertex value s).ops.getLast?
        (walkStep outline rotk viv0 viv1 vertex value s).o := by
  rcases rnOf_cases outline (neighborsAt s.g s.x s.y) s.o with h4 | h4 | h4 | h4 <;>
    simp only [walkStep, h4]
  · -- rn = 0: rotate left, emit
    rcases hrot with rfl | rfl
    · have hb1 := OBase_rotL2 s.o b hb
      obtain ⟨hA1, hL1⟩ := append_emit_alt s.ops vertex s.o (rotL s.o 2) b 2 s.x s.y
        hb hb1 (Or.inl rfl) heven hA hL
      exact ⟨b + 2, hb1, by omega, hA1, hL1⟩
    · have hb1 := OBase_rotL6 s.o b hb
      obtain ⟨hA1, hL1⟩ := append_emit_alt s.ops vertex s.o (rotL s.o 6) b 6 s.x s.y
        hb hb1 (Or.inr rfl) heven hA hL
      exact ⟨b + 6, hb1, by omega, hA1, hL1⟩
  · -- rn = 1: move, rotate right, emit
    rcases hrot with rfl | rfl
    · have hb1 := OBase_rotR2 s.o b hb
      obtain ⟨hA1, hL1⟩ := append_emit_alt s.ops vertex s.o (rotR s.o 2) b 6 _ _
        hb hb1 (Or.inr rfl) heven hA hL
      exact ⟨b + 6, hb1, by omega, hA1, hL1⟩
    · have hb1 := OBase_rotR6 s.o b hb
      obtain ⟨hA1, hL1⟩ := append_emit_alt s.ops vertex s.o (rotR s.o 6) b 2 _ _
        hb hb1 (Or.inl rfl) heven hA hL
      exact ⟨b + 2, hb1, by omega, hA1, hL1⟩
  · -- rn = 2: move straight, no emission
    exact ⟨b, hb, heven, hA, hL⟩
  · -- rn = 3: emit at the left rotation, rotate back, move, emit again
    have hassoc : ∀ (op1 op2 : Op), s.ops ++ [op1, op2] = (s.ops ++ [op1]) ++ [op2] := by
      intro op1 op2
      simp
    rcases hrot with rfl | rfl
    · have hbL := OBase_rotL2 s.o b hb
      obtain ⟨hA1, hL1⟩ := append_emit_alt s.ops vertex s.o (rotL s.o 2) b 2 s.x s.y
        hb hbL (Or.inl rfl) heven hA hL
      have hbR := OBase_rotR2 (rotL s.o 2) (b + 2) hbL
      obtain ⟨hA2, hL2⟩ := append_emit_alt (s.ops ++ [emitHV vertex (rotL s.o 2) s.x s.y])
        vertex (rotL s.o 2) (rotR (rotL s.o 2) 2) (b + 2) 6 _ _
        hbL hbR (Or.inr rfl) (by omega) hA1 hL1
      rw [hassoc]
      exact ⟨b + 2 + 6, hbR, by omega, hA2, hL2⟩
    · have hbL := OBase_rotL6 s.o b hb
      obtain ⟨hA1, hL1⟩ := append_emit_alt s.ops vertex s.o (rotL s.o 6) b 6 s.x s.y
        hb hbL (Or.inr rfl) heven hA hL
      have hbR := OBase_rotR6 (rotL s.o 6) (b + 6) hbL
      obtain ⟨hA2, hL2⟩ := append_emit_alt (s.ops ++ [emitHV vertex (rotL s.o 6) s.x s.y])
        vertex (rotL s.o 6) (rotR (rotL s.o 6) 6) (b + 6) 2 _ _
        hbL hbR (Or.inl rfl) (by omega) hA1 hL1
      rw [hassoc]
      exact ⟨b + 6 + 2, hbR, by omega, hA2, hL2⟩

/-- The walking loop preserves the alternation invariant. -/
lemma walkLoop_alt (outline : Bool) (rotk viv0 viv1 : Nat) (vertex : List (Int × Int))
    (value : List Int) (cx cy : Nat) :
    ∀ (fuel : Nat) (s : TState) (b : Nat) (s' : TState),
    (rotk = 2 ∨ rotk = 6) → OBase s.o b → b % 2 = 0 → axisAlt s.ops →
    lastOK s.ops.getLast? s.o →
    walkLoop outline rotk viv0 viv1 vertex value cx cy fuel s = some s' →
    ∃ b', OBase s'.o b' ∧ b' % 2 = 0 ∧ axisAlt s'.ops ∧
      lastOK s'.ops.getLast? s'.o := by
  intro fuel
  induction fuel with
  | zero =>
    intro s b s' _ _ _ _ _ h
    exact absurd h (by simp [walkLoop])
  | succ n ih =>
    intro s b s' hrot hb heven hA hL h
    obtain ⟨b1, hb1, he1, hA1, hL1⟩ :=
      walkStep_alt outline rotk viv0 viv1 vertex value s b hrot hb heven hA hL
    rw [walkLoop] at h
    split at h
    · cases h
      exact ⟨b1, hb1, he1, hA1, hL1⟩
    · exact ih _ b1 s' hrot hb1 he1 hA1 hL1 h

/-- The closing loop preserves the alternation invariant. -/
lemma closeLoop_alt (rotk viv2 : Nat) (vertex : List (Int × Int)) (value : List Int) :
    ∀ (fuel : Nat) (s : TState) (b : Nat) (s' : TState),
    (rotk = 2 ∨ rotk = 6) → OBase s.o b → b % 2 = 0 → axisAlt s.ops →
    lastOK s.ops.getLast? s.o →
    closeLoop rotk viv2 vertex value fuel s = some s' →
    axisAlt s'.ops := by
  intro fuel
  induction fuel with
  | zero =>
    intro s b s' _ _ _ _ _ h
    exact absurd h (by simp [closeLoop])
  | succ n ih =>
    intro s b s' hrot hb heven hA hL h
    rw [closeLoop] at h
    split at h
    · cases h
      exact hA
    · rcases hrot with rfl | rfl
      · have hb1 := OBase_rotL2 s.o b hb
        obtain ⟨hA1, hL1⟩ := append_emit_alt s.ops vertex s.o (rotL s.o 2) b 2 s.x s.y
          hb hb1 (Or.inl rfl) heven hA hL
        exact ih _ (b + 2) s' (Or.inl rfl) hb1 (by omega) hA1 hL1 h
      · have hb1 := OBase_rotL6 s.o b hb
        obtain ⟨hA1, hL1⟩ := append_emit_alt s.ops vertex s.o (rotL s.o 6) b 6 s.x s.y
          hb hb1 (Or.inr rfl) heven hA hL
        exact ih _ (b + 6) s' (Or.inr rfl) hb1 (by omega) hA1 hL1 h

/-- A full `trace_bits` call preserves alternation of the emitted command
sequence. -/
lemma trace_bits_alt (fuel : Nat) (outline : Bool) (cx cy : Nat) (o : List Nat)
    (rot : Int) (viv : Nat × Nat × Nat) (vertex : List (Int × Int)) (value : List Int)
    (g : Grid) (ops : List Op) (cp : Bool) (b : Nat) (g' : Grid) (ops' : List Op)
    (hrot : remEuclid8 rot = 2 ∨ remEuclid8 rot = 6)
    (hb : OBase o b) (heven : b % 2 = 0) (hA : axisAlt ops)
    (h : trace_bits fuel outline cx cy o rot viv vertex value g ops cp = some (g', ops')) :
    axisAlt ops' := by
  rw [trace_bits] at h
  have hA0 : axisAlt (ops ++ [Op.M (uAdd cx (vxGet vertex (oGet o 0)).1)
      (uAdd cy (vxGet vertex (oGet o 0)).2)]) :=
    axisAlt_append_sep ops _ (fun a => by cases a <;> rfl) hA
  have hL0 : lastOK (ops ++ [Op.M (uAdd cx (vxGet vertex (oGet o 0)).1)
      (uAdd cy (vxGet vertex (oGet o 0)).2)]).getLast? o := by
    rw [List.getLast?_concat]
    trivial
  split at h
  · exact absurd h (by simp)
  · rename_i s1 hw
    obtain ⟨b1, hb1, he1, hA1, hL1⟩ := walkLoop_alt outline (remEuclid8 rot) viv.1 viv.2.1
      vertex value cx cy fuel _ b s1 hrot hb heven hA0 hL0 hw
    split at h
    · exact absurd h (by simp)
    · rename_i s2 hc
      have hA2 : axisAlt s2.ops := closeLoop_alt (remEuclid8 rot) viv.2.2 vertex value
        fuel s1 b1 s2 hrot hb1 he1 hA1 hL1 hc
      simp only [Option.some.injEq, Prod.mk.injEq] at h
      rcases h with ⟨-, h2⟩
      cases cp with
      | false => rw [← h2]; exact hA2
      | true =>
        rw [← h2]
        exact axisAlt_append_sep s2.ops Op.Z (fun a => by cases a <;> rfl) hA2

/-- The orientation array of outline starts is in base form with front
east. -/
lemma OBase_outline : OBase [2, 3, 4, 5, 6, 7, 0, 1] 2 := rfl

/-- The orientation array of hole starts is in base form with front south. -/
lemma OBase_hole : OBase [4, 5, 6, 7, 0, 1, 2, 3] 4 := rfl

/-- One scanner cell preserves alternation of the accumulated commands. -/
lemma scanCell_alt (fuel : Nat) (cp : Bool) (y x : Nat) (g : Grid) (ops : List Op)
    (ol hl : Nat) (g1 : Grid) (ops1 : List Op) (ol1 hl1 : Nat)
    (hA : axisAlt ops)
    (h : scanCell fuel cp y (g, ops, ol, hl) x = some (g1, ops1, ol1, hl1)) :
    axisAlt ops1 := by
  simp only [scanCell] at h
  split_ifs at h with h1 h2
  · split at h
    · exact absurd h (by simp)
    · rename_i ga opsa ht
      simp only [Option.some.injEq, Prod.mk.injEq] at h
      rcases h with ⟨-, hops, -, -⟩
      rw [← hops]
      exact trace_bits_alt fuel true x y _ 2 (7, 1, 0) _ _ g ops cp 2 ga opsa
        (Or.inl (by decide)) OBase_outline (by decide) hA ht
  · split at h
    · exact absurd h (by simp)
    · rename_i ga opsa ht
      simp only [Option.some.injEq, Prod.mk.injEq] at h
      rcases h with ⟨-, hops, -, -⟩
      rw [← hops]
      exact trace_bits_alt fuel false x y _ (-2) (1, 7, 6) _ _ g ops cp 4 ga opsa
        (Or.inr (by decide)) OBase_hole (by decide) hA ht
  · simp only [Option.some.injEq, Prod.mk.injEq] at h
    rcases h with ⟨-, hops, -, -⟩
    rw [← hops]
    exact hA

/-- A row scan preserves alternation of the accumulated commands. -/
lemma scanRow_alt (fuel : Nat) (cp : Bool) (y : Nat) (xs : List Nat) :
    ∀ (g : Grid) (ops : List Op) (ol hl : Nat) (g1 : Grid) (ops1 : List Op)
      (ol1 hl1 : Nat), axisAlt ops →
    scanRow fuel cp y xs (g, ops, ol, hl) = some (g1, ops1, ol1, hl1) →
    axisAlt ops1 := by
  induction xs with
  | nil =>
    intro g ops ol hl g1 ops1 ol1 hl1 hA h
    simp only [scanRow, Option.some.injEq, Prod.mk.injEq] at h
    rcases h with ⟨-, hops, -, -⟩
    rw [← hops]
    exact hA
  | cons a t ih =>
    intro g ops ol hl g1 ops1 ol1 hl1 hA h
    simp only [scanRow] at h
    split at h
    · exact absurd h (by simp)
    · rename_i st1 hcell
      obtain ⟨ga, opsa, ola, hla⟩ := st1
      exact ih ga opsa ola hla g1 ops1 ol1 hl1
        (scanCell_alt fuel cp y a g ops ol hl ga opsa ola hla hA hcell) h

/-- The full scan preserves alternation of the accumulated commands. -/
lemma scanRows_alt (fuel : Nat) (cp : Bool) (cols : Nat) (ys : List Nat) :
    ∀ (g : Grid) (ops : List Op) (g1 : Grid) (ops1 : List Op), axisAlt ops →
    scanRows fuel cp cols ys (g, ops) = some (g1, ops1) →
    axisAlt ops1 := by
  induction ys with
  | nil =>
    intro g ops g1 ops1 hA h
    simp only [scanRows, Option.some.injEq, Prod.mk.injEq] at h
    rcases h with ⟨-, hops⟩
    rw [← hops]
    exact hA
  | cons a t ih =>
    intro g ops g1 ops1 hA h
    rw [scanRows] at h
    cases hrow : scanRow fuel cp a (List.range' 1 cols) (g, ops, 0, 0) with
    | none => rw [hrow] at h; exact absurd h (by simp)
    | some st1 =>
      rw [hrow] at h
      obtain ⟨g2, ops2, o2, h2⟩ := st1
      exact ih g2 ops2 g1 ops1
        (scanRow_alt fuel cp a (List.range' 1 cols) g ops 0 0 g2 ops2 o2 h2 hA hrow) h

/-- C4: within every boundary group of the output of `bits_to_paths`, no two
consecutive emitted `H`/`V` commands share the same axis: an `H` is never
immediately followed by another `H`, and a `V` never by another `V`
(collinear runs are collapsed by the tracer before emission).  Stated over
the whole command sequence: `M` and `Z` delimit groups, so list adjacency of
`H`/`V` pairs is exactly adjacency within one group. -/
theorem no_consecutive_same_axis (bits : List (List Int)) (cp : Bool) (ops : List Op)
    (h : bitsToPathsOps bits cp = some ops) : axisAlt ops := by
  simp only [bitsToPathsOps] at h
  cases hs : scanRows (gridFuel bits.length (bits.headD []).length) cp
      (bits.headD []).length (List.range' 1 bits.length)
      (initContours bits bits.length (bits.headD []).length, []) with
  | none => rw [hs] at h; exact absurd h (by simp)
  | some p =>
    rw [hs] at h
    obtain ⟨g2, ops2⟩ := p
    simp only [Option.some.injEq] at h
    rw [← h]
    exact scanRows_alt (gridFuel bits.length (bits.headD []).length) cp
      (bits.headD []).length (List.range' 1 bits.length)
      (initContours bits bits.length (bits.headD []).length) [] g2 ops2
      List.chain'_nil hs

/-- Witness for C4 on the 2 by 2 diagonal grid. -/
theorem no_consecutive_same_axis_w :
    axisAlt [Op.M 0 0, Op.H 1, Op.V 1, Op.H 0, Op.M 1 1, Op.H 2, Op.V 2, Op.H 1] :=
  no_consecutive_same_axis [[1, 0], [0, 1]] false
    [Op.M 0 0, Op.H 1, Op.V 1, Op.H 0, Op.M 1 1, Op.H 2, Op.V 2, Op.H 1] (by decide)

/-! ## Claim C7: every emitted coordinate lies within the grid bounds -/

/-- In-bounds condition for one emitted command: `x` in `[0, w]`, `y` in
`[0, h]` (inclusive). -/
def opCoordsOK (w h : Nat) : Op → Prop
  | .M x y => x ≤ w ∧ y ≤ h
  | .H x => x ≤ w
  | .V y => y ≤ h
  | .Z => True

/-- In-bounds condition for a command sequence. -/
def opsCoordsOK (w h : Nat) (l : List Op) : Prop := ∀ op ∈ l, opCoordsOK w h op

/-- Grid invariant of the array backend: every nonzero cell of the bordered
contour grid lies in the interior (the one-cell border and everything beyond
it is zero). -/
def GInv (rows cols : Nat) (g : Grid) : Prop :=
  ∀ y x, g y x ≠ 0 → 1 ≤ x ∧ x ≤ cols ∧ 1 ≤ y ∧ y ≤ rows

/-- `wrapping_add 0` below the wrap point. -/
lemma uAdd_zero (x : Nat) (h : x < 2 ^ 64) : uAdd x 0 = x := by
  unfold uAdd
  omega

/-- `wrapping_add 1` below the wrap point. -/
lemma uAdd_one (x : Nat) (h : x + 1 < 2 ^ 64) : uAdd x 1 = x + 1 := by
  unfold uAdd
  omega

/-- `wrapping_add (-1)` on a positive value below the wrap point. -/
lemma uAdd_neg_one (x : Nat) (h1 : 1 ≤ x) (h2 : x < 2 ^ 64) : uAdd x (-1) = x - 1 := by
  unfold uAdd
  omega

/-- Stamping an interior cell preserves the grid invariant. -/
lemma GInv_stamp (rows cols : Nat) (g : Grid) (x y : Nat) (d : Int)
    (hg : GInv rows cols g) (hx : 1 ≤ x ∧ x ≤ cols) (hy : 1 ≤ y ∧ y ≤ rows) :
    GInv rows cols (stampCell g x y d) := by
  intro y' x' h
  unfold stampCell at h
  split at h
  · rename_i he
    rcases he with ⟨rfl, rfl⟩
    exact ⟨hx.1, hx.2, hy.1, hy.2⟩
  · exact hg y' x' h

/-- Both vertex offset tables of the array backend only hold offsets in
`[-1, 0]`. -/
lemma vxBnd_border (vertex : List (Int × Int))
    (hv : vertex = O_VERTEX_WITH_BORDER ∨ vertex = H_VERTEX_WITH_BORDER) :
    ∀ i, -1 ≤ (vxGet vertex i).1 ∧ (vxGet vertex i).1 ≤ 0 ∧
      -1 ≤ (vxGet vertex i).2 ∧ (vxGet vertex i).2 ≤ 0 := by
  intro i
  rcases hv with rfl | rfl
  · match i with
    | 0 => decide
    | 1 => decide
    | 2 => decide
    | 3 => decide
    | 4 => decide
    | 5 => decide
    | 6 => decide
    | i + 7 =>
      have h7 : vxGet O_VERTEX_WITH_BORDER (i + 7) = (0, 0) := rfl
      rw [h7]
      norm_num
  · match i with
    | 0 => decide
    | 1 => decide
    | 2 => decide
    | 3 => decide
    | 4 => decide
    | 5 => decide
    | 6 => decide
    | i + 7 =>
      have h7 : vxGet H_VERTEX_WITH_BORDER (i + 7) = (0, 0) := rfl
      rw [h7]
      norm_num

/-- An emission at an interior tracer position stays in `[0, cols] ×
[0, rows]`. -/
lemma emitHV_ok (rows cols : Nat) (vertex : List (Int × Int)) (o : List Nat)
    (x y : Nat)
    (hvx : ∀ i, -1 ≤ (vxGet vertex i).1 ∧ (vxGet vertex i).1 ≤ 0 ∧
      -1 ≤ (vxGet vertex i).2 ∧ (vxGet vertex i).2 ≤ 0)
    (hx : 1 ≤ x ∧ x ≤ cols) (hy : 1 ≤ y ∧ y ≤ rows)
    (hrows : rows < 2 ^ 64) (hcols : cols < 2 ^ 64) :
    opCoordsOK cols rows (emitHV vertex o x y) := by
  rcases hvx (oGet o 0) with ⟨h1, h2, h3, h4⟩
  unfold emitHV
  split
  · show uAdd x (vxGet vertex (oGet o 0)).1 ≤ cols
    unfold uAdd
    omega
  · show uAdd y (vxGet vertex (oGet o 0)).2 ≤ rows
    unfold uAdd
    omega

/-- A nonzero neighbor read sends the corresponding Moore move to an interior
cell. -/
lemma move_interior (rows cols : Nat) (g : Grid) (x y : Nat) (d : Nat)
    (hg : GInv rows cols g)
    (hx : 1 ≤ x ∧ x ≤ cols) (hy : 1 ≤ y ∧ y ≤ rows)
    (hrows : rows < 2 ^ 64) (hcols : cols < 2 ^ 64)
    (hnb : nbGet (neighborsAt g x y) d ≠ 0) :
    1 ≤ uAdd x (vxGet MN d).1 ∧ uAdd x (vxGet MN d).1 ≤ cols ∧
    1 ≤ uAdd y (vxGet MN d).2 ∧ uAdd y (vxGet MN d).2 ≤ rows := by
  match d with
  | 0 =>
    have hb := hg (y - 1) x (show g (y - 1) x ≠ 0 from hnb)
    show 1 ≤ uAdd x 0 ∧ uAdd x 0 ≤ cols ∧ 1 ≤ uAdd y (-1) ∧ uAdd y (-1) ≤ rows
    rw [uAdd_zero x (by omega), uAdd_neg_one y (by omega) (by omega)]
    omega
  | 1 =>
    have hb := hg (y - 1) (x + 1) (show g (y - 1) (x + 1) ≠ 0 from hnb)
    show 1 ≤ uAdd x 1 ∧ uAdd x 1 ≤ cols ∧ 1 ≤ uAdd y (-1) ∧ uAdd y (-1) ≤ rows
    rw [uAdd_one x (by omega), uAdd_neg_one y (by omega) (by omega)]
    omega
  | 2 =>
    have hb := hg y (x + 1) (show g y (x + 1) ≠ 0 from hnb)
    show 1 ≤ uAdd x 1 ∧ uAdd x 1 ≤ cols ∧ 1 ≤ uAdd y 0 ∧ uAdd y 0 ≤ rows
    rw [uAdd_one x (by omega), uAdd_zero y (by omega)]
    omega
  | 3 =>
    have hb := hg (y + 1) (x + 1) (show g (y + 1) (x + 1) ≠ 0 from hnb)
    show 1 ≤ uAdd x 1 ∧ uAdd x 1 ≤ cols ∧ 1 ≤ uAdd y 1 ∧ uAdd y 1 ≤ rows
    rw [uAdd_one x (by omega), uAdd_one y (by omega)]
    omega
  | 4 =>
    have hb := hg (y + 1) x (show g (y + 1) x ≠ 0 from hnb)
    show 1 ≤ uAdd x 0 ∧ uAdd x 0 ≤ cols ∧ 1 ≤ uAdd y 1 ∧ uAdd y 1 ≤ rows
    rw [uAdd_zero x (by omega), uAdd_one y (by omega)]
    omega
  | 5 =>
    have hb := hg (y + 1) (x - 1) (show g (y + 1) (x - 1) ≠ 0 from hnb)
    show 1 ≤ uAdd x (-1) ∧ uAdd x (-1) ≤ cols ∧ 1 ≤ uAdd y 1 ∧ uAdd y 1 ≤ rows
    rw [uAdd_neg_one x (by omega) (by omega), uAdd_one y (by omega)]
    omega
  | 6 =>
    have hb := hg y (x - 1) (show g y (x - 1) ≠ 0 from hnb)
    show 1 ≤ uAdd x (-1) ∧ uAdd x (-1) ≤ cols ∧ 1 ≤ uAdd y 0 ∧ uAdd y 0 ≤ rows
    rw [uAdd_neg_one x (by omega) (by omega), uAdd_zero y (by omega)]
    omega
  | 7 =>
    have hb := hg (y - 1) (x - 1) (show g (y - 1) (x - 1) ≠ 0 from hnb)
    show 1 ≤ uAdd x (-1) ∧ uAdd x (-1) ≤ cols ∧ 1 ≤ uAdd y (-1) ∧ uAdd y (-1) ≤ rows
    rw [uAdd_neg_one x (by omega) (by omega), uAdd_neg_one y (by omega) (by omega)]
    omega
  | d + 8 =>
    exact absurd (show nbGet (neighborsAt g x y) (d + 8) = 0 from rfl) hnb

/-- Rotations preserve the length of the orientation array. -/
lemma rot_length (l : List Nat) (k : Nat) : (rotL l k).length = l.length := by
  simp [rotL]
  omega

/-- Rotations preserve the length of the orientation array (right). -/
lemma rotR_length (l : List Nat) (k : Nat) : (rotR l k).length = l.length := by
  rw [rotR, rot_length]

/-- Rotating left then right by the same in-range amount is the identity. -/
lemma rotR_rotL (l : List Nat) (k : Nat) : rotR (rotL l k) k = l := by
  unfold rotR
  rw [rot_length]
  unfold rotL
  rw [show l.length - k = (l.drop k).length by simp, List.drop_left, List.take_left,
    List.take_append_drop]

/-- Unfolding of the outline reachable-neighbor test. -/
lemma rnOf_true_eq (nb : List Int) (o : List Nat) :
    rnOf true nb o =
      (if 0 < nbGet nb (oGet o 7) ∧ 0 < nbGet nb (oGet o 0) then 1
       else if 0 < nbGet nb (oGet o 0) then 2
       else if 0 < nbGet nb (oGet o 1) ∧ 0 < nbGet nb (oGet o 2) then 3
       else 0) := rfl

/-- Unfolding of the hole reachable-neighbor test. -/
lemma rnOf_false_eq (nb : List Int) (o : List Nat) :
    rnOf false nb o =
      (if nbGet nb (oGet o 1) < 0 ∧ nbGet nb (oGet o 0) < 0 then 1
       else if nbGet nb (oGet o 0) < 0 then 2
       else if nbGet nb (oGet o 7) < 0 ∧ nbGet nb (oGet o 6) < 0 then 3
       else 0) := rfl

/-- Appending one in-bounds command preserves the bounds invariant. -/
lemma opsOK_append (w h : Nat) (l : List Op) (e : Op) (hl : opsCoordsOK w h l)
    (he : opCoordsOK w h e) : opsCoordsOK w h (l ++ [e]) := by
  intro op hop
  rcases List.mem_append.mp hop with h1 | h2
  · exact hl op h1
  · rw [List.mem_singleton] at h2
    subst h2
    exact he

/-- Bounds invariant of one tracer state of the array backend: grid invariant,
interior tracer position, in-bounds emitted commands, 8-entry orientation. -/
def TBnd (rows cols : Nat) (s : TState) : Prop :=
  GInv rows cols s.g ∧ 1 ≤ s.x ∧ s.x ≤ cols ∧ 1 ≤ s.y ∧ s.y ≤ rows ∧
    opsCoordsOK cols rows s.ops ∧ s.o.length = 8

/-- One outline walking step preserves the bounds invariant. -/
lemma walkStep_bnd_outline (rows cols rotk : Nat) (vertex : List (Int × Int))
    (value : List Int) (s : TState)
    (hvx : ∀ i, -1 ≤ (vxGet vertex i).1 ∧ (vxGet vertex i).1 ≤ 0 ∧
      -1 ≤ (vxGet vertex i).2 ∧ (vxGet vertex i).2 ≤ 0)
    (hs : TBnd rows cols s)
    (hrows : rows < 2 ^ 64) (hcols : cols < 2 ^ 64) :
    TBnd rows cols (walkStep true rotk 7 1 vertex value s) := by
  obtain ⟨hg, hx1, hx2, hy1, hy2, hops, holen⟩ := hs
  unfold TBnd
  simp only [walkStep, rnOf_true_eq]
  split_ifs with h1 h2 h3
  · -- rn = 1: move to the front-left neighbor
    have hmv := move_interior rows cols s.g s.x s.y (oGet s.o 7) hg ⟨hx1, hx2⟩
      ⟨hy1, hy2⟩ hrows hcols (by omega)
    refine ⟨GInv_stamp rows cols s.g s.x s.y _ hg ⟨hx1, hx2⟩ ⟨hy1, hy2⟩,
      hmv.1, hmv.2.1, hmv.2.2.1, hmv.2.2.2, ?_, ?_⟩
    · exact opsOK_append _ _ _ _ hops
        (emitHV_ok rows cols vertex _ _ _ hvx ⟨hmv.1, hmv.2.1⟩ ⟨hmv.2.2.1, hmv.2.2.2⟩
          hrows hcols)
    · rw [rotR_length]
      exact holen
  · -- rn = 2: move to the front neighbor
    have hmv := move_interior rows cols s.g s.x s.y (oGet s.o 0) hg ⟨hx1, hx2⟩
      ⟨hy1, hy2⟩ hrows hcols (by omega)
    exact ⟨GInv_stamp rows cols s.g s.x s.y _ hg ⟨hx1, hx2⟩ ⟨hy1, hy2⟩,
      hmv.1, hmv.2.1, hmv.2.2.1, hmv.2.2.2, hops, holen⟩
  · -- rn = 3: emit in place, move sideways, emit again
    rw [rotR_rotL s.o rotk]
    have hmv := move_interior rows cols s.g s.x s.y (oGet s.o 1) hg ⟨hx1, hx2⟩
      ⟨hy1, hy2⟩ hrows hcols (by omega)
    have happ : s.ops ++ [emitHV vertex (rotL s.o rotk) s.x s.y,
        emitHV vertex s.o (uAdd s.x (vxGet MN (oGet s.o 1)).1)
          (uAdd s.y (vxGet MN (oGet s.o 1)).2)] =
        (s.ops ++ [emitHV vertex (rotL s.o rotk) s.x s.y]) ++
          [emitHV vertex s.o (uAdd s.x (vxGet MN (oGet s.o 1)).1)
            (uAdd s.y (vxGet MN (oGet s.o 1)).2)] := by simp
    refine ⟨GInv_stamp rows cols _ s.x s.y _
      (GInv_stamp rows cols s.g s.x s.y _ hg ⟨hx1, hx2⟩ ⟨hy1, hy2⟩) ⟨hx1, hx2⟩ ⟨hy1, hy2⟩,
      hmv.1, hmv.2.1, hmv.2.2.1, hmv.2.2.2, ?_, holen⟩
    rw [happ]
    exact opsOK_append _ _ _ _
      (opsOK_append _ _ _ _ hops
        (emitHV_ok rows cols vertex _ _ _ hvx ⟨hx1, hx2⟩ ⟨hy1, hy2⟩ hrows hcols))
      (emitHV_ok rows cols vertex _ _ _ hvx ⟨hmv.1, hmv.2.1⟩ ⟨hmv.2.2.1, hmv.2.2.2⟩
        hrows hcols)
  · -- rn = 0: rotate in place and emit
    refine ⟨GInv_stamp rows cols s.g s.x s.y _ hg ⟨hx1, hx2⟩ ⟨hy1, hy2⟩,
      hx1, hx2, hy1, hy2, ?_, ?_⟩
    · exact opsOK_append _ _ _ _ hops
        (emitHV_ok rows cols vertex _ _ _ hvx ⟨hx1, hx2⟩ ⟨hy1, hy2⟩ hrows hcols)
    · rw [rot_length]
      exact holen

/-- One hole walking step preserves the bounds invariant. -/
lemma walkStep_bnd_hole (rows cols rotk : Nat) (vertex : List (Int × Int))
    (value : List Int) (s : TState)
    (hvx : ∀ i, -1 ≤ (vxGet vertex i).1 ∧ (vxGet vertex i).1 ≤ 0 ∧
      -1 ≤ (vxGet vertex i).2 ∧ (vxGet vertex i).2 ≤ 0)
    (hs : TBnd rows cols s)
    (hrows : rows < 2 ^ 64) (hcols : cols < 2 ^ 64) :
    TBnd rows cols (walkStep false rotk 1 7 vertex value s) := by
  obtain ⟨hg, hx1, hx2, hy1, hy2, hops, holen⟩ := hs
  unfold TBnd
  simp only [walkStep, rnOf_false_eq]
  split_ifs with h1 h2 h3
  · have hmv := move_interior rows cols s.g s.x s.y (oGet s.o 1) hg ⟨hx1, hx2⟩
      ⟨hy1, hy2⟩ hrows hcols (by omega)
    refine ⟨GInv_stamp rows cols s.g s.x s.y _ hg ⟨hx1, hx2⟩ ⟨hy1, hy2⟩,
      hmv.1, hmv.2.1, hmv.2.2.1, hmv.2.2.2, ?_, ?_⟩
    · exact opsOK_append _ _ _ _ hops
        (emitHV_ok rows cols vertex _ _ _ hvx ⟨hmv.1, hmv.2.1⟩ ⟨hmv.2.2.1, hmv.2.2.2⟩
          hrows hcols)
    · rw [rotR_length]
      exact holen
  · have hmv := move_interior rows cols s.g s.x s.y (oGet s.o 0) hg ⟨hx1, hx2⟩
      ⟨hy1, hy2⟩ hrows hcols (by omega)
    exact ⟨GInv_stamp rows cols s.g s.x s.y _ hg ⟨hx1, hx2⟩ ⟨hy1, hy2⟩,
      hmv.1, hmv.2.1, hmv.2.2.1, hmv.2.2.2, hops, holen⟩
  · rw [rotR_rotL s.o rotk]
    have hmv := move_interior rows cols s.g s.x s.y (oGet s.o 7) hg ⟨hx1, hx2⟩
      ⟨hy1, hy2⟩ hrows hcols (by omega)
    have happ : s.ops ++ [emitHV vertex (rotL s.o rotk) s.x s.y,
        emitHV vertex s.o (uAdd s.x (vxGet MN (oGet s.o 7)).1)
          (uAdd s.y (vxGet MN (oGet s.o 7)).2)] =
        (s.ops ++ [emitHV vertex (rotL s.o rotk) s.x s.y]) ++
          [emitHV vertex s.o (uAdd s.x (vxGet MN (oGet s.o 7)).1)
            (uAdd s.y (vxGet MN (oGet s.o 7)).2)] := by simp
    refine ⟨GInv_stamp rows cols _ s.x s.y _
      (GInv_stamp rows cols s.g s.x s.y _ hg ⟨hx1, hx2⟩ ⟨hy1, hy2⟩) ⟨hx1, hx2⟩ ⟨hy1, hy2⟩,
      hmv.1, hmv.2.1, hmv.2.2.1, hmv.2.2.2, ?_, holen⟩
    rw [happ]
    exact opsOK_append _ _ _ _
      (opsOK_append _ _ _ _ hops
        (emitHV_ok rows cols vertex _ _ _ hvx ⟨hx1, hx2⟩ ⟨hy1, hy2⟩ hrows hcols))
      (emitHV_ok rows cols vertex _ _ _ hvx ⟨hmv.1, hmv.2.1⟩ ⟨hmv.2.2.1, hmv.2.2.2⟩
        hrows hcols)
  · refine ⟨GInv_stamp rows cols s.g s.x s.y _ hg ⟨hx1, hx2⟩ ⟨hy1, hy2⟩,
      hx1, hx2, hy1, hy2, ?_, ?_⟩
    · exact opsOK_append _ _ _ _ hops
        (emitHV_ok rows cols vertex _ _ _ hvx ⟨hx1, hx2⟩ ⟨hy1, hy2⟩ hrows hcols)
    · rw [rot_length]
      exact holen

/-- The walking loop preserves the bounds invariant. -/
lemma walkLoop_bnd (outline : Bool) (rows cols rotk viv0 viv1 : Nat)
    (vertex : List (Int × Int)) (value : List Int) (cx cy : Nat)
    (hviv : (outline = true ∧ viv0 = 7 ∧ viv1 = 1) ∨
      (outline = false ∧ viv0 = 1 ∧ viv1 = 7))
    (hvx : ∀ i, -1 ≤ (vxGet vertex i).1 ∧ (vxGet vertex i).1 ≤ 0 ∧
      -1 ≤ (vxGet vertex i).2 ∧ (vxGet vertex i).2 ≤ 0)
    (hrows : rows < 2 ^ 64) (hcols : cols < 2 ^ 64) :
    ∀ (fuel : Nat) (s s' : TState), TBnd rows cols s →
    walkLoop outline rotk viv0 viv1 vertex value cx cy fuel s = some s' →
    TBnd rows cols s' := by
  intro fuel
  induction fuel with
  | zero =>
    intro s s' _ h
    exact absurd h (by simp [walkLoop])
  | succ n ih =>
    intro s s' hs h
    have hs1 : TBnd rows cols (walkStep outline rotk viv0 viv1 vertex value s) := by
      rcases hviv with ⟨rfl, rfl, rfl⟩ | ⟨rfl, rfl, rfl⟩
      · exact walkStep_bnd_outline rows cols rotk vertex value s hvx hs hrows hcols
      · exact walkStep_bnd_hole rows cols rotk vertex value s hvx hs hrows hcols
    rw [walkLoop] at h
    split at h
    · cases h
      exact hs1
    · exact ih _ s' hs1 h

/-- The closing loop preserves the bounds invariant. -/
lemma closeLoop_bnd (rows cols rotk viv2 : Nat) (vertex : List (Int × Int))
    (value : List Int)
    (hvx : ∀ i, -1 ≤ (vxGet vertex i).1 ∧ (vxGet vertex i).1 ≤ 0 ∧
      -1 ≤ (vxGet vertex i).2 ∧ (vxGet vertex i).2 ≤ 0)
    (hrows : rows < 2 ^ 64) (hcols : cols < 2 ^ 64) :
    ∀ (fuel : Nat) (s s' : TState), TBnd rows cols s →
    closeLoop rotk viv2 vertex value fuel s = some s' →
    TBnd rows cols s' := by
  intro fuel
  induction fuel with
  | zero =>
    intro s s' _ h
    exact absurd h (by simp [closeLoop])
  | succ n ih =>
    intro s s' hs h
    obtain ⟨hg, hx1, hx2, hy1, hy2, hops, holen⟩ := hs
    rw [closeLoop] at h
    split at h
    · cases h
      exact ⟨GInv_stamp rows cols s.g s.x s.y _ hg ⟨hx1, hx2⟩ ⟨hy1, hy2⟩,
        hx1, hx2, hy1, hy2, hops, holen⟩
    · refine ih _ s' ?_ h
      refine ⟨GInv_stamp rows cols s.g s.x s.y _ hg ⟨hx1, hx2⟩ ⟨hy1, hy2⟩,
        hx1, hx2, hy1, hy2, ?_, ?_⟩
      · exact opsOK_append _ _ _ _ hops
          (emitHV_ok rows cols vertex _ _ _ hvx ⟨hx1, hx2⟩ ⟨hy1, hy2⟩ hrows hcols)
      · rw [rot_length]
        exact holen

/-- A full `trace_bits` call keeps the grid invariant and emits only
in-bounds commands. -/
lemma trace_bits_bnd (fuel : Nat) (outline : Bool) (rows cols cx cy : Nat)
    (o : List Nat) (rot : Int) (viv : Nat × Nat × Nat) (vertex : List (Int × Int))
    (value : List Int) (g : Grid) (ops : List Op) (cp : Bool) (g' : Grid)
    (ops' : List Op)
    (hviv : (outline = true ∧ viv = (7, 1, 0)) ∨ (outline = false ∧ viv = (1, 7, 6)))
    (hvx : ∀ i, -1 ≤ (vxGet vertex i).1 ∧ (vxGet vertex i).1 ≤ 0 ∧
      -1 ≤ (vxGet vertex i).2 ∧ (vxGet vertex i).2 ≤ 0)
    (hg : GInv rows cols g) (hops : opsCoordsOK cols rows ops)
    (hcx : 1 ≤ cx ∧ cx ≤ cols) (hcy : 1 ≤ cy ∧ cy ≤ rows) (holen : o.length = 8)
    (hrows : rows < 2 ^ 64) (hcols : cols < 2 ^ 64)
    (h : trace_bits fuel outline cx cy o rot viv vertex value g ops cp = some (g', ops')) :
    GInv rows cols g' ∧ opsCoordsOK cols rows ops' := by
  rw [trace_bits] at h
  have hM : opCoordsOK cols rows (Op.M (uAdd cx (vxGet vertex (oGet o 0)).1)
      (uAdd cy (vxGet vertex (oGet o 0)).2)) := by
    rcases hvx (oGet o 0) with ⟨h1, h2, h3, h4⟩
    constructor
    · show uAdd cx (vxGet vertex (oGet o 0)).1 ≤ cols
      unfold uAdd
      omega
    · show uAdd cy (vxGet vertex (oGet o 0)).2 ≤ rows
      unfold uAdd
      omega
  have hs0 : TBnd rows cols
      { x := cx, y := cy, o := o, vn := 1, g := g,
        ops := ops ++ [Op.M (uAdd cx (vxGet vertex (oGet o 0)).1)
          (uAdd cy (vxGet vertex (oGet o 0)).2)] } :=
    ⟨hg, hcx.1, hcx.2, hcy.1, hcy.2, opsOK_append _ _ _ _ hops hM, holen⟩
  split at h
  · exact absurd h (by simp)
  · rename_i s1 hw
    have hs1 : TBnd rows cols s1 := by
      rcases hviv with ⟨rfl, rfl⟩ | ⟨rfl, rfl⟩
      · exact walkLoop_bnd true rows cols (remEuclid8 rot) 7 1 vertex value cx cy
          (Or.inl ⟨rfl, rfl, rfl⟩) hvx hrows hcols fuel _ s1 hs0 hw
      · exact walkLoop_bnd false rows cols (remEuclid8 rot) 1 7 vertex value cx cy
          (Or.inr ⟨rfl, rfl, rfl⟩) hvx hrows hcols fuel _ s1 hs0 hw
    split at h
    · exact absurd h (by simp)
    · rename_i s2 hc
      have hs2 : TBnd rows cols s2 :=
        closeLoop_bnd rows cols (remEuclid8 rot) viv.2.2 vertex value hvx hrows hcols
          fuel s1 s2 hs1 hc
      simp only [Option.some.injEq, Prod.mk.injEq] at h
      rcases h with ⟨hg2, h2⟩
      obtain ⟨hg2i, -, -, -, -, hops2, -⟩ := hs2
      refine ⟨by rw [← hg2]; exact hg2i, ?_⟩
      cases cp with
      | false => rw [← h2]; exact hops2
      | true =>
        rw [← h2]
        exact opsOK_append _ _ _ _ hops2 trivial

/-- One scanner cell keeps the grid invariant and the bounds of the emitted
commands. -/
lemma scanCell_bnd (fuel : Nat) (cp : Bool) (rows cols y x : Nat) (g : Grid)
    (ops : List Op) (ol hl : Nat) (g1 : Grid) (ops1 : List Op) (ol1 hl1 : Nat)
    (hg : GInv rows cols g) (hops : opsCoordsOK cols rows ops)
    (hx : 1 ≤ x ∧ x ≤ cols) (hy : 1 ≤ y ∧ y ≤ rows)
    (hrows : rows < 2 ^ 64) (hcols : cols < 2 ^ 64)
    (h : scanCell fuel cp y (g, ops, ol, hl) x = some (g1, ops1, ol1, hl1)) :
    GInv rows cols g1 ∧ opsCoordsOK cols rows ops1 := by
  simp only [scanCell] at h
  split_ifs at h with h1 h2
  · split at h
    · exact absurd h (by simp)
    · rename_i ga opsa ht
      simp only [Option.some.injEq, Prod.mk.injEq] at h
      rcases h with ⟨hga, hopsa, -, -⟩
      have := trace_bits_bnd fuel true rows cols x y [2, 3, 4, 5, 6, 7, 0, 1] 2 (7, 1, 0)
        O_VERTEX_WITH_BORDER O_VALUE_FOR_SIGNED g ops cp ga opsa
        (Or.inl ⟨rfl, rfl⟩) (vxBnd_border _ (Or.inl rfl)) hg hops hx hy rfl hrows hcols ht
      rw [← hga, ← hopsa]
      exact this
  · split at h
    · exact absurd h (by simp)
    · rename_i ga opsa ht
      simp only [Option.some.injEq, Prod.mk.injEq] at h
      rcases h with ⟨hga, hopsa, -, -⟩
      have := trace_bits_bnd fuel false rows cols x y [4, 5, 6, 7, 0, 1, 2, 3] (-2) (1, 7, 6)
        H_VERTEX_WITH_BORDER H_VALUE_FOR_SIGNED g ops cp ga opsa
        (Or.inr ⟨rfl, rfl⟩) (vxBnd_border _ (Or.inr rfl)) hg hops hx hy rfl hrows hcols ht
      rw [← hga, ← hopsa]
      exact this
  · simp only [Option.some.injEq, Prod.mk.injEq] at h
    rcases h with ⟨hga, hopsa, -, -⟩
    rw [← hga, ← hopsa]
    exact ⟨hg, hops⟩

/-- A row scan keeps the grid invariant and the bounds of the emitted
commands. -/
lemma scanRow_bnd (fuel : Nat) (cp : Bool) (rows cols y : Nat) (xs : List Nat)
    (hy : 1 ≤ y ∧ y ≤ rows) (hxs : ∀ x ∈ xs, 1 ≤ x ∧ x ≤ cols)
    (hrows : rows < 2 ^ 64) (hcols : cols < 2 ^ 64) :
    ∀ (g : Grid) (ops : List Op) (ol hl : Nat) (g1 : Grid) (ops1 : List Op)
      (ol1 hl1 : Nat), GInv rows cols g → opsCoordsOK cols rows ops →
    scanRow fuel cp y xs (g, ops, ol, hl) = some (g1, ops1, ol1, hl1) →
    GInv rows cols g1 ∧ opsCoordsOK cols rows ops1 := by
  induction xs with
  | nil =>
    intro g ops ol hl g1 ops1 ol1 hl1 hg hops h
    simp only [scanRow, Option.some.injEq, Prod.mk.injEq] at h
    rcases h with ⟨hga, hopsa, -, -⟩
    rw [← hga, ← hopsa]
    exact ⟨hg, hops⟩
  | cons a t ih =>
    intro g ops ol hl g1 ops1 ol1 hl1 hg hops h
    simp only [scanRow] at h
    split at h
    · exact absurd h (by simp)
    · rename_i st1 hcell
      obtain ⟨ga, opsa, ola, hla⟩ := st1
      obtain ⟨hga, hopsa⟩ := scanCell_bnd fuel cp rows cols y a g ops ol hl ga opsa ola hla
        hg hops (hxs a (by simp)) hy hrows hcols hcell
      exact ih (fun z hz => hxs z (by simp [hz])) ga opsa ola hla g1 ops1 ol1 hl1
        hga hopsa h

/-- The full scan keeps the grid invariant and the bounds of the emitted
commands. -/
lemma scanRows_bnd (fuel : Nat) (cp : Bool) (rows cols : Nat) (ys : List Nat)
    (hys : ∀ y ∈ ys, 1 ≤ y ∧ y ≤ rows)
    (hrows : rows < 2 ^ 64) (hcols : cols < 2 ^ 64) :
    ∀ (g : Grid) (ops : List Op) (g1 : Grid) (ops1 : List Op),
    GInv rows cols g → opsCoordsOK cols rows ops →
    scanRows fuel cp cols ys (g, ops) = some (g1, ops1) →
    GInv rows cols g1 ∧ opsCoordsOK cols rows ops1 := by
  induction ys with
  | nil =>
    intro g ops g1 ops1 hg hops h
    simp only [scanRows, Option.some.injEq, Prod.mk.injEq] at h
    rcases h with ⟨hga, hopsa⟩
    rw [← hga, ← hopsa]
    exact ⟨hg, hops⟩
  | cons a t ih =>
    intro g ops g1 ops1 hg hops h
    rw [scanRows] at h
    cases hrow : scanRow fuel cp a (List.range' 1 cols) (g, ops, 0, 0) with
    | none => rw [hrow] at h; exact absurd h (by simp)
    | some st1 =>
      rw [hrow] at h
      obtain ⟨g2, ops2, o2, h2⟩ := st1
      obtain ⟨hg2, hops2⟩ := scanRow_bnd fuel cp rows cols a (List.range' 1 cols)
        (hys a (by simp)) (fun z hz => by
          rw [List.mem_range'_1] at hz
          omega) hrows hcols g ops 0 0 g2 ops2 o2 h2 hg hops hrow
      exact ih (fun z hz => hys z (by simp [hz])) g2 ops2 g1 ops1 hg2 hops2 h

/-- The freshly built contour grid satisfies the grid invariant. -/
lemma initContours_GInv (bits : List (List Int)) (rows cols : Nat) :
    GInv rows cols (initContours bits rows cols) := by
  intro y x h
  unfold initContours at h
  split at h
  · rename_i hin
    exact ⟨hin.2.2.1, hin.2.2.2, hin.1, hin.2.1⟩
  · exact absurd rfl h

/-- Array half of claim C7: every command emitted by `bits_to_paths` carries
coordinates inside `[0, cols] × [0, rows]`. -/
lemma bits_to_paths_bnd_core (bits : List (List Int)) (cp : Bool) (ops : List Op)
    (hrows : bits.length < 2 ^ 64) (hcols : (bits.headD []).length < 2 ^ 64)
    (h : bitsToPathsOps bits cp = some ops) :
    opsCoordsOK (bits.headD []).length bits.length ops := by
  simp only [bitsToPathsOps] at h
  cases hs : scanRows (gridFuel bits.length (bits.headD []).length) cp
      (bits.headD []).length (List.range' 1 bits.length)
      (initContours bits bits.length (bits.headD []).length, []) with
  | none => rw [hs] at h; exact absurd h (by simp)
  | some p =>
    rw [hs] at h
    obtain ⟨g2, ops2⟩ := p
    simp only [Option.some.injEq] at h
    rw [← h]
    exact (scanRows_bnd (gridFuel bits.length (bits.headD []).length) cp bits.length
      (bits.headD []).length (List.range' 1 bits.length)
      (fun z hz => by
        rw [List.mem_range'_1] at hz
        omega) hrows hcols
      (initContours bits bits.length (bits.headD []).length) [] g2 ops2
      (initContours_GInv bits bits.length (bits.headD []).length)
      (fun op hop => absurd hop (List.not_mem_nil op)) hs).2

/-- `u32 wrapping_add 0` below the wrap point. -/
lemma uAdd32_zero (x : Nat) (h : x < 2 ^ 32) : uAdd32 x 0 = x := by
  unfold uAdd32
  omega

/-- `u32 wrapping_add 1` below the wrap point. -/
lemma uAdd32_one (x : Nat) (h : x + 1 < 2 ^ 32) : uAdd32 x 1 = x + 1 := by
  unfold uAdd32
  omega

/-- `u32 wrapping_add (-1)` on a positive value below the wrap point. -/
lemma uAdd32_neg_one (x : Nat) (h1 : 1 ≤ x) (h2 : x < 2 ^ 32) : uAdd32 x (-1) = x - 1 := by
  unfold uAdd32
  omega

/-- Both vertex offset tables of the image backend only hold offsets in
`[0, 1]`. -/
lemma vxBnd_noborder (vertex : List (Int × Int))
    (hv : vertex = O_VERTEX_NO_BORDER ∨ vertex = H_VERTEX_NO_BORDER) :
    ∀ i, 0 ≤ (vxGet vertex i).1 ∧ (vxGet vertex i).1 ≤ 1 ∧
      0 ≤ (vxGet vertex i).2 ∧ (vxGet vertex i).2 ≤ 1 := by
  intro i
  rcases hv with rfl | rfl
  · match i with
    | 0 => decide
    | 1 => decide
    | 2 => decide
    | 3 => decide
    | 4 => decide
    | 5 => decide
    | 6 => decide
    | i + 7 =>
      have h7 : vxGet O_VERTEX_NO_BORDER (i + 7) = (0, 0) := rfl
      rw [h7]
      norm_num
  · match i with
    | 0 => decide
    | 1 => decide
    | 2 => decide
    | 3 => decide
    | 4 => decide
    | 5 => decide
    | 6 => decide
    | i + 7 =>
      have h7 : vxGet H_VERTEX_NO_BORDER (i + 7) = (0, 0) := rfl
      rw [h7]
      norm_num

/-- An image emission at an in-range tracer position stays inside
`[0, maxx + 1] × [0, maxy + 1]`. -/
lemma emitHVImg_ok (maxx maxy : Nat) (vertex : List (Int × Int)) (o : List Nat)
    (x y : Nat)
    (hvx : ∀ i, 0 ≤ (vxGet vertex i).1 ∧ (vxGet vertex i).1 ≤ 1 ∧
      0 ≤ (vxGet vertex i).2 ∧ (vxGet vertex i).2 ≤ 1)
    (hx : x ≤ maxx) (hy : y ≤ maxy)
    (hmx : maxx + 1 < 2 ^ 32) (hmy : maxy + 1 < 2 ^ 32) :
    opCoordsOK (maxx + 1) (maxy + 1) (emitHVImg vertex o x y) := by
  rcases hvx (oGet o 0) with ⟨h1, h2, h3, h4⟩
  unfold emitHVImg
  split
  · show uAdd32 x (vxGet vertex (oGet o 0)).1 ≤ maxx + 1
    unfold uAdd32
    omega
  · show uAdd32 y (vxGet vertex (oGet o 0)).2 ≤ maxy + 1
    unfold uAdd32
    omega

/-- A non-clamped neighbor read sends the corresponding Moore move to an
in-range pixel. -/
lemma moveImg_bnd (b : List (List Nat)) (maxx maxy x y : Nat) (d : Nat)
    (hx : x ≤ maxx) (hy : y ≤ maxy)
    (hmx : maxx + 1 < 2 ^ 32) (hmy : maxy + 1 < 2 ^ 32)
    (hnb : nbGetU (neighborsImg b maxx maxy x y) d ≠ 32) :
    uAdd32 x (vxGet MN d).1 ≤ maxx ∧ uAdd32 y (vxGet MN d).2 ≤ maxy := by
  match d with
  | 0 =>
    have hg : ¬y = 0 := fun hq => hnb
      (show (if y = 0 then 32 else pixGet b x (y - 1)) = 32 from if_pos hq)
    show uAdd32 x 0 ≤ maxx ∧ uAdd32 y (-1) ≤ maxy
    rw [uAdd32_zero x (by omega), uAdd32_neg_one y (by omega) (by omega)]
    omega
  | 1 =>
    have hg : ¬(x = maxx ∨ y = 0) := fun hq => hnb
      (show (if x = maxx ∨ y = 0 then 32 else pixGet b (x + 1) (y - 1)) = 32 from if_pos hq)
    push_neg at hg
    show uAdd32 x 1 ≤ maxx ∧ uAdd32 y (-1) ≤ maxy
    rw [uAdd32_one x (by omega), uAdd32_neg_one y (by omega) (by omega)]
    rcases hg with ⟨hg1, hg2⟩
    omega
  | 2 =>
    have hg : ¬x = maxx := fun hq => hnb
      (show (if x = maxx then 32 else pixGet b (x + 1) y) = 32 from if_pos hq)
    show uAdd32 x 1 ≤ maxx ∧ uAdd32 y 0 ≤ maxy
    rw [uAdd32_one x (by omega), uAdd32_zero y (by omega)]
    omega
  | 3 =>
    have hg : ¬(x = maxx ∨ y = maxy) := fun hq => hnb
      (show (if x = maxx ∨ y = maxy then 32 else pixGet b (x + 1) (y + 1)) = 32 from
        if_pos hq)
    push_neg at hg
    rcases hg with ⟨hg1, hg2⟩
    show uAdd32 x 1 ≤ maxx ∧ uAdd32 y 1 ≤ maxy
    rw [uAdd32_one x (by omega), uAdd32_one y (by omega)]
    omega
  | 4 =>
    have hg : ¬y = maxy := fun hq => hnb
      (show (if y = maxy then 32 else pixGet b x (y + 1)) = 32 from if_pos hq)
    show uAdd32 x 0 ≤ maxx ∧ uAdd32 y 1 ≤ maxy
    rw [uAdd32_zero x (by omega), uAdd32_one y (by omega)]
    omega
  | 5 =>
    have hg : ¬(x = 0 ∨ y = maxy) := fun hq => hnb
      (show (if x = 0 ∨ y = maxy then 32 else pixGet b (x - 1) (y + 1)) = 32 from
        if_pos hq)
    push_neg at hg
    rcases hg with ⟨hg1, hg2⟩
    show uAdd32 x (-1) ≤ maxx ∧ uAdd32 y 1 ≤ maxy
    rw [uAdd32_neg_one x (by omega) (by omega), uAdd32_one y (by omega)]
    omega
  | 6 =>
    have hg : ¬x = 0 := fun hq => hnb
      (show (if x = 0 then 32 else pixGet b (x - 1) y) = 32 from if_pos hq)
    show uAdd32 x (-1) ≤ maxx ∧ uAdd32 y 0 ≤ maxy
    rw [uAdd32_neg_one x (by omega) (by omega), uAdd32_zero y (by omega)]
    omega
  | 7 =>
    have hg : ¬(x = 0 ∨ y = 0) := fun hq => hnb
      (show (if x = 0 ∨ y = 0 then 32 else pixGet b (x - 1) (y - 1)) = 32 from if_pos hq)
    push_neg at hg
    rcases hg with ⟨hg1, hg2⟩
    show uAdd32 x (-1) ≤ maxx ∧ uAdd32 y (-1) ≤ maxy
    rw [uAdd32_neg_one x (by omega) (by omega), uAdd32_neg_one y (by omega) (by omega)]
    omega
  | d + 8 =>
    exact absurd (show nbGetU (neighborsImg b maxx maxy x y) (d + 8) = 32 from rfl) hnb

/-- Unfolding of the outline reachable-neighbor test of the image backend. -/
lemma rnOfImg_true_eq (nb : List Nat) (o : List Nat) :
    rnOfImg true nb o =
      (if nbGetU nb (oGet o 7) < 32 ∧ nbGetU nb (oGet o 0) < 32 then 1
       else if nbGetU nb (oGet o 0) < 32 then 2
       else if nbGetU nb (oGet o 1) < 32 ∧ nbGetU nb (oGet o 2) < 32 then 3
       else 0) := rfl

/-- Unfolding of the hole reachable-neighbor test of the image backend. -/
lemma rnOfImg_false_eq (nb : List Nat) (o : List Nat) :
    rnOfImg false nb o =
      (if 32 < nbGetU nb (oGet o 1) ∧ 32 < nbGetU nb (oGet o 0) then 1
       else if 32 < nbGetU nb (oGet o 0) then 2
       else if 32 < nbGetU nb (oGet o 7) ∧ 32 < nbGetU nb (oGet o 6) then 3
       else 0) := rfl

/-- Bounds invariant of one tracer state of the image backend. -/
def IBnd (maxx maxy : Nat) (s : ISt) : Prop :=
  s.x ≤ maxx ∧ s.y ≤ maxy ∧ s.o.length = 8 ∧
    opsCoordsOK (maxx + 1) (maxy + 1) s.ops

/-- One outline walking step of the image tracer preserves the bounds
invariant. -/
lemma walkStepImg_bnd_outline (maxx maxy rotk : Nat) (vertex : List (Int × Int))
    (value : List Int) (s : ISt)
    (hvx : ∀ i, 0 ≤ (vxGet vertex i).1 ∧ (vxGet vertex i).1 ≤ 1 ∧
      0 ≤ (vxGet vertex i).2 ∧ (vxGet vertex i).2 ≤ 1)
    (hs : IBnd maxx maxy s)
    (hmx : maxx + 1 < 2 ^ 32) (hmy : maxy + 1 < 2 ^ 32) :
    IBnd maxx maxy (walkStepImg true rotk 7 1 vertex value maxx maxy s) := by
  obtain ⟨hx, hy, holen, hops⟩ := hs
  unfold IBnd
  simp only [walkStepImg, rnOfImg_true_eq]
  split_ifs with h1 h2 h3
  · have hmv := moveImg_bnd s.b maxx maxy s.x s.y (oGet s.o 7) hx hy hmx hmy (by omega)
    refine ⟨hmv.1, hmv.2, ?_, ?_⟩
    · rw [rotR_length]
      exact holen
    · exact opsOK_append _ _ _ _ hops
        (emitHVImg_ok maxx maxy vertex _ _ _ hvx hmv.1 hmv.2 hmx hmy)
  · have hmv := moveImg_bnd s.b maxx maxy s.x s.y (oGet s.o 0) hx hy hmx hmy (by omega)
    exact ⟨hmv.1, hmv.2, holen, hops⟩
  · rw [rotR_rotL s.o rotk]
    have hmv := moveImg_bnd s.b maxx maxy s.x s.y (oGet s.o 1) hx hy hmx hmy (by omega)
    have happ : s.ops ++ [emitHVImg vertex (rotL s.o rotk) s.x s.y,
        emitHVImg vertex s.o (uAdd32 s.x (vxGet MN (oGet s.o 1)).1)
          (uAdd32 s.y (vxGet MN (oGet s.o 1)).2)] =
        (s.ops ++ [emitHVImg vertex (rotL s.o rotk) s.x s.y]) ++
          [emitHVImg vertex s.o (uAdd32 s.x (vxGet MN (oGet s.o 1)).1)
            (uAdd32 s.y (vxGet MN (oGet s.o 1)).2)] := by simp
    refine ⟨hmv.1, hmv.2, holen, ?_⟩
    rw [happ]
    exact opsOK_append _ _ _ _
      (opsOK_append _ _ _ _ hops (emitHVImg_ok maxx maxy vertex _ _ _ hvx hx hy hmx hmy))
      (emitHVImg_ok maxx maxy vertex _ _ _ hvx hmv.1 hmv.2 hmx hmy)
  · refine ⟨hx, hy, ?_, ?_⟩
    · rw [rot_length]
      exact holen
    · exact opsOK_append _ _ _ _ hops
        (emitHVImg_ok maxx maxy vertex _ _ _ hvx hx hy hmx hmy)

/-- One hole walking step of the image tracer preserves the bounds
invariant. -/
lemma walkStepImg_bnd_hole (maxx maxy rotk : Nat) (vertex : List (Int × Int))
    (value : List Int) (s : ISt)
    (hvx : ∀ i, 0 ≤ (vxGet vertex i).1 ∧ (vxGet vertex i).1 ≤ 1 ∧
      0 ≤ (vxGet vertex i).2 ∧ (vxGet vertex i).2 ≤ 1)
    (hs : IBnd maxx maxy s)
    (hmx : maxx + 1 < 2 ^ 32) (hmy : maxy + 1 < 2 ^ 32) :
    IBnd maxx maxy (walkStepImg false rotk 1 7 vertex value maxx maxy s) := by
  obtain ⟨hx, hy, holen, hops⟩ := hs
  unfold IBnd
  simp only [walkStepImg, rnOfImg_false_eq]
  split_ifs with h1 h2 h3
  · have hmv := moveImg_bnd s.b maxx maxy s.x s.y (oGet s.o 1) hx hy hmx hmy (by omega)
    refine ⟨hmv.1, hmv.2, ?_, ?_⟩
    · rw [rotR_length]
      exact holen
    · exact opsOK_append _ _ _ _ hops
        (emitHVImg_ok maxx maxy vertex _ _ _ hvx hmv.1 hmv.2 hmx hmy)
  · have hmv := moveImg_bnd s.b maxx maxy s.x s.y (oGet s.o 0) hx hy hmx hmy (by omega)
    exact ⟨hmv.1, hmv.2, holen, hops⟩
  · rw [rotR_rotL s.o rotk]
    have hmv := moveImg_bnd s.b maxx maxy s.x s.y (oGet s.o 7) hx hy hmx hmy (by omega)
    have happ : s.ops ++ [emitHVImg vertex (rotL s.o rotk) s.x s.y,
        emitHVImg vertex s.o (uAdd32 s.x (vxGet MN (oGet s.o 7)).1)
          (uAdd32 s.y (vxGet MN (oGet s.o 7)).2)] =
        (s.ops ++ [emitHVImg vertex (rotL s.o rotk) s.x s.y]) ++
          [emitHVImg vertex s.o (uAdd32 s.x (vxGet MN (oGet s.o 7)).1)
            (uAdd32 s.y (vxGet MN (oGet s.o 7)).2)] := by simp
    refine ⟨hmv.1, hmv.2, holen, ?_⟩
    rw [happ]
    exact opsOK_append _ _ _ _
      (opsOK_append _ _ _ _ hops (emitHVImg_ok maxx maxy vertex _ _ _ hvx hx hy hmx hmy))
      (emitHVImg_ok maxx maxy vertex _ _ _ hvx hmv.1 hmv.2 hmx hmy)
  · refine ⟨hx, hy, ?_, ?_⟩
    · rw [rot_length]
      exact holen
    · exact opsOK_append _ _ _ _ hops
        (emitHVImg_ok maxx maxy vertex _ _ _ hvx hx hy hmx hmy)

/-- The image walking loop preserves the bounds invariant. -/
lemma walkLoopImg_bnd (outline : Bool) (maxx maxy rotk viv0 viv1 : Nat)
    (vertex : List (Int × Int)) (value : List Int) (cx cy : Nat)
    (hviv : (outline = true ∧ viv0 = 7 ∧ viv1 = 1) ∨
      (outline = false ∧ viv0 = 1 ∧ viv1 = 7))
    (hvx : ∀ i, 0 ≤ (vxGet vertex i).1 ∧ (vxGet vertex i).1 ≤ 1 ∧
      0 ≤ (vxGet vertex i).2 ∧ (vxGet vertex i).2 ≤ 1)
    (hmx : maxx + 1 < 2 ^ 32) (hmy : maxy + 1 < 2 ^ 32) :
    ∀ (fuel : Nat) (s s' : ISt), IBnd maxx maxy s →
    walkLoopImg outline rotk viv0 viv1 vertex value maxx maxy cx cy fuel s = some s' →
    IBnd maxx maxy s' := by
  intro fuel
  induction fuel with
  | zero =>
    intro s s' _ h
    exact absurd h (by simp [walkLoopImg])
  | succ n ih =>
    intro s s' hs h
    have hs1 : IBnd maxx maxy (walkStepImg outline rotk viv0 viv1 vertex value maxx maxy s) := by
      rcases hviv with ⟨rfl, rfl, rfl⟩ | ⟨rfl, rfl, rfl⟩
      · exact walkStepImg_bnd_outline maxx maxy rotk vertex value s hvx hs hmx hmy
      · exact walkStepImg_bnd_hole maxx maxy rotk vertex value s hvx hs hmx hmy
    rw [walkLoopImg] at h
    split at h
    · cases h
      exact hs1
    · exact ih _ s' hs1 h

/-- The image closing loop preserves the bounds invariant. -/
lemma closeLoopImg_bnd (maxx maxy rotk viv2 : Nat) (vertex : List (Int × Int))
    (value : List Int)
    (hvx : ∀ i, 0 ≤ (vxGet vertex i).1 ∧ (vxGet vertex i).1 ≤ 1 ∧
      0 ≤ (vxGet vertex i).2 ∧ (vxGet vertex i).2 ≤ 1)
    (hmx : maxx + 1 < 2 ^ 32) (hmy : maxy + 1 < 2 ^ 32) :
    ∀ (fuel : Nat) (s s' : ISt), IBnd maxx maxy s →
    closeLoopImg rotk viv2 vertex value fuel s = some s' →
    IBnd maxx maxy s' := by
  intro fuel
  induction fuel with
  | zero =>
    intro s s' _ h
    exact absurd h (by simp [closeLoopImg])
  | succ n ih =>
    intro s s' hs h
    obtain ⟨hx, hy, holen, hops⟩ := hs
    rw [closeLoopImg] at h
    split at h
    · cases h
      exact ⟨hx, hy, holen, hops⟩
    · refine ih _ s' ?_ h
      refine ⟨hx, hy, ?_, ?_⟩
      · rw [rot_length]
        exact holen
      · exact opsOK_append _ _ _ _ hops
          (emitHVImg_ok maxx maxy vertex _ _ _ hvx hx hy hmx hmy)

/-- A full `trace_single_l8` call emits only in-bounds commands. -/
lemma trace_single_l8_bnd (fuel : Nat) (outline : Bool) (width height cx cy : Nat)
    (o : List Nat) (rot : Int) (viv : Nat × Nat × Nat) (vertex : List (Int × Int))
    (value : List Int) (b : List (List Nat)) (ops : List Op) (cp : Bool)
    (b' : List (List Nat)) (ops' : List Op)
    (hviv : (outline = true ∧ viv = (7, 1, 0)) ∨ (outline = false ∧ viv = (1, 7, 6)))
    (hvx : ∀ i, 0 ≤ (vxGet vertex i).1 ∧ (vxGet vertex i).1 ≤ 1 ∧
      0 ≤ (vxGet vertex i).2 ∧ (vxGet vertex i).2 ≤ 1)
    (hops : opsCoordsOK width height ops)
    (hcx : cx < width) (hcy : cy < height) (holen : o.length = 8)
    (hw : width < 2 ^ 32) (hh : height < 2 ^ 32)
    (h : trace_single_l8 fuel outline cx cy o rot viv vertex value width height b ops cp
      = some (b', ops')) :
    opsCoordsOK width height ops' := by
  simp only [trace_single_l8] at h
  rw [uAdd32_neg_one width (by omega) (by omega),
    uAdd32_neg_one height (by omega) (by omega)] at h
  have hwc : width - 1 + 1 = width := by omega
  have hhc : height - 1 + 1 = height := by omega
  have hM : opCoordsOK width height
      (Op.M (uAdd32 cx (vxGet vertex (oGet o 0)).1)
        (uAdd32 cy (vxGet vertex (oGet o 0)).2)) := by
    rcases hvx (oGet o 0) with ⟨h1, h2, h3, h4⟩
    constructor
    · show uAdd32 cx (vxGet vertex (oGet o 0)).1 ≤ width
      unfold uAdd32
      omega
    · show uAdd32 cy (vxGet vertex (oGet o 0)).2 ≤ height
      unfold uAdd32
      omega
  have hs0 : IBnd (width - 1) (height - 1)
      { x := cx, y := cy, o := o, vn := 1, b := b,
        ops := ops ++ [Op.M (uAdd32 cx (vxGet vertex (oGet o 0)).1)
          (uAdd32 cy (vxGet vertex (oGet o 0)).2)] } := by
    refine ⟨show cx ≤ width - 1 by omega, show cy ≤ height - 1 by omega, holen, ?_⟩
    show opsCoordsOK (width - 1 + 1) (height - 1 + 1) _
    rw [hwc, hhc]
    exact opsOK_append _ _ _ _ hops hM
  split at h
  · exact absurd h (by simp)
  · rename_i s1 hwalk
    have hs1 : IBnd (width - 1) (height - 1) s1 := by
      rcases hviv with ⟨rfl, rfl⟩ | ⟨rfl, rfl⟩
      · exact walkLoopImg_bnd true (width - 1) (height - 1) (remEuclid8 rot) 7 1
          vertex value cx cy (Or.inl ⟨rfl, rfl, rfl⟩) hvx (by omega) (by omega)
          fuel _ s1 hs0 hwalk
      · exact walkLoopImg_bnd false (width - 1) (height - 1) (remEuclid8 rot) 1 7
          vertex value cx cy (Or.inr ⟨rfl, rfl, rfl⟩) hvx (by omega) (by omega)
          fuel _ s1 hs0 hwalk
    split at h
    · exact absurd h (by simp)
    · rename_i s2 hc
      have hs2 : IBnd (width - 1) (height - 1) s2 :=
        closeLoopImg_bnd (width - 1) (height - 1) (remEuclid8 rot) viv.2.2 vertex value
          hvx (by omega) (by omega) fuel s1 s2 hs1 hc
      obtain ⟨-, -, -, hops2⟩ := hs2
      rw [hwc, hhc] at hops2
      simp only [Option.some.injEq, Prod.mk.injEq] at h
      rcases h with ⟨-, h2⟩
      cases cp with
      | false => rw [← h2]; exact hops2
      | true =>
        rw [← h2]
        exact opsOK_append _ _ _ _ hops2 trivial

/-- One image scanner cell keeps the bounds of the emitted commands. -/
lemma scanCellImg_bnd (fuel : Nat) (cp : Bool) (width height y x : Nat)
    (b : List (List Nat)) (ops : List Op) (ol hl : Nat) (b1 : List (List Nat))
    (ops1 : List Op) (ol1 hl1 : Nat)
    (hops : opsCoordsOK width height ops)
    (hx : x < width) (hy : y < height) (hw : width < 2 ^ 32) (hh : height < 2 ^ 32)
    (h : scanCellImg fuel cp width height y (b, ops, ol, hl) x = some (b1, ops1, ol1, hl1)) :
    opsCoordsOK width height ops1 := by
  simp only [scanCellImg] at h
  split_ifs at h with h1 h2
  · split at h
    · exact absurd h (by simp)
    · rename_i ba opsa ht
      simp only [Option.some.injEq, Prod.mk.injEq] at h
      rcases h with ⟨-, hopsa, -, -⟩
      rw [← hopsa]
      exact trace_single_l8_bnd fuel true width height x y [2, 3, 4, 5, 6, 7, 0, 1] 2
        (7, 1, 0) O_VERTEX_NO_BORDER O_VALUE_FOR_UNSIGNED b ops cp ba opsa
        (Or.inl ⟨rfl, rfl⟩) (vxBnd_noborder _ (Or.inl rfl)) hops hx hy rfl hw hh ht
  · split at h
    · exact absurd h (by simp)
    · rename_i ba opsa ht
      simp only [Option.some.injEq, Prod.mk.injEq] at h
      rcases h with ⟨-, hopsa, -, -⟩
      rw [← hopsa]
      exact trace_single_l8_bnd fuel false width height x y [4, 5, 6, 7, 0, 1, 2, 3] (-2)
        (1, 7, 6) H_VERTEX_NO_BORDER H_VALUE_FOR_UNSIGNED b ops cp ba opsa
        (Or.inr ⟨rfl, rfl⟩) (vxBnd_noborder _ (Or.inr rfl)) hops hx hy rfl hw hh ht
  · simp only [Option.some.injEq, Prod.mk.injEq] at h
    rcases h with ⟨-, hopsa, -, -⟩
    rw [← hopsa]
    exact hops

/-- An image row scan keeps the bounds of the emitted commands. -/
lemma scanRowImg_bnd (fuel : Nat) (cp : Bool) (width height y : Nat) (xs : List Nat)
    (hy : y < height) (hxs : ∀ x ∈ xs, x < width)
    (hw : width < 2 ^ 32) (hh : height < 2 ^ 32) :
    ∀ (b : List (List Nat)) (ops : List Op) (ol hl : Nat) (b1 : List (List Nat))
      (ops1 : List Op) (ol1 hl1 : Nat), opsCoordsOK width height ops →
    scanRowImg fuel cp width height y xs (b, ops, ol, hl) = some (b1, ops1, ol1, hl1) →
    opsCoordsOK width height ops1 := by
  induction xs with
  | nil =>
    intro b ops ol hl b1 ops1 ol1 hl1 hops h
    simp only [scanRowImg, Option.some.injEq, Prod.mk.injEq] at h
    rcases h with ⟨-, hopsa, -, -⟩
    rw [← hopsa]
    exact hops
  | cons a t ih =>
    intro b ops ol hl b1 ops1 ol1 hl1 hops h
    simp only [scanRowImg] at h
    split at h
    · exact absurd h (by simp)
    · rename_i st1 hcell
      obtain ⟨ba, opsa, ola, hla⟩ := st1
      exact ih (fun z hz => hxs z (by simp [hz])) ba opsa ola hla b1 ops1 ol1 hl1
        (scanCellImg_bnd fuel cp width height y a b ops ol hl ba opsa ola hla hops
          (hxs a (by simp)) hy hw hh hcell) h

/-- The full image scan keeps the bounds of the emitted commands. -/
lemma scanRowsImg_bnd (fuel : Nat) (cp : Bool) (width height : Nat) (ys : List Nat)
    (hys : ∀ y ∈ ys, y < height) (hw : width < 2 ^ 32) (hh : height < 2 ^ 32) :
    ∀ (b : List (List Nat)) (ops : List Op) (b1 : List (List Nat)) (ops1 : List Op),
    opsCoordsOK width height ops →
    scanRowsImg fuel cp width height ys (b, ops) = some (b1, ops1) →
    opsCoordsOK width height ops1 := by
  induction ys with
  | nil =>
    intro b ops b1 ops1 hops h
    simp only [scanRowsImg, Option.some.injEq, Prod.mk.injEq] at h
    rcases h with ⟨-, hopsa⟩
    rw [← hopsa]
    exact hops
  | cons a t ih =>
    intro b ops b1 ops1 hops h
    rw [scanRowsImg] at h
    cases hrow : scanRowImg fuel cp width height a (List.range width) (b, ops, 0, 0) with
    | none => rw [hrow] at h; exact absurd h (by simp)
    | some st1 =>
      rw [hrow] at h
      obtain ⟨b2, ops2, o2, h2⟩ := st1
      exact ih (fun z hz => hys z (by simp [hz])) b2 ops2 b1 ops1
        (scanRowImg_bnd fuel cp width height a (List.range width) (hys a (by simp))
          (fun z hz => List.mem_range.mp hz) hw hh b ops 0 0 b2 ops2 o2 h2 hops hrow) h

/-- Image half of claim C7: every command emitted by `single_l8_to_paths`
carries coordinates inside `[0, image_width] × [0, image_height]`. -/
lemma singleL8Ops_bnd_core (b : List (List Nat)) (luma : Nat) (cp : Bool) (ops : List Op)
    (hw : (b.headD []).length < 2 ^ 32) (hh : b.length < 2 ^ 32)
    (h : singleL8Ops b luma cp = some ops) :
    opsCoordsOK (b.headD []).length b.length ops := by
  simp only [singleL8Ops] at h
  cases hs : scanRowsImg (gridFuel b.length (b.headD []).length) cp
      (b.headD []).length b.length (List.range b.length) (remapPixels b luma, []) with
  | none => rw [hs] at h; exact absurd h (by simp)
  | some p =>
    rw [hs] at h
    obtain ⟨b2, ops2⟩ := p
    simp only [Option.some.injEq] at h
    rw [← h]
    exact scanRowsImg_bnd (gridFuel b.length (b.headD []).length) cp
      (b.headD []).length b.length (List.range b.length)
      (fun z hz => List.mem_range.mp hz) hw hh (remapPixels b luma) [] b2 ops2
      (fun op hop => absurd hop (List.not_mem_nil op)) hs

/-- C7: every coordinate appearing in an emitted `M`, `H`, or `V` command of
`bits_to_paths` lies within the grid bounds inclusive — `x` in `[0, width]`
and `y` in `[0, height]` — and analogously within
`[0, image_width] × [0, image_height]` for `single_l8_to_paths`.  The size
hypotheses only restate that the dimensions fit in `usize` / `u32`. -/
theorem emitted_coords_in_bounds :
    (∀ bits cp ops, bits.length < 2 ^ 64 → (bits.headD []).length < 2 ^ 64 →
      bitsToPathsOps bits cp = some ops →
      ∀ op ∈ ops, opCoordsOK (bits.headD []).length bits.length op) ∧
    (∀ b luma cp ops, (b.headD []).length < 2 ^ 32 → b.length < 2 ^ 32 →
      singleL8Ops b luma cp = some ops →
      ∀ op ∈ ops, opCoordsOK (b.headD []).length b.length op) :=
  ⟨fun bits cp ops hr hc h => bits_to_paths_bnd_core bits cp ops hr hc h,
   fun b luma cp ops hw hh h => singleL8Ops_bnd_core b luma cp ops hw hh h⟩

/-- Witness for C7 at a concrete grid and a concrete image. -/
theorem emitted_coords_in_bounds_w :
    (∀ op ∈ [Op.M 0 0, Op.H 1, Op.V 1, Op.H 0], opCoordsOK 1 1 op) ∧
    (∀ op ∈ [Op.M 0 0, Op.H 1, Op.V 1, Op.H 0], opCoordsOK 1 1 op) :=
  ⟨emitted_coords_in_bounds.1 [[1]] false [Op.M 0 0, Op.H 1, Op.V 1, Op.H 0]
      (by decide) (by decide) (by decide),
   emitted_coords_in_bounds.2 [[7]] 7 false [Op.M 0 0, Op.H 1, Op.V 1, Op.H 0]
      (by decide) (by decide) (by decide)⟩

/-! ## Claim C6: the fully foreground grid produces one minimal rectangle

The trace of the all-ones grid is simulated exactly.  The contour grid passes
through explicit phases: `gFull` (fresh), `gEa t` (east walk up to column
`t`), `gSo t` (south walk), `gWe t` (west walk), `gNo t` (north walk), and
`gFin` (after the closing loop). -/

/-- Orientation array facing east. -/
def oEl : List Nat := [2, 3, 4, 5, 6, 7, 0, 1]

/-- Orientation array facing south. -/
def oSl : List Nat := [4, 5, 6, 7, 0, 1, 2, 3]

/-- Orientation array facing west. -/
def oWl : List Nat := [6, 7, 0, 1, 2, 3, 4, 5]

/-- Orientation array facing north. -/
def oNl : List Nat := [0, 1, 2, 3, 4, 5, 6, 7]

/-- The contour grid of the fully foreground `W` by `H` input. -/
def gFull (W H : Nat) : Grid :=
  fun y x => if 1 ≤ x ∧ x ≤ W ∧ 1 ≤ y ∧ y ≤ H then 1 else 0

/-- Top row stamped eastward up to (not including) column `t`. -/
def gEa (W H t : Nat) : Grid :=
  fun y x => if y = 1 ∧ 1 ≤ x ∧ x < t then 3 else gFull W H y x

/-- Right column stamped southward up to (not including) row `t`. -/
def gSo (W H t : Nat) : Grid :=
  fun y x => if x = W ∧ 1 ≤ y ∧ y < t then (if y = 1 then 7 else 5)
    else gEa W H (W + 1) y x

/-- Bottom row stamped westward down to (not including) column `t`. -/
def gWe (W H t : Nat) : Grid :=
  fun y x => if y = H ∧ t < x ∧ x ≤ W then (if x = W then 13 else 9)
    else gSo W H (H + 1) y x

/-- Left column stamped northward up to (not including) row `t`. -/
def gNo (W H t : Nat) : Grid :=
  fun y x => if x = 1 ∧ t < y ∧ y ≤ H then (if y = H then 10 else 2)
    else gWe W H 0 y x

/-- The final contour grid after the single outline trace (`W, H ≥ 2`). -/
def gFin (W H : Nat) : Grid :=
  fun y x => if y = 1 ∧ x = 1 then 4 else gNo W H 1 y x

/-- One straight east step on the top row. -/
lemma stepE (W H x vn : Nat) (ops : List Op)
    (hx1 : 1 ≤ x) (hx2 : x < W) (hH : 1 ≤ H) (hW64 : W + 2 < 2 ^ 64) :
    walkStep true 2 7 1 O_VERTEX_WITH_BORDER O_VALUE_FOR_SIGNED
      ⟨x, 1, oEl, vn, gEa W H x, ops⟩ = ⟨x + 1, 1, oEl, vn, gEa W H (x + 1), ops⟩ := by
  have hrn : rnOf true (neighborsAt (gEa W H x) x 1) oEl = 2 := by
    rw [rnOf_true_eq]
    have e7 : nbGet (neighborsAt (gEa W H x) x 1) (oGet oEl 7) = gEa W H x 0 (x + 1) := rfl
    have e0 : nbGet (neighborsAt (gEa W H x) x 1) (oGet oEl 0) = gEa W H x 1 (x + 1) := rfl
    have v7 : gEa W H x 0 (x + 1) = 0 := by
      simp only [gEa, gFull]
      split_ifs <;> omega
    have v0 : gEa W H x 1 (x + 1) = 1 := by
      simp only [gEa, gFull]
      split_ifs <;> omega
    rw [if_neg, if_pos]
    · rw [e0, v0]
      norm_num
    · rw [e7, e0, v7, v0]
      norm_num
  simp only [walkStep, hrn]
  have hst : stampCell (gEa W H x) x 1 (vGet O_VALUE_FOR_SIGNED (oGet oEl 0)) =
      gEa W H (x + 1) := by
    rw [show vGet O_VALUE_FOR_SIGNED (oGet oEl 0) = 2 from rfl]
    funext y' x'
    simp only [stampCell, gEa, gFull]
    split_ifs <;> omega
  rw [show uAdd x (vxGet MN (oGet oEl 0)).1 = x + 1 from uAdd_one x (by omega),
    show uAdd 1 (vxGet MN (oGet oEl 0)).2 = 1 from uAdd_zero 1 (by omega), hst]

/-- The east walk along the top row. -/
lemma walkE (W H : Nat) (hW : 2 ≤ W) (hH : 1 ≤ H) (hW64 : W + 2 < 2 ^ 64) :
    ∀ (k x vn : Nat) (ops : List Op) (f : Nat), x + k = W → 1 ≤ x →
    walkLoop true 2 7 1 O_VERTEX_WITH_BORDER O_VALUE_FOR_SIGNED 1 1 (k + f)
      ⟨x, 1, oEl, vn, gEa W H x, ops⟩ =
    walkLoop true 2 7 1 O_VERTEX_WITH_BORDER O_VALUE_FOR_SIGNED 1 1 f
      ⟨W, 1, oEl, vn, gEa W H W, ops⟩ := by
  intro k
  induction k with
  | zero =>
    intro x vn ops f hk hx1
    have : x = W := by omega
    subst this
    rw [Nat.zero_add]
  | succ k ih =>
    intro x vn ops f hk hx1
    rw [show k + 1 + f = (k + f) + 1 by omega, walkLoop,
      stepE W H x vn ops hx1 (by omega) hH hW64]
    rw [if_neg (by
      rintro ⟨hcon, -, -⟩
      have hx' : x + 1 = 1 := hcon
      omega)]
    exact ih (x + 1) vn ops f (by omega) (by omega)

/-- Generic peel of one non-breaking walking iteration. -/
lemma walkLoop_peel (outline : Bool) (rotk viv0 viv1 : Nat) (vertex : List (Int × Int))
    (value : List Int) (cx cy fuel : Nat) (s s1 : TState)
    (hstep : walkStep outline rotk viv0 viv1 vertex value s = s1)
    (hnb : ¬(s1.x = cx ∧ s1.y = cy ∧ 2 < s1.vn)) :
    walkLoop outline rotk viv0 viv1 vertex value cx cy (fuel + 1) s =
      walkLoop outline rotk viv0 viv1 vertex value cx cy fuel s1 := by
  rw [walkLoop, hstep, if_neg hnb]

/-- Generic peel of the final, breaking walking iteration. -/
lemma walkLoop_last (outline : Bool) (rotk viv0 viv1 : Nat) (vertex : List (Int × Int))
    (value : List Int) (cx cy fuel : Nat) (s s1 : TState)
    (hstep : walkStep outline rotk viv0 viv1 vertex value s = s1)
    (hb : s1.x = cx ∧ s1.y = cy ∧ 2 < s1.vn) :
    walkLoop outline rotk viv0 viv1 vertex value cx cy (fuel + 1) s = some s1 := by
  rw [walkLoop, hstep, if_pos hb]

/-- The first corner of the full-grid trace: turn south at `(W, 1)`. -/
lemma stepCo1 (W H vn : Nat) (ops : List Op)
    (hW : 1 ≤ W) (hH : 1 ≤ H) (hW64 : W + 2 < 2 ^ 64) :
    walkStep true 2 7 1 O_VERTEX_WITH_BORDER O_VALUE_FOR_SIGNED
      ⟨W, 1, oEl, vn, gEa W H W, ops⟩ =
      ⟨W, 1, oSl, vn + 1, gEa W H (W + 1), ops ++ [Op.H W]⟩ := by
  have hrn : rnOf true (neighborsAt (gEa W H W) W 1) oEl = 0 := by
    rw [rnOf_true_eq]
    have e7 : nbGet (neighborsAt (gEa W H W) W 1) (oGet oEl 7) = gEa W H W 0 (W + 1) := rfl
    have e0 : nbGet (neighborsAt (gEa W H W) W 1) (oGet oEl 0) = gEa W H W 1 (W + 1) := rfl
    have e1 : nbGet (neighborsAt (gEa W H W) W 1) (oGet oEl 1) = gEa W H W 2 (W + 1) := rfl
    have v7 : gEa W H W 0 (W + 1) = 0 := by
      simp only [gEa, gFull]
      split_ifs <;> omega
    have v0 : gEa W H W 1 (W + 1) = 0 := by
      simp only [gEa, gFull]
      split_ifs <;> omega
    have v1 : gEa W H W 2 (W + 1) = 0 := by
      simp only [gEa, gFull]
      split_ifs <;> omega
    rw [if_neg, if_neg, if_neg]
    · rw [e1, v1]
      rintro ⟨ha, -⟩
      exact absurd ha (by norm_num)
    · rw [e0, v0]
      norm_num
    · rw [e7, v7]
      rintro ⟨ha, -⟩
      exact absurd ha (by norm_num)
  simp only [walkStep, hrn]
  have hst : stampCell (gEa W H W) W 1 (vGet O_VALUE_FOR_SIGNED (oGet oEl 0)) =
      gEa W H (W + 1) := by
    rw [show vGet O_VALUE_FOR_SIGNED (oGet oEl 0) = 2 from rfl]
    funext y' x'
    simp only [stampCell, gEa, gFull]
    split_ifs <;> omega
  rw [hst]
  show (⟨W, 1, rotL oEl 2, vn + 1, gEa W H (W + 1),
    ops ++ [emitHV O_VERTEX_WITH_BORDER (rotL oEl 2) W 1]⟩ : TState) = _
  rw [show rotL oEl 2 = oSl from rfl,
    show emitHV O_VERTEX_WITH_BORDER oSl W 1 = Op.H (uAdd W 0) from rfl,
    uAdd_zero W (by omega)]

/-- One straight south step on the right column. -/
lemma stepS (W H y vn : Nat) (ops : List Op)
    (hy1 : 1 ≤ y) (hy2 : y < H) (hW : 1 ≤ W) (hW64 : W + 2 < 2 ^ 64)
    (hH64 : H + 2 < 2 ^ 64) :
    walkStep true 2 7 1 O_VERTEX_WITH_BORDER O_VALUE_FOR_SIGNED
      ⟨W, y, oSl, vn, gSo W H y, ops⟩ = ⟨W, y + 1, oSl, vn, gSo W H (y + 1), ops⟩ := by
  have hrn : rnOf true (neighborsAt (gSo W H y) W y) oSl = 2 := by
    rw [rnOf_true_eq]
    have e7 : nbGet (neighborsAt (gSo W H y) W y) (oGet oSl 7) =
      gSo W H y (y + 1) (W + 1) := rfl
    have e0 : nbGet (neighborsAt (gSo W H y) W y) (oGet oSl 0) =
      gSo W H y (y + 1) W := rfl
    have v7 : gSo W H y (y + 1) (W + 1) = 0 := by
      simp only [gSo, gEa, gFull]
      split_ifs <;> omega
    have v0 : gSo W H y (y + 1) W = 1 := by
      simp only [gSo, gEa, gFull]
      split_ifs <;> omega
    rw [if_neg, if_pos]
    · rw [e0, v0]
      norm_num
    · rw [e7, v7]
      rintro ⟨ha, -⟩
      exact absurd ha (by norm_num)
  simp only [walkStep, hrn]
  have hst : stampCell (gSo W H y) W y (vGet O_VALUE_FOR_SIGNED (oGet oSl 0)) =
      gSo W H (y + 1) := by
    rw [show vGet O_VALUE_FOR_SIGNED (oGet oSl 0) = 4 from rfl]
    funext y' x'
    simp only [stampCell, gSo, gEa, gFull]
    split_ifs <;> omega
  rw [show uAdd W (vxGet MN (oGet oSl 0)).1 = W from uAdd_zero W (by omega),
    show uAdd y (vxGet MN (oGet oSl 0)).2 = y + 1 from uAdd_one y (by omega), hst]

/-- The east phase grid at threshold 1 is the untouched full grid. -/
lemma gEa_one (W H : Nat) : gEa W H 1 = gFull W H := by
  funext y x
  simp only [gEa]
  rw [if_neg]
  rintro ⟨-, h1, h2⟩
  omega

/-- The south phase grid at threshold 1 is the finished east grid. -/
lemma gSo_one (W H : Nat) : gSo W H 1 = gEa W H (W + 1) := by
  funext y x
  simp only [gSo]
  rw [if_neg]
  rintro ⟨-, h1, h2⟩
  omega

/-- The west phase grid at threshold `W` is the finished south grid. -/
lemma gWe_W (W H : Nat) : gWe W H W = gSo W H (H + 1) := by
  funext y x
  simp only [gWe]
  rw [if_neg]
  rintro ⟨-, h1, h2⟩
  omega

/-- The north phase grid at threshold `H` is the finished west grid. -/
lemma gNo_H (W H : Nat) : gNo W H H = gWe W H 0 := by
  funext y x
  simp only [gNo]
  rw [if_neg]
  rintro ⟨-, h1, h2⟩
  omega

/-- The full south edge walk, by induction on the remaining distance. -/
lemma walkS (W H : Nat) (hW : 1 ≤ W) (hW64 : W + 2 < 2 ^ 64) (hH64 : H + 2 < 2 ^ 64) :
    ∀ (k y vn : Nat) (ops : List Op) (f : Nat), y + k = H → 1 ≤ y →
    walkLoop true 2 7 1 O_VERTEX_WITH_BORDER O_VALUE_FOR_SIGNED 1 1 (k + f)
      ⟨W, y, oSl, vn, gSo W H y, ops⟩ =
    walkLoop true 2 7 1 O_VERTEX_WITH_BORDER O_VALUE_FOR_SIGNED 1 1 f
      ⟨W, H, oSl, vn, gSo W H H, ops⟩ := by
  intro k
  induction k with
  | zero =>
    intro y vn ops f hk hy1
    have : y = H := by omega
    subst this
    rw [Nat.zero_add]
  | succ k ih =>
    intro y vn ops f hk hy1
    rw [show k + 1 + f = (k + f) + 1 by omega, walkLoop,
      stepS W H y vn ops hy1 (by omega) hW hW64 hH64]
    rw [if_neg (by
      rintro ⟨-, hcon, -⟩
      have hy' : y + 1 = 1 := hcon
      omega)]
    exact ih (y + 1) vn ops f (by omega) (by omega)

/-- The second corner of the full-grid trace: turn west at `(W, H)`. -/
lemma stepCo2 (W H vn : Nat) (ops : List Op)
    (hW : 1 ≤ W) (hH : 1 ≤ H) (hH64 : H + 2 < 2 ^ 64) :
    walkStep true 2 7 1 O_VERTEX_WITH_BORDER O_VALUE_FOR_SIGNED
      ⟨W, H, oSl, vn, gSo W H H, ops⟩ =
      ⟨W, H, oWl, vn + 1, gSo W H (H + 1), ops ++ [Op.V H]⟩ := by
  have hrn : rnOf true (neighborsAt (gSo W H H) W H) oSl = 0 := by
    rw [rnOf_true_eq]
    have e7 : nbGet (neighborsAt (gSo W H H) W H) (oGet oSl 7) =
      gSo W H H (H + 1) (W + 1) := rfl
    have e0 : nbGet (neighborsAt (gSo W H H) W H) (oGet oSl 0) =
      gSo W H H (H + 1) W := rfl
    have e1 : nbGet (neighborsAt (gSo W H H) W H) (oGet oSl 1) =
      gSo W H H (H + 1) (W - 1) := rfl
    have v7 : gSo W H H (H + 1) (W + 1) = 0 := by
      simp only [gSo, gEa, gFull]
      split_ifs <;> omega
    have v0 : gSo W H H (H + 1) W = 0 := by
      simp only [gSo, gEa, gFull]
      split_ifs <;> omega
    have v1 : gSo W H H (H + 1) (W - 1) = 0 := by
      simp only [gSo, gEa, gFull]
      split_ifs <;> omega
    rw [if_neg, if_neg, if_neg]
    · rw [e1, v1]
      rintro ⟨ha, -⟩
      exact absurd ha (by norm_num)
    · rw [e0, v0]
      norm_num
    · rw [e7, v7]
      rintro ⟨ha, -⟩
      exact absurd ha (by norm_num)
  simp only [walkStep, hrn]
  have hst : stampCell (gSo W H H) W H (vGet O_VALUE_FOR_SIGNED (oGet oSl 0)) =
      gSo W H (H + 1) := by
    rw [show vGet O_VALUE_FOR_SIGNED (oGet oSl 0) = 4 from rfl]
    funext y' x'
    simp only [stampCell, gSo, gEa, gFull]
    split_ifs <;> omega
  rw [hst]
  show (⟨W, H, rotL oSl 2, vn + 1, gSo W H (H + 1),
    ops ++ [emitHV O_VERTEX_WITH_BORDER (rotL oSl 2) W H]⟩ : TState) = _
  rw [show rotL oSl 2 = oWl from rfl,
    show emitHV O_VERTEX_WITH_BORDER oWl W H = Op.V (uAdd H 0) from rfl,
    uAdd_zero H (by omega)]

/-- One straight west step on the bottom row. -/
lemma stepW (W H x vn : Nat) (ops : List Op)
    (hx1 : 2 ≤ x) (hx2 : x ≤ W) (hW : 2 ≤ W) (hH : 2 ≤ H)
    (hW64 : W + 2 < 2 ^ 64) (hH64 : H + 2 < 2 ^ 64) :
    walkStep true 2 7 1 O_VERTEX_WITH_BORDER O_VALUE_FOR_SIGNED
      ⟨x, H, oWl, vn, gWe W H x, ops⟩ = ⟨x - 1, H, oWl, vn, gWe W H (x - 1), ops⟩ := by
  have hrn : rnOf true (neighborsAt (gWe W H x) x H) oWl = 2 := by
    rw [rnOf_true_eq]
    have e7 : nbGet (neighborsAt (gWe W H x) x H) (oGet oWl 7) =
      gWe W H x (H + 1) (x - 1) := rfl
    have e0 : nbGet (neighborsAt (gWe W H x) x H) (oGet oWl 0) =
      gWe W H x H (x - 1) := rfl
    have v7 : gWe W H x (H + 1) (x - 1) = 0 := by
      simp only [gWe, gSo, gEa, gFull]
      split_ifs <;> omega
    have v0 : 0 < gWe W H x H (x - 1) := by
      simp only [gWe, gSo, gEa, gFull]
      split_ifs <;> omega
    rw [if_neg, if_pos]
    · rw [e0]
      exact v0
    · rw [e7, v7]
      rintro ⟨ha, -⟩
      exact absurd ha (by norm_num)
  simp only [walkStep, hrn]
  have hst : stampCell (gWe W H x) x H (vGet O_VALUE_FOR_SIGNED (oGet oWl 0)) =
      gWe W H (x - 1) := by
    rw [show vGet O_VALUE_FOR_SIGNED (oGet oWl 0) = 8 from rfl]
    funext y' x'
    simp only [stampCell, gWe, gSo, gEa, gFull]
    split_ifs <;> omega
  rw [show uAdd x (vxGet MN (oGet oWl 0)).1 = x - 1 from
      uAdd_neg_one x (by omega) (by omega),
    show uAdd H (vxGet MN (oGet oWl 0)).2 = H from uAdd_zero H (by omega), hst]

/-- The full west edge walk, by induction on the remaining distance. -/
lemma walkW (W H : Nat) (hW : 2 ≤ W) (hH : 2 ≤ H)
    (hW64 : W + 2 < 2 ^ 64) (hH64 : H + 2 < 2 ^ 64) :
    ∀ (k x vn : Nat) (ops : List Op) (f : Nat), x = k + 1 → x ≤ W →
    walkLoop true 2 7 1 O_VERTEX_WITH_BORDER O_VALUE_FOR_SIGNED 1 1 (k + f)
      ⟨x, H, oWl, vn, gWe W H x, ops⟩ =
    walkLoop true 2 7 1 O_VERTEX_WITH_BORDER O_VALUE_FOR_SIGNED 1 1 f
      ⟨1, H, oWl, vn, gWe W H 1, ops⟩ := by
  intro k
  induction k with
  | zero =>
    intro x vn ops f hk hx2
    have : x = 1 := by omega
    subst this
    rw [Nat.zero_add]
  | succ k ih =>
    intro x vn ops f hk hx2
    rw [show k + 1 + f = (k + f) + 1 by omega, walkLoop,
      stepW W H x vn ops (by omega) hx2 hW hH (by omega) (by omega)]
    rw [if_neg (by
      rintro ⟨-, hcon, -⟩
      have hy' : H = 1 := hcon
      omega)]
    have hx' : x - 1 = k + 1 := by omega
    rw [hx']
    exact ih (k + 1) vn ops f rfl (by omega)

/-- The third corner of the full-grid trace: turn north at `(1, H)`. -/
lemma stepCo3 (W H vn : Nat) (ops : List Op)
    (hW : 1 ≤ W) (hH : 2 ≤ H) :
    walkStep true 2 7 1 O_VERTEX_WITH_BORDER O_VALUE_FOR_SIGNED
      ⟨1, H, oWl, vn, gWe W H 1, ops⟩ =
      ⟨1, H, oNl, vn + 1, gWe W H 0, ops ++ [Op.H 0]⟩ := by
  have hrn : rnOf true (neighborsAt (gWe W H 1) 1 H) oWl = 0 := by
    rw [rnOf_true_eq]
    have e7 : nbGet (neighborsAt (gWe W H 1) 1 H) (oGet oWl 7) =
      gWe W H 1 (H + 1) 0 := rfl
    have e0 : nbGet (neighborsAt (gWe W H 1) 1 H) (oGet oWl 0) =
      gWe W H 1 H 0 := rfl
    have e1 : nbGet (neighborsAt (gWe W H 1) 1 H) (oGet oWl 1) =
      gWe W H 1 (H - 1) 0 := rfl
    have v7 : gWe W H 1 (H + 1) 0 = 0 := by
      simp only [gWe, gSo, gEa, gFull]
      split_ifs <;> omega
    have v0 : gWe W H 1 H 0 = 0 := by
      simp only [gWe, gSo, gEa, gFull]
      split_ifs <;> omega
    have v1 : gWe W H 1 (H - 1) 0 = 0 := by
      simp only [gWe, gSo, gEa, gFull]
      split_ifs <;> omega
    rw [if_neg, if_neg, if_neg]
    · rw [e1, v1]
      rintro ⟨ha, -⟩
      exact absurd ha (by norm_num)
    · rw [e0, v0]
      norm_num
    · rw [e7, v7]
      rintro ⟨ha, -⟩
      exact absurd ha (by norm_num)
  simp only [walkStep, hrn]
  have hst : stampCell (gWe W H 1) 1 H (vGet O_VALUE_FOR_SIGNED (oGet oWl 0)) =
      gWe W H 0 := by
    rw [show vGet O_VALUE_FOR_SIGNED (oGet oWl 0) = 8 from rfl]
    funext y' x'
    simp only [stampCell, gWe, gSo, gEa, gFull]
    split_ifs <;> omega
  rw [hst]
  show (⟨1, H, rotL oWl 2, vn + 1, gWe W H 0,
    ops ++ [emitHV O_VERTEX_WITH_BORDER (rotL oWl 2) 1 H]⟩ : TState) = _
  rw [show rotL oWl 2 = oNl from rfl,
    show emitHV O_VERTEX_WITH_BORDER oNl 1 H = Op.H (uAdd 1 (-1)) from rfl,
    show uAdd 1 (-1) = 0 by unfold uAdd; omega]

set_option maxHeartbeats 1000000 in
/-- One straight north step on the left column. -/
lemma stepN (W H y vn : Nat) (ops : List Op)
    (hy1 : 2 ≤ y) (hy2 : y ≤ H) (hW : 2 ≤ W)
    (hW64 : W + 2 < 2 ^ 64) (hH64 : H + 2 < 2 ^ 64) :
    walkStep true 2 7 1 O_VERTEX_WITH_BORDER O_VALUE_FOR_SIGNED
      ⟨1, y, oNl, vn, gNo W H y, ops⟩ = ⟨1, y - 1, oNl, vn, gNo W H (y - 1), ops⟩ := by
  have hrn : rnOf true (neighborsAt (gNo W H y) 1 y) oNl = 2 := by
    rw [rnOf_true_eq]
    have e7 : nbGet (neighborsAt (gNo W H y) 1 y) (oGet oNl 7) =
      gNo W H y (y - 1) 0 := rfl
    have e0 : nbGet (neighborsAt (gNo W H y) 1 y) (oGet oNl 0) =
      gNo W H y (y - 1) 1 := rfl
    have v7 : gNo W H y (y - 1) 0 = 0 := by
      simp only [gNo, gWe, gSo, gEa, gFull]
      split_ifs <;> omega
    have v0 : 0 < gNo W H y (y - 1) 1 := by
      simp only [gNo, gWe, gSo, gEa, gFull]
      split_ifs <;> omega
    rw [if_neg, if_pos]
    · rw [e0]
      exact v0
    · rw [e7, v7]
      rintro ⟨ha, -⟩
      exact absurd ha (by norm_num)
  simp only [walkStep, hrn]
  have hst : stampCell (gNo W H y) 1 y (vGet O_VALUE_FOR_SIGNED (oGet oNl 0)) =
      gNo W H (y - 1) := by
    rw [show vGet O_VALUE_FOR_SIGNED (oGet oNl 0) = 1 from rfl]
    funext y' x'
    simp only [stampCell, gNo, gWe, gSo, gEa, gFull, true_and, and_true]
    split_ifs <;> omega
  rw [show uAdd 1 (vxGet MN (oGet oNl 0)).1 = 1 from uAdd_zero 1 (by omega),
    show uAdd y (vxGet MN (oGet oNl 0)).2 = y - 1 from
      uAdd_neg_one y (by omega) (by omega), hst]

/-- The north edge walk down to `y = 2`, by induction on the remaining
distance. -/
lemma walkN (W H : Nat) (hW : 2 ≤ W) (hH : 2 ≤ H)
    (hW64 : W + 2 < 2 ^ 64) (hH64 : H + 2 < 2 ^ 64) :
    ∀ (k y vn : Nat) (ops : List Op) (f : Nat), y = k + 2 → y ≤ H →
    walkLoop true 2 7 1 O_VERTEX_WITH_BORDER O_VALUE_FOR_SIGNED 1 1 (k + f)
      ⟨1, y, oNl, vn, gNo W H y, ops⟩ =
    walkLoop true 2 7 1 O_VERTEX_WITH_BORDER O_VALUE_FOR_SIGNED 1 1 f
      ⟨1, 2, oNl, vn, gNo W H 2, ops⟩ := by
  intro k
  induction k with
  | zero =>
    intro y vn ops f hk hy2
    have : y = 2 := by omega
    subst this
    rw [Nat.zero_add]
  | succ k ih =>
    intro y vn ops f hk hy2
    rw [show k + 1 + f = (k + f) + 1 by omega, walkLoop,
      stepN W H y vn ops (by omega) hy2 hW hW64 hH64]
    rw [if_neg (by
      rintro ⟨-, hcon, -⟩
      have hy' : y - 1 = 1 := hcon
      omega)]
    have hy3 : y - 1 = k + 2 := by omega
    rw [hy3]
    exact ih (k + 2) vn ops f rfl (by omega)

set_option maxHeartbeats 1000000 in
/-- The closing loop of the full-grid trace stops immediately, stamping the
start cell to its final value. -/
lemma closeFin (W H vn : Nat) (ops : List Op) (f : Nat)
    (hW : 2 ≤ W) (hH : 2 ≤ H) :
    closeLoop 2 0 O_VERTEX_WITH_BORDER O_VALUE_FOR_SIGNED (f + 1)
      ⟨1, 1, oNl, vn, gNo W H 1, ops⟩ = some ⟨1, 1, oNl, vn, gFin W H, ops⟩ := by
  have hst : stampCell (gNo W H 1) 1 1 (vGet O_VALUE_FOR_SIGNED (oGet oNl 0)) =
      gFin W H := by
    rw [show vGet O_VALUE_FOR_SIGNED (oGet oNl 0) = 1 from rfl]
    funext y' x'
    simp only [stampCell, gFin, gNo, gWe, gSo, gEa, gFull, true_and, and_true]
    split_ifs <;> omega
  simp only [closeLoop]
  rw [if_pos (show oGet oNl 0 = 0 from rfl), hst]

/-- The complete `trace_bits` run on the all-ones grid: it walks the four
edges of the rectangle, emitting `M 0 0`, `H W`, `V H`, `H 0`, and leaves the
grid in its final stamped state `gFin`. -/
lemma trace_full (W H : Nat) (cp : Bool) (fuel : Nat) (hW : 2 ≤ W) (hH : 2 ≤ H)
    (hW64 : W + 2 < 2 ^ 64) (hH64 : H + 2 < 2 ^ 64) (hf : 2 * W + 2 * H ≤ fuel) :
    trace_bits fuel true 1 1 oEl 2 (7, 1, 0) O_VERTEX_WITH_BORDER O_VALUE_FOR_SIGNED
      (gFull W H) [] cp =
      some (gFin W H,
        [Op.M 0 0, Op.H W, Op.V H, Op.H 0] ++ if cp then [Op.Z] else []) := by
  have hwalk : walkLoop true (remEuclid8 2) (7, 1, 0).1 (7, 1, 0).2.1
      O_VERTEX_WITH_BORDER O_VALUE_FOR_SIGNED 1 1 fuel
      { x := 1, y := 1, o := oEl, vn := 1, g := gFull W H,
        ops := [] ++ [Op.M (uAdd 1 (vxGet O_VERTEX_WITH_BORDER (oGet oEl 0)).1)
          (uAdd 1 (vxGet O_VERTEX_WITH_BORDER (oGet oEl 0)).2)] } =
      some ⟨1, 1, oNl, 4, gNo W H 1, [Op.M 0 0, Op.H W, Op.V H, Op.H 0]⟩ := by
    show walkLoop true 2 7 1 O_VERTEX_WITH_BORDER O_VALUE_FOR_SIGNED 1 1 fuel
      ⟨1, 1, oEl, 1, gFull W H, [Op.M 0 0]⟩ =
      some ⟨1, 1, oNl, 4, gNo W H 1, [Op.M 0 0, Op.H W, Op.V H, Op.H 0]⟩
    obtain ⟨r, hr⟩ : ∃ r,
        fuel = W - 1 + (H - 1 + (W - 1 + (H - 2 + (r + 1) + 1) + 1) + 1) :=
      ⟨fuel - (2 * W + 2 * H - 1), by omega⟩
    rw [hr, ← gEa_one]
    refine Eq.trans (walkE W H hW (by omega) hW64 (W - 1) 1 1 [Op.M 0 0] _
      (by omega) (by omega)) ?_
    refine Eq.trans (walkLoop_peel true 2 7 1 O_VERTEX_WITH_BORDER
      O_VALUE_FOR_SIGNED 1 1 _ _ _ (stepCo1 W H 1 [Op.M 0 0] (by omega) (by omega) hW64)
      (by
        rintro ⟨hcon, -, -⟩
        have hc' : W = 1 := hcon
        omega)) ?_
    rw [show gEa W H (W + 1) = gSo W H 1 from (gSo_one W H).symm]
    refine Eq.trans (walkS W H (by omega) hW64 hH64 (H - 1) 1 _ _ _ (by omega)
      (by omega)) ?_
    refine Eq.trans (walkLoop_peel true 2 7 1 O_VERTEX_WITH_BORDER
      O_VALUE_FOR_SIGNED 1 1 _ _ _ (stepCo2 W H _ _ (by omega) (by omega) hH64)
      (by
        rintro ⟨hcon, -, -⟩
        have hc' : W = 1 := hcon
        omega)) ?_
    rw [show gSo W H (H + 1) = gWe W H W from (gWe_W W H).symm]
    refine Eq.trans (walkW W H hW hH hW64 hH64 (W - 1) W _ _ _ (by omega)
      (by omega)) ?_
    refine Eq.trans (walkLoop_peel true 2 7 1 O_VERTEX_WITH_BORDER
      O_VALUE_FOR_SIGNED 1 1 _ _ _ (stepCo3 W H _ _ (by omega) hH)
      (by
        rintro ⟨-, hcon, -⟩
        have hc' : H = 1 := hcon
        omega)) ?_
    rw [show gWe W H 0 = gNo W H H from (gNo_H W H).symm]
    refine Eq.trans (walkN W H hW hH hW64 hH64 (H - 2) H _ _ _ (by omega)
      (by omega)) ?_
    exact walkLoop_last true 2 7 1 O_VERTEX_WITH_BORDER O_VALUE_FOR_SIGNED 1 1 r _ _
      (stepN W H 2 _ _ (by omega) hH hW hW64 hH64)
      ⟨rfl, rfl, show (2 : Nat) < 4 by omega⟩
  have hclose : closeLoop (remEuclid8 2) (7, 1, 0).2.2
      O_VERTEX_WITH_BORDER O_VALUE_FOR_SIGNED fuel
      (⟨1, 1, oNl, 4, gNo W H 1, [Op.M 0 0, Op.H W, Op.V H, Op.H 0]⟩ : TState) =
      some ⟨1, 1, oNl, 4, gFin W H, [Op.M 0 0, Op.H W, Op.V H, Op.H 0]⟩ := by
    show closeLoop 2 0 O_VERTEX_WITH_BORDER O_VALUE_FOR_SIGNED fuel
      ⟨1, 1, oNl, 4, gNo W H 1, [Op.M 0 0, Op.H W, Op.V H, Op.H 0]⟩ =
      some ⟨1, 1, oNl, 4, gFin W H, [Op.M 0 0, Op.H W, Op.V H, Op.H 0]⟩
    obtain ⟨m, hm⟩ : ∃ m, fuel = m + 1 := ⟨fuel - 1, by omega⟩
    rw [hm]
    exact closeFin W H 4 [Op.M 0 0, Op.H W, Op.V H, Op.H 0] m hW hH
  simp only [trace_bits, hwalk, hclose]
  cases cp <;> rfl

/-! ### C6: scanner pass over the finished grid -/

/-- A scanner cell that starts no trace just applies the level bookkeeping. -/
lemma scanCell_noTrace (fuel : Nat) (cp : Bool) (y x : Nat) (g : Grid)
    (ops : List Op) (ol hl : Nat)
    (h1 : ¬(ol = hl ∧ g y x = 1)) (h2 : ¬(hl < ol ∧ g y x = -1)) :
    scanCell fuel cp y (g, ops, ol, hl) x =
      some (g, ops, (levelUpdate (g y x) ol hl).1, (levelUpdate (g y x) ol hl).2) := by
  simp only [scanCell]
  rw [if_neg h1, if_neg h2]

/-- A scanner cell at levels `(0, 0)` on an untouched foreground cell runs the
outline trace and then applies the level bookkeeping to the restamped cell. -/
lemma scanCell_trace0 (fuel : Nat) (cp : Bool) (y x : Nat) (g g1 : Grid)
    (ops ops1 : List Op) (hv : g y x = 1)
    (htr : trace_bits fuel true x y [2, 3, 4, 5, 6, 7, 0, 1] 2 (7, 1, 0)
      O_VERTEX_WITH_BORDER O_VALUE_FOR_SIGNED g ops cp = some (g1, ops1)) :
    scanCell fuel cp y (g, ops, 0, 0) x =
      some (g1, ops1, (levelUpdate (g1 y x) 0 0).1, (levelUpdate (g1 y x) 0 0).2) := by
  simp only [scanCell]
  rw [if_pos ⟨trivial, hv⟩, htr]

/-- Scanning the tail `x..=W` of a row at levels `(1, 0)` over a grid whose
middle cells are level-inert and whose last cell closes the level. -/
lemma scanTail (fuel : Nat) (cp : Bool) (y W : Nat) (g : Grid) (ops : List Op)
    (hmid : ∀ x, 2 ≤ x → x < W →
      g y x ≠ -1 ∧ levelUpdate (g y x) 1 0 = (1, 0))
    (hlast : g y W ≠ -1 ∧ levelUpdate (g y W) 1 0 = (0, 0)) :
    ∀ (k x : Nat), 2 ≤ x → x ≤ W → x + k = W + 1 →
    scanRow fuel cp y (List.range' x k) (g, ops, 1, 0) = some (g, ops, 0, 0) := by
  intro k
  induction k with
  | zero =>
    intro x h2 hxW hk
    exact absurd hk (by omega)
  | succ k ih =>
    intro x h2 hxW hk
    rw [List.range'_succ]
    rcases eq_or_lt_of_le hxW with heq | hlt
    · subst heq
      have hk0 : k = 0 := by omega
      subst hk0
      simp only [scanRow, scanCell_noTrace fuel cp y x g ops 1 0
        (by rintro ⟨h, -⟩; exact absurd h (by omega))
        (by rintro ⟨-, h⟩; exact hlast.1 h),
        hlast.2, List.range'_zero]
    · obtain ⟨hne, hlv⟩ := hmid x h2 hlt
      simp only [scanRow, scanCell_noTrace fuel cp y x g ops 1 0
        (by rintro ⟨h, -⟩; exact absurd h (by omega))
        (by rintro ⟨-, h⟩; exact hne h),
        hlv]
      exact ih (x + 1) (by omega) (by omega) (by omega)

/-- A whole scanner row (width at least 2) over a finished grid: the first
cell opens the level, the middle cells are inert, the last cell closes it,
and no trace starts. -/
lemma scanRowNoTrace (fuel : Nat) (cp : Bool) (y W : Nat) (g : Grid)
    (ops : List Op) (hW : 2 ≤ W)
    (hfirst : g y 1 ≠ 1 ∧ levelUpdate (g y 1) 0 0 = (1, 0))
    (hmid : ∀ x, 2 ≤ x → x < W →
      g y x ≠ -1 ∧ levelUpdate (g y x) 1 0 = (1, 0))
    (hlast : g y W ≠ -1 ∧ levelUpdate (g y W) 1 0 = (0, 0)) :
    scanRow fuel cp y (List.range' 1 W) (g, ops, 0, 0) = some (g, ops, 0, 0) := by
  have hr : List.range' 1 W = 1 :: List.range' 2 (W - 1) := by
    conv_lhs => rw [show W = (W - 1) + 1 by omega]
    rw [List.range'_succ]
  rw [hr]
  simp only [scanRow, scanCell_noTrace fuel cp y 1 g ops 0 0
    (by rintro ⟨-, h⟩; exact hfirst.1 h)
    (by rintro ⟨h, -⟩; exact absurd h (by omega)),
    hfirst.2]
  exact scanTail fuel cp y W g ops hmid hlast (W - 1) 2 (by omega) hW (by omega)

/-- A one-cell scanner row over a finished grid with a level-inert cell. -/
lemma scanRowSingle (fuel : Nat) (cp : Bool) (y : Nat) (g : Grid) (ops : List Op)
    (hcell : g y 1 ≠ 1 ∧ levelUpdate (g y 1) 0 0 = (0, 0)) :
    scanRow fuel cp y (List.range' 1 1) (g, ops, 0, 0) = some (g, ops, 0, 0) := by
  rw [List.range'_one]
  simp only [scanRow, scanCell_noTrace fuel cp y 1 g ops 0 0
    (by rintro ⟨-, h⟩; exact hcell.1 h)
    (by rintro ⟨h, -⟩; exact absurd h (by omega)),
    hcell.2]

/-- The first scanner row (width at least 2): the first cell starts the one
outline trace, the remaining cells only move the levels up and back down. -/
lemma scanRowFirst (fuel : Nat) (cp : Bool) (W : Nat) (g g1 : Grid)
    (ops ops1 : List Op) (hW : 2 ≤ W) (hv : g 1 1 = 1)
    (htr : trace_bits fuel true 1 1 [2, 3, 4, 5, 6, 7, 0, 1] 2 (7, 1, 0)
      O_VERTEX_WITH_BORDER O_VALUE_FOR_SIGNED g ops cp = some (g1, ops1))
    (hlv1 : levelUpdate (g1 1 1) 0 0 = (1, 0))
    (hmid : ∀ x, 2 ≤ x → x < W →
      g1 1 x ≠ -1 ∧ levelUpdate (g1 1 x) 1 0 = (1, 0))
    (hlast : g1 1 W ≠ -1 ∧ levelUpdate (g1 1 W) 1 0 = (0, 0)) :
    scanRow fuel cp 1 (List.range' 1 W) (g, ops, 0, 0) = some (g1, ops1, 0, 0) := by
  have hr : List.range' 1 W = 1 :: List.range' 2 (W - 1) := by
    conv_lhs => rw [show W = (W - 1) + 1 by omega]
    rw [List.range'_succ]
  rw [hr]
  simp only [scanRow, scanCell_trace0 fuel cp 1 1 g g1 ops ops1 hv htr, hlv1]
  exact scanTail fuel cp 1 W g1 ops1 hmid hlast (W - 1) 2 (by omega) hW (by omega)

/-- The first scanner row of a one-cell-wide grid: the single cell starts the
one outline trace and its restamped value is level-inert. -/
lemma scanRowFirstSingle (fuel : Nat) (cp : Bool) (g g1 : Grid)
    (ops ops1 : List Op) (hv : g 1 1 = 1)
    (htr : trace_bits fuel true 1 1 [2, 3, 4, 5, 6, 7, 0, 1] 2 (7, 1, 0)
      O_VERTEX_WITH_BORDER O_VALUE_FOR_SIGNED g ops cp = some (g1, ops1))
    (hlv1 : levelUpdate (g1 1 1) 0 0 = (0, 0)) :
    scanRow fuel cp 1 (List.range' 1 1) (g, ops, 0, 0) = some (g1, ops1, 0, 0) := by
  rw [List.range'_one]
  simp only [scanRow, scanCell_trace0 fuel cp 1 1 g g1 ops ops1 hv htr, hlv1]

/-- All scanner rows after the first leave grid and output unchanged. -/
lemma scanRowsTail (fuel : Nat) (cp : Bool) (W H : Nat) (g : Grid) (ops : List Op)
    (hrow : ∀ y, 2 ≤ y → y ≤ H →
      scanRow fuel cp y (List.range' 1 W) (g, ops, 0, 0) = some (g, ops, 0, 0)) :
    ∀ (k y : Nat), 2 ≤ y → y + k = H + 1 →
    scanRows fuel cp W (List.range' y k) (g, ops) = some (g, ops) := by
  intro k
  induction k with
  | zero =>
    intro y h2 hk
    rw [List.range'_zero]
    rfl
  | succ k ih =>
    intro y h2 hk
    rw [List.range'_succ]
    simp only [scanRows, hrow y h2 (by omega)]
    exact ih (y + 1) (by omega) (by omega)

/-- The all-ones `bits` input: `vec![vec![1; W]; H]`. -/
def fullBits (W H : Nat) : List (List Int) :=
  List.replicate H (List.replicate W 1)

/-- `getD` on a replicated list, inside the range. -/
lemma replicate_getD {α : Type} (n i : Nat) (a d : α) (h : i < n) :
    (List.replicate n a).getD i d = a := by
  induction n generalizing i with
  | zero => omega
  | succ n ih =>
    cases i with
    | zero => rfl
    | succ i => exact ih i (by omega)

/-- The contour grid built from the all-ones input is the all-ones grid. -/
lemma initContours_full (W H : Nat) :
    initContours (fullBits W H) H W = gFull W H := by
  funext y x
  simp only [initContours, gFull]
  by_cases h1 : 1 ≤ y ∧ y ≤ H ∧ 1 ≤ x ∧ x ≤ W
  · have hb : (((fullBits W H).getD (y - 1) []).getD (x - 1) 0 : Int) = 1 := by
      rw [fullBits, replicate_getD H (y - 1) (List.replicate W 1) [] (by omega),
        replicate_getD W (x - 1) 1 0 (by omega)]
    rw [if_pos h1, hb, if_pos rfl, if_pos (by omega)]
  · rw [if_neg h1, if_neg (by rintro ⟨a, b, c, d⟩; exact h1 ⟨c, d, a, b⟩)]

/-- Value of the finished grid at the first cell of a later row. -/
lemma gFin_first (W H y : Nat) (hW : 2 ≤ W) (hy : 2 ≤ y) (hyH : y ≤ H) :
    gFin W H y 1 = 2 ∨ gFin W H y 1 = 10 := by
  simp only [gFin, gNo, gWe, gSo, gEa, gFull, true_and, and_true]
  split_ifs <;> omega

/-- Value of the finished grid at a middle cell of a row. -/
lemma gFin_mid (W H y x : Nat) (hy : 1 ≤ y) (hyH : y ≤ H) (hx : 2 ≤ x)
    (hxW : x < W) :
    gFin W H y x = 1 ∨ gFin W H y x = 3 ∨ gFin W H y x = 9 := by
  simp only [gFin, gNo, gWe, gSo, gEa, gFull, true_and, and_true]
  split_ifs <;> omega

/-- Value of the finished grid at the last cell of a row. -/
lemma gFin_last (W H y : Nat) (hW : 2 ≤ W) (hy : 1 ≤ y) (hyH : y ≤ H) :
    gFin W H y W = 5 ∨ gFin W H y W = 7 ∨ gFin W H y W = 13 := by
  simp only [gFin, gNo, gWe, gSo, gEa, gFull, true_and, and_true]
  split_ifs <;> omega

/-- The complete scanner pass for `W ≥ 2`, `H ≥ 2`: the very first cell runs
the one full-rectangle trace and every other cell only moves the levels. -/
lemma scan_full (W H fuel : Nat) (cp : Bool) (hW : 2 ≤ W) (hH : 2 ≤ H)
    (hW64 : W + 2 < 2 ^ 64) (hH64 : H + 2 < 2 ^ 64) (hf : 2 * W + 2 * H ≤ fuel) :
    scanRows fuel cp W (List.range' 1 H) (gFull W H, []) =
      some (gFin W H,
        [Op.M 0 0, Op.H W, Op.V H, Op.H 0] ++ if cp then [Op.Z] else []) := by
  have htr : trace_bits fuel true 1 1 [2, 3, 4, 5, 6, 7, 0, 1] 2 (7, 1, 0)
      O_VERTEX_WITH_BORDER O_VALUE_FOR_SIGNED (gFull W H) [] cp =
      some (gFin W H,
        [Op.M 0 0, Op.H W, Op.V H, Op.H 0] ++ if cp then [Op.Z] else []) :=
    trace_full W H cp fuel hW hH hW64 hH64 hf
  have hmid : ∀ x, 2 ≤ x → x < W → ∀ y, 1 ≤ y → y ≤ H →
      gFin W H y x ≠ -1 ∧ levelUpdate (gFin W H y x) 1 0 = (1, 0) := by
    intro x h2 hxW y hy hyH
    rcases gFin_mid W H y x hy hyH h2 hxW with h | h | h <;>
      rw [h] <;> exact ⟨by decide, rfl⟩
  have hlast : ∀ y, 1 ≤ y → y ≤ H →
      gFin W H y W ≠ -1 ∧ levelUpdate (gFin W H y W) 1 0 = (0, 0) := by
    intro y hy hyH
    rcases gFin_last W H y hW hy hyH with h | h | h <;>
      rw [h] <;> exact ⟨by decide, rfl⟩
  have hrow1 : scanRow fuel cp 1 (List.range' 1 W) (gFull W H, [], 0, 0) =
      some (gFin W H,
        [Op.M 0 0, Op.H W, Op.V H, Op.H 0] ++ if cp then [Op.Z] else [], 0, 0) := by
    refine scanRowFirst fuel cp W (gFull W H) (gFin W H) [] _ hW ?_ htr rfl ?_ ?_
    · simp only [gFull]
      rw [if_pos (by omega)]
    · intro x h2 hxW
      exact hmid x h2 hxW 1 (by omega) (by omega)
    · exact hlast 1 (by omega) (by omega)
  have hrows : ∀ y, 2 ≤ y → y ≤ H →
      scanRow fuel cp y (List.range' 1 W)
        (gFin W H,
          [Op.M 0 0, Op.H W, Op.V H, Op.H 0] ++ if cp then [Op.Z] else [], 0, 0) =
      some (gFin W H,
        [Op.M 0 0, Op.H W, Op.V H, Op.H 0] ++ if cp then [Op.Z] else [], 0, 0) := by
    intro y h2 hyH
    refine scanRowNoTrace fuel cp y W (gFin W H) _ hW ?_ ?_ ?_
    · rcases gFin_first W H y hW h2 hyH with h | h <;>
        rw [h] <;> exact ⟨by decide, rfl⟩
    · intro x hx2 hxW
      exact hmid x hx2 hxW y (by omega) hyH
    · exact hlast y (by omega) hyH
  have hr : List.range' 1 H = 1 :: List.range' 2 (H - 1) := by
    conv_lhs => rw [show H = (H - 1) + 1 by omega]
    rw [List.range'_succ]
  rw [hr]
  simp only [scanRows, hrow1]
  exact scanRowsTail fuel cp W H (gFin W H) _ hrows (H - 1) 2 (by omega) (by omega)

/-! ### C6: degenerate one-column and one-row grids -/

/-- North phase grid for the one-column grid (`W = 1`). -/
def cNo (H t : Nat) : Grid := fun y x =>
  if x = 1 ∧ t < y ∧ y ≤ H then (if y = H then 14 else 6) else gWe 1 H 0 y x

/-- Final grid of the one-column trace. -/
def cFin (H : Nat) : Grid := fun y x =>
  if y = 1 ∧ x = 1 then 8 else cNo H 1 y x

/-- The one-column north phase grid at threshold `H` is the finished west
grid. -/
lemma cNo_H (H : Nat) : cNo H H = gWe 1 H 0 := by
  funext y x
  simp only [cNo]
  rw [if_neg]
  rintro ⟨-, h1, h2⟩
  omega

set_option maxHeartbeats 1000000 in
/-- One straight north step on the one-column grid. -/
lemma stepN1 (H y vn : Nat) (ops : List Op)
    (hy1 : 2 ≤ y) (hy2 : y ≤ H) (hH : 2 ≤ H) (hH64 : H + 2 < 2 ^ 64) :
    walkStep true 2 7 1 O_VERTEX_WITH_BORDER O_VALUE_FOR_SIGNED
      ⟨1, y, oNl, vn, cNo H y, ops⟩ = ⟨1, y - 1, oNl, vn, cNo H (y - 1), ops⟩ := by
  have hrn : rnOf true (neighborsAt (cNo H y) 1 y) oNl = 2 := by
    rw [rnOf_true_eq]
    have e7 : nbGet (neighborsAt (cNo H y) 1 y) (oGet oNl 7) =
      cNo H y (y - 1) 0 := rfl
    have e0 : nbGet (neighborsAt (cNo H y) 1 y) (oGet oNl 0) =
      cNo H y (y - 1) 1 := rfl
    have v7 : cNo H y (y - 1) 0 = 0 := by
      simp only [cNo, gWe, gSo, gEa, gFull, true_and, and_true, false_and, and_false, if_false, if_true]
      split_ifs <;> first | omega | simp_all
    have v0 : 0 < cNo H y (y - 1) 1 := by
      simp only [cNo, gWe, gSo, gEa, gFull, true_and, and_true, false_and, and_false, if_false, if_true]
      split_ifs <;> first | omega | simp_all
    rw [if_neg, if_pos]
    · rw [e0]
      exact v0
    · rw [e7, v7]
      rintro ⟨ha, -⟩
      exact absurd ha (by norm_num)
  simp only [walkStep, hrn]
  have hst : stampCell (cNo H y) 1 y (vGet O_VALUE_FOR_SIGNED (oGet oNl 0)) =
      cNo H (y - 1) := by
    rw [show vGet O_VALUE_FOR_SIGNED (oGet oNl 0) = 1 from rfl]
    funext y' x'
    simp only [stampCell, cNo, gWe, gSo, gEa, gFull, true_and, and_true, false_and, and_false, if_false, if_true]
    split_ifs <;> first | omega | simp_all
  rw [show uAdd 1 (vxGet MN (oGet oNl 0)).1 = 1 from uAdd_zero 1 (by omega),
    show uAdd y (vxGet MN (oGet oNl 0)).2 = y - 1 from
      uAdd_neg_one y (by omega) (by omega), hst]

/-- The one-column north edge walk down to `y = 2`. -/
lemma walkN1 (H : Nat) (hH : 2 ≤ H) (hH64 : H + 2 < 2 ^ 64) :
    ∀ (k y vn : Nat) (ops : List Op) (f : Nat), y = k + 2 → y ≤ H →
    walkLoop true 2 7 1 O_VERTEX_WITH_BORDER O_VALUE_FOR_SIGNED 1 1 (k + f)
      ⟨1, y, oNl, vn, cNo H y, ops⟩ =
    walkLoop true 2 7 1 O_VERTEX_WITH_BORDER O_VALUE_FOR_SIGNED 1 1 f
      ⟨1, 2, oNl, vn, cNo H 2, ops⟩ := by
  intro k
  induction k with
  | zero =>
    intro y vn ops f hk hy2
    have : y = 2 := by omega
    subst this
    rw [Nat.zero_add]
  | succ k ih =>
    intro y vn ops f hk hy2
    rw [show k + 1 + f = (k + f) + 1 by omega, walkLoop,
      stepN1 H y vn ops (by omega) hy2 hH hH64]
    rw [if_neg (by
      rintro ⟨-, hcon, -⟩
      have hy' : y - 1 = 1 := hcon
      omega)]
    have hy3 : y - 1 = k + 2 := by omega
    rw [hy3]
    exact ih (k + 2) vn ops f rfl (by omega)

set_option maxHeartbeats 1000000 in
/-- The closing loop of the one-column trace stops immediately. -/
lemma closeFin1 (H vn : Nat) (ops : List Op) (f : Nat) (hH : 2 ≤ H) :
    closeLoop 2 0 O_VERTEX_WITH_BORDER O_VALUE_FOR_SIGNED (f + 1)
      ⟨1, 1, oNl, vn, cNo H 1, ops⟩ = some ⟨1, 1, oNl, vn, cFin H, ops⟩ := by
  have hst : stampCell (cNo H 1) 1 1 (vGet O_VALUE_FOR_SIGNED (oGet oNl 0)) =
      cFin H := by
    rw [show vGet O_VALUE_FOR_SIGNED (oGet oNl 0) = 1 from rfl]
    funext y' x'
    simp only [stampCell, cFin, cNo, gWe, gSo, gEa, gFull, true_and, and_true, false_and, and_false, if_false, if_true]
    split_ifs <;> first | omega | simp_all
  simp only [closeLoop]
  rw [if_pos (show oGet oNl 0 = 0 from rfl), hst]

/-- The complete `trace_bits` run on the all-ones one-column grid. -/
lemma trace_full_col (H : Nat) (cp : Bool) (fuel : Nat) (hH : 2 ≤ H)
    (hH64 : H + 2 < 2 ^ 64) (hf : 2 + 2 * H ≤ fuel) :
    trace_bits fuel true 1 1 oEl 2 (7, 1, 0) O_VERTEX_WITH_BORDER O_VALUE_FOR_SIGNED
      (gFull 1 H) [] cp =
      some (cFin H,
        [Op.M 0 0, Op.H 1, Op.V H, Op.H 0] ++ if cp then [Op.Z] else []) := by
  have hwalk : walkLoop true (remEuclid8 2) (7, 1, 0).1 (7, 1, 0).2.1
      O_VERTEX_WITH_BORDER O_VALUE_FOR_SIGNED 1 1 fuel
      { x := 1, y := 1, o := oEl, vn := 1, g := gFull 1 H,
        ops := [] ++ [Op.M (uAdd 1 (vxGet O_VERTEX_WITH_BORDER (oGet oEl 0)).1)
          (uAdd 1 (vxGet O_VERTEX_WITH_BORDER (oGet oEl 0)).2)] } =
      some ⟨1, 1, oNl, 4, cNo H 1, [Op.M 0 0, Op.H 1, Op.V H, Op.H 0]⟩ := by
    show walkLoop true 2 7 1 O_VERTEX_WITH_BORDER O_VALUE_FOR_SIGNED 1 1 fuel
      ⟨1, 1, oEl, 1, gFull 1 H, [Op.M 0 0]⟩ =
      some ⟨1, 1, oNl, 4, cNo H 1, [Op.M 0 0, Op.H 1, Op.V H, Op.H 0]⟩
    obtain ⟨r, hr⟩ : ∃ r, fuel = (H - 1 + (H - 2 + (r + 1) + 1 + 1)) + 1 :=
      ⟨fuel - (2 * H + 1), by omega⟩
    rw [hr, ← gEa_one]
    refine Eq.trans (walkLoop_peel true 2 7 1 O_VERTEX_WITH_BORDER
      O_VALUE_FOR_SIGNED 1 1 _ _ _
      (stepCo1 1 H 1 [Op.M 0 0] (by omega) (by omega) (by norm_num))
      (by
        rintro ⟨-, -, hcon⟩
        have hc' : (2 : Nat) < 1 + 1 := hcon
        omega)) ?_
    rw [show gEa 1 H (1 + 1) = gSo 1 H 1 from (gSo_one 1 H).symm]
    refine Eq.trans (walkS 1 H (by omega) (by norm_num) hH64 (H - 1) 1 _ _ _
      (by omega) (by omega)) ?_
    refine Eq.trans (walkLoop_peel true 2 7 1 O_VERTEX_WITH_BORDER
      O_VALUE_FOR_SIGNED 1 1 _ _ _ (stepCo2 1 H _ _ (by omega) (by omega) hH64)
      (by
        rintro ⟨-, hcon, -⟩
        have hc' : H = 1 := hcon
        omega)) ?_
    rw [show gSo 1 H (H + 1) = gWe 1 H 1 from (gWe_W 1 H).symm]
    refine Eq.trans (walkLoop_peel true 2 7 1 O_VERTEX_WITH_BORDER
      O_VALUE_FOR_SIGNED 1 1 _ _ _ (stepCo3 1 H _ _ (by omega) hH)
      (by
        rintro ⟨-, hcon, -⟩
        have hc' : H = 1 := hcon
        omega)) ?_
    rw [show gWe 1 H 0 = cNo H H from (cNo_H H).symm]
    refine Eq.trans (walkN1 H hH hH64 (H - 2) H _ _ _ (by omega) (by omega)) ?_
    exact walkLoop_last true 2 7 1 O_VERTEX_WITH_BORDER O_VALUE_FOR_SIGNED 1 1 r _ _
      (stepN1 H 2 _ _ (by omega) hH hH hH64)
      ⟨rfl, rfl, show (2 : Nat) < 4 by omega⟩
  have hclose : closeLoop (remEuclid8 2) (7, 1, 0).2.2
      O_VERTEX_WITH_BORDER O_VALUE_FOR_SIGNED fuel
      (⟨1, 1, oNl, 4, cNo H 1, [Op.M 0 0, Op.H 1, Op.V H, Op.H 0]⟩ : TState) =
      some ⟨1, 1, oNl, 4, cFin H, [Op.M 0 0, Op.H 1, Op.V H, Op.H 0]⟩ := by
    show closeLoop 2 0 O_VERTEX_WITH_BORDER O_VALUE_FOR_SIGNED fuel
      ⟨1, 1, oNl, 4, cNo H 1, [Op.M 0 0, Op.H 1, Op.V H, Op.H 0]⟩ =
      some ⟨1, 1, oNl, 4, cFin H, [Op.M 0 0, Op.H 1, Op.V H, Op.H 0]⟩
    obtain ⟨m, hm⟩ : ∃ m, fuel = m + 1 := ⟨fuel - 1, by omega⟩
    rw [hm]
    exact closeFin1 H 4 [Op.M 0 0, Op.H 1, Op.V H, Op.H 0] m hH
  simp only [trace_bits, hwalk, hclose]
  cases cp <;> rfl

/-- Values of the finished one-column grid below the first row. -/
lemma cFin_later (H y : Nat) (hy : 2 ≤ y) (hyH : y ≤ H) :
    cFin H y 1 = 6 ∨ cFin H y 1 = 14 := by
  simp only [cFin, cNo, gWe, gSo, gEa, gFull, true_and, and_true, false_and, and_false, if_false, if_true]
  split_ifs <;> first | omega | simp_all

/-- The complete scanner pass for the one-column grid. -/
lemma scan_full_col (H fuel : Nat) (cp : Bool) (hH : 2 ≤ H)
    (hH64 : H + 2 < 2 ^ 64) (hf : 2 + 2 * H ≤ fuel) :
    scanRows fuel cp 1 (List.range' 1 H) (gFull 1 H, []) =
      some (cFin H,
        [Op.M 0 0, Op.H 1, Op.V H, Op.H 0] ++ if cp then [Op.Z] else []) := by
  have htr : trace_bits fuel true 1 1 [2, 3, 4, 5, 6, 7, 0, 1] 2 (7, 1, 0)
      O_VERTEX_WITH_BORDER O_VALUE_FOR_SIGNED (gFull 1 H) [] cp =
      some (cFin H,
        [Op.M 0 0, Op.H 1, Op.V H, Op.H 0] ++ if cp then [Op.Z] else []) :=
    trace_full_col H cp fuel hH hH64 hf
  have hrow1 : scanRow fuel cp 1 (List.range' 1 1) (gFull 1 H, [], 0, 0) =
      some (cFin H,
        [Op.M 0 0, Op.H 1, Op.V H, Op.H 0] ++ if cp then [Op.Z] else [], 0, 0) := by
    refine scanRowFirstSingle fuel cp (gFull 1 H) (cFin H) [] _ ?_ htr rfl
    simp only [gFull]
    rw [if_pos (by omega)]
  have hrows : ∀ y, 2 ≤ y → y ≤ H →
      scanRow fuel cp y (List.range' 1 1)
        (cFin H,
          [Op.M 0 0, Op.H 1, Op.V H, Op.H 0] ++ if cp then [Op.Z] else [], 0, 0) =
      some (cFin H,
        [Op.M 0 0, Op.H 1, Op.V H, Op.H 0] ++ if cp then [Op.Z] else [], 0, 0) := by
    intro y h2 hyH
    refine scanRowSingle fuel cp y (cFin H) _ ?_
    rcases cFin_later H y h2 hyH with h | h <;>
      rw [h] <;> exact ⟨by decide, rfl⟩
  have hr : List.range' 1 H = 1 :: List.range' 2 (H - 1) := by
    conv_lhs => rw [show H = (H - 1) + 1 by omega]
    rw [List.range'_succ]
  rw [hr]
  simp only [scanRows, hrow1]
  exact scanRowsTail fuel cp 1 H (cFin H) _ hrows (H - 1) 2 (by omega) (by omega)

/-- West phase grid for the one-row grid (`H = 1`). -/
def rWe (W t : Nat) : Grid := fun y x =>
  if y = 1 ∧ t < x ∧ x ≤ W then (if x = W then 15 else 11) else gSo W 1 2 y x

/-- Final grid of the one-row trace. -/
def rFin (W : Nat) : Grid := fun y x =>
  if y = 1 ∧ x = 1 then 12 else rWe W 0 y x

/-- The one-row west phase grid at threshold `W` is the finished south grid. -/
lemma rWe_W (W : Nat) : rWe W W = gSo W 1 2 := by
  funext y x
  simp only [rWe]
  rw [if_neg]
  rintro ⟨-, h1, h2⟩
  omega

/-- One non-terminal iteration of the closing loop. -/
lemma closeLoop_step (rotk viv2 : Nat) (vertex : List (Int × Int))
    (value : List Int) (fuel : Nat) (s : TState) (g1 : Grid)
    (hst : stampCell s.g s.x s.y (vGet value (oGet s.o 0)) = g1)
    (hne : ¬oGet s.o 0 = viv2) :
    closeLoop rotk viv2 vertex value (fuel + 1) s =
      closeLoop rotk viv2 vertex value fuel
        { s with
            g := g1,
            o := rotL s.o rotk,
            vn := s.vn + 1,
            ops := s.ops ++ [emitHV vertex (rotL s.o rotk) s.x s.y] } := by
  simp only [closeLoop]
  rw [hst, if_neg hne]

/-- The terminal iteration of the closing loop. -/
lemma closeLoop_stop (rotk viv2 : Nat) (vertex : List (Int × Int))
    (value : List Int) (fuel : Nat) (s : TState) (g1 : Grid)
    (hst : stampCell s.g s.x s.y (vGet value (oGet s.o 0)) = g1)
    (heq : oGet s.o 0 = viv2) :
    closeLoop rotk viv2 vertex value (fuel + 1) s = some { s with g := g1 } := by
  simp only [closeLoop]
  rw [hst, if_pos heq]

set_option maxHeartbeats 1000000 in
/-- One straight west step on the one-row grid. -/
lemma stepWr (W x vn : Nat) (ops : List Op)
    (hx1 : 2 ≤ x) (hx2 : x ≤ W) (hW64 : W + 2 < 2 ^ 64) :
    walkStep true 2 7 1 O_VERTEX_WITH_BORDER O_VALUE_FOR_SIGNED
      ⟨x, 1, oWl, vn, rWe W x, ops⟩ = ⟨x - 1, 1, oWl, vn, rWe W (x - 1), ops⟩ := by
  have hrn : rnOf true (neighborsAt (rWe W x) x 1) oWl = 2 := by
    rw [rnOf_true_eq]
    have e7 : nbGet (neighborsAt (rWe W x) x 1) (oGet oWl 7) =
      rWe W x 2 (x - 1) := rfl
    have e0 : nbGet (neighborsAt (rWe W x) x 1) (oGet oWl 0) =
      rWe W x 1 (x - 1) := rfl
    have v7 : rWe W x 2 (x - 1) = 0 := by
      simp only [rWe, gSo, gEa, gFull, true_and, and_true]
      split_ifs <;> first | omega | simp_all
    have v0 : 0 < rWe W x 1 (x - 1) := by
      simp only [rWe, gSo, gEa, gFull, true_and, and_true]
      split_ifs <;> first | omega | simp_all
    rw [if_neg, if_pos]
    · rw [e0]
      exact v0
    · rw [e7, v7]
      rintro ⟨ha, -⟩
      exact absurd ha (by norm_num)
  simp only [walkStep, hrn]
  have hst : stampCell (rWe W x) x 1 (vGet O_VALUE_FOR_SIGNED (oGet oWl 0)) =
      rWe W (x - 1) := by
    rw [show vGet O_VALUE_FOR_SIGNED (oGet oWl 0) = 8 from rfl]
    funext y' x'
    simp only [stampCell, rWe, gSo, gEa, gFull, true_and, and_true]
    split_ifs <;> first | omega | simp_all
  rw [show uAdd x (vxGet MN (oGet oWl 0)).1 = x - 1 from
      uAdd_neg_one x (by omega) (by omega),
    show uAdd 1 (vxGet MN (oGet oWl 0)).2 = 1 from uAdd_zero 1 (by omega), hst]

/-- The one-row west edge walk down to `x = 2`. -/
lemma walkWr (W : Nat) (hW : 2 ≤ W) (hW64 : W + 2 < 2 ^ 64) :
    ∀ (k x vn : Nat) (ops : List Op) (f : Nat), x = k + 2 → x ≤ W →
    walkLoop true 2 7 1 O_VERTEX_WITH_BORDER O_VALUE_FOR_SIGNED 1 1 (k + f)
      ⟨x, 1, oWl, vn, rWe W x, ops⟩ =
    walkLoop true 2 7 1 O_VERTEX_WITH_BORDER O_VALUE_FOR_SIGNED 1 1 f
      ⟨2, 1, oWl, vn, rWe W 2, ops⟩ := by
  intro k
  induction k with
  | zero =>
    intro x vn ops f hk hx2
    have : x = 2 := by omega
    subst this
    rw [Nat.zero_add]
  | succ k ih =>
    intro x vn ops f hk hx2
    rw [show k + 1 + f = (k + f) + 1 by omega, walkLoop,
      stepWr W x vn ops (by omega) hx2 hW64]
    rw [if_neg (by
      rintro ⟨hcon, -, -⟩
      have hx' : x - 1 = 1 := hcon
      omega)]
    have hx3 : x - 1 = k + 2 := by omega
    rw [hx3]
    exact ih (k + 2) vn ops f rfl (by omega)

set_option maxHeartbeats 1000000 in
/-- The two-iteration closing loop of the one-row trace: it squares off with
the final `H 0` and stamps the start cell to 12. -/
lemma closeR (W vn : Nat) (ops : List Op) (f : Nat) (hW : 2 ≤ W) :
    closeLoop 2 0 O_VERTEX_WITH_BORDER O_VALUE_FOR_SIGNED (f + 1 + 1)
      ⟨1, 1, oWl, vn, rWe W 1, ops⟩ =
      some ⟨1, 1, oNl, vn + 1, rFin W, ops ++ [Op.H 0]⟩ := by
  have hst1 : stampCell (rWe W 1) 1 1 (vGet O_VALUE_FOR_SIGNED (oGet oWl 0)) =
      rWe W 0 := by
    rw [show vGet O_VALUE_FOR_SIGNED (oGet oWl 0) = 8 from rfl]
    funext y' x'
    simp only [stampCell, rWe, gSo, gEa, gFull, true_and, and_true]
    split_ifs <;> first | omega | simp_all
  have hst2 : stampCell (rWe W 0) 1 1 (vGet O_VALUE_FOR_SIGNED (oGet oNl 0)) =
      rFin W := by
    rw [show vGet O_VALUE_FOR_SIGNED (oGet oNl 0) = 1 from rfl]
    funext y' x'
    simp only [stampCell, rFin, rWe, gSo, gEa, gFull, true_and, and_true]
    split_ifs <;> first | omega | simp_all
  have h1 : closeLoop 2 0 O_VERTEX_WITH_BORDER O_VALUE_FOR_SIGNED (f + 1 + 1)
      ⟨1, 1, oWl, vn, rWe W 1, ops⟩ =
      closeLoop 2 0 O_VERTEX_WITH_BORDER O_VALUE_FOR_SIGNED (f + 1)
        ⟨1, 1, oNl, vn + 1, rWe W 0, ops ++ [Op.H 0]⟩ := by
    refine Eq.trans (closeLoop_step 2 0 O_VERTEX_WITH_BORDER O_VALUE_FOR_SIGNED
      (f + 1) _ _ hst1 (show ¬oGet oWl 0 = 0 by decide)) ?_
    show closeLoop 2 0 O_VERTEX_WITH_BORDER O_VALUE_FOR_SIGNED (f + 1)
      ⟨1, 1, rotL oWl 2, vn + 1, rWe W 0,
        ops ++ [emitHV O_VERTEX_WITH_BORDER (rotL oWl 2) 1 1]⟩ = _
    rw [show rotL oWl 2 = oNl from rfl,
      show emitHV O_VERTEX_WITH_BORDER oNl 1 1 = Op.H (uAdd 1 (-1)) from rfl,
      show uAdd 1 (-1) = 0 by unfold uAdd; omega]
  rw [h1]
  exact closeLoop_stop 2 0 O_VERTEX_WITH_BORDER O_VALUE_FOR_SIGNED f _ _ hst2 rfl

/-- The complete `trace_bits` run on the all-ones one-row grid. -/
lemma trace_full_row (W : Nat) (cp : Bool) (fuel : Nat) (hW : 2 ≤ W)
    (hW64 : W + 2 < 2 ^ 64) (hf : 2 * W + 2 ≤ fuel) :
    trace_bits fuel true 1 1 oEl 2 (7, 1, 0) O_VERTEX_WITH_BORDER O_VALUE_FOR_SIGNED
      (gFull W 1) [] cp =
      some (rFin W,
        [Op.M 0 0, Op.H W, Op.V 1, Op.H 0] ++ if cp then [Op.Z] else []) := by
  have hwalk : walkLoop true (remEuclid8 2) (7, 1, 0).1 (7, 1, 0).2.1
      O_VERTEX_WITH_BORDER O_VALUE_FOR_SIGNED 1 1 fuel
      { x := 1, y := 1, o := oEl, vn := 1, g := gFull W 1,
        ops := [] ++ [Op.M (uAdd 1 (vxGet O_VERTEX_WITH_BORDER (oGet oEl 0)).1)
          (uAdd 1 (vxGet O_VERTEX_WITH_BORDER (oGet oEl 0)).2)] } =
      some ⟨1, 1, oWl, 3, rWe W 1, [Op.M 0 0, Op.H W, Op.V 1]⟩ := by
    show walkLoop true 2 7 1 O_VERTEX_WITH_BORDER O_VALUE_FOR_SIGNED 1 1 fuel
      ⟨1, 1, oEl, 1, gFull W 1, [Op.M 0 0]⟩ =
      some ⟨1, 1, oWl, 3, rWe W 1, [Op.M 0 0, Op.H W, Op.V 1]⟩
    obtain ⟨r, hr⟩ : ∃ r, fuel = W - 1 + (W - 2 + (r + 1) + 1 + 1) :=
      ⟨fuel - (2 * W), by omega⟩
    rw [hr, ← gEa_one]
    refine Eq.trans (walkE W 1 hW (by omega) hW64 (W - 1) 1 1 [Op.M 0 0] _
      (by omega) (by omega)) ?_
    refine Eq.trans (walkLoop_peel true 2 7 1 O_VERTEX_WITH_BORDER
      O_VALUE_FOR_SIGNED 1 1 _ _ _
      (stepCo1 W 1 1 [Op.M 0 0] (by omega) (by omega) hW64)
      (by
        rintro ⟨hcon, -, -⟩
        have hc' : W = 1 := hcon
        omega)) ?_
    rw [show gEa W 1 (W + 1) = gSo W 1 1 from (gSo_one W 1).symm]
    refine Eq.trans (walkLoop_peel true 2 7 1 O_VERTEX_WITH_BORDER
      O_VALUE_FOR_SIGNED 1 1 _ _ _
      (stepCo2 W 1 _ _ (by omega) (by omega) (by norm_num))
      (by
        rintro ⟨hcon, -, -⟩
        have hc' : W = 1 := hcon
        omega)) ?_
    rw [show gSo W 1 (1 + 1) = rWe W W from (rWe_W W).symm]
    refine Eq.trans (walkWr W hW hW64 (W - 2) W _ _ _ (by omega) (by omega)) ?_
    exact walkLoop_last true 2 7 1 O_VERTEX_WITH_BORDER O_VALUE_FOR_SIGNED 1 1 r _ _
      (stepWr W 2 _ _ (by omega) (by omega) hW64)
      ⟨rfl, rfl, show (2 : Nat) < 3 by omega⟩
  have hclose : closeLoop (remEuclid8 2) (7, 1, 0).2.2
      O_VERTEX_WITH_BORDER O_VALUE_FOR_SIGNED fuel
      (⟨1, 1, oWl, 3, rWe W 1, [Op.M 0 0, Op.H W, Op.V 1]⟩ : TState) =
      some ⟨1, 1, oNl, 4, rFin W, [Op.M 0 0, Op.H W, Op.V 1, Op.H 0]⟩ := by
    show closeLoop 2 0 O_VERTEX_WITH_BORDER O_VALUE_FOR_SIGNED fuel
      ⟨1, 1, oWl, 3, rWe W 1, [Op.M 0 0, Op.H W, Op.V 1]⟩ =
      some ⟨1, 1, oNl, 4, rFin W, [Op.M 0 0, Op.H W, Op.V 1, Op.H 0]⟩
    obtain ⟨m, hm⟩ : ∃ m, fuel = m + 1 + 1 := ⟨fuel - 2, by omega⟩
    rw [hm]
    exact closeR W 3 [Op.M 0 0, Op.H W, Op.V 1] m hW
  simp only [trace_bits, hwalk, hclose]
  cases cp <;> rfl

/-- Value of the finished one-row grid at a middle cell. -/
lemma rFin_mid (W x : Nat) (hx : 2 ≤ x) (hxW : x < W) : rFin W 1 x = 11 := by
  simp only [rFin, rWe, gSo, gEa, gFull, true_and, and_true]
  split_ifs <;> first | omega | simp_all

/-- Value of the finished one-row grid at the last cell. -/
lemma rFin_last (W : Nat) (hW : 2 ≤ W) : rFin W 1 W = 15 := by
  simp only [rFin, rWe, gSo, gEa, gFull, true_and, and_true]
  split_ifs <;> first | omega | simp_all

/-- The complete scanner pass for the one-row grid. -/
lemma scan_full_row (W fuel : Nat) (cp : Bool) (hW : 2 ≤ W)
    (hW64 : W + 2 < 2 ^ 64) (hf : 2 * W + 2 ≤ fuel) :
    scanRows fuel cp W (List.range' 1 1) (gFull W 1, []) =
      some (rFin W,
        [Op.M 0 0, Op.H W, Op.V 1, Op.H 0] ++ if cp then [Op.Z] else []) := by
  have htr : trace_bits fuel true 1 1 [2, 3, 4, 5, 6, 7, 0, 1] 2 (7, 1, 0)
      O_VERTEX_WITH_BORDER O_VALUE_FOR_SIGNED (gFull W 1) [] cp =
      some (rFin W,
        [Op.M 0 0, Op.H W, Op.V 1, Op.H 0] ++ if cp then [Op.Z] else []) :=
    trace_full_row W cp fuel hW hW64 hf
  have hrow1 : scanRow fuel cp 1 (List.range' 1 W) (gFull W 1, [], 0, 0) =
      some (rFin W,
        [Op.M 0 0, Op.H W, Op.V 1, Op.H 0] ++ if cp then [Op.Z] else [], 0, 0) := by
    refine scanRowFirst fuel cp W (gFull W 1) (rFin W) [] _ hW ?_ htr rfl ?_ ?_
    · simp only [gFull]
      rw [if_pos (by omega)]
    · intro x h2 hxW
      rw [rFin_mid W x h2 hxW]
      exact ⟨by decide, rfl⟩
    · rw [rFin_last W hW]
      exact ⟨by decide, rfl⟩
  rw [List.range'_one]
  simp only [scanRows, hrow1]

/-- Rendering of the four-command rectangle path. -/
lemma renderOps_rect (W H : Nat) (cp : Bool) :
    renderOps ([Op.M 0 0, Op.H W, Op.V H, Op.H 0] ++ if cp then [Op.Z] else []) =
      "M0 0H" ++ toString W ++ "V" ++ toString H ++ "H0" ++ if cp then "Z" else "" := by
  cases cp <;>
  · apply String.ext
    simp only [renderOps, String.join, List.map, List.foldl, Op.render,
      List.append_nil, List.cons_append, List.nil_append,
      show toString (0 : Nat) = "0" from rfl,
      String.data_append, List.append_assoc,
      show ("" : String).data = ([] : List Char) from rfl,
      show ("M" : String).data = ['M'] from rfl,
      show ("0" : String).data = ['0'] from rfl,
      show (" " : String).data = [' '] from rfl,
      show ("H" : String).data = ['H'] from rfl,
      show ("V" : String).data = ['V'] from rfl,
      show ("Z" : String).data = ['Z'] from rfl,
      show ("M0 0H" : String).data = ['M', '0', ' ', '0', 'H'] from rfl,
      show ("H0" : String).data = ['H', '0'] from rfl,
      Bool.false_eq_true, if_false, if_true]

/-- Row count of the all-ones input. -/
lemma fullBits_length (W H : Nat) : (fullBits W H).length = H := by
  simp [fullBits]

/-- Column count of the all-ones input. -/
lemma fullBits_headD (W H : Nat) (hH : 1 ≤ H) :
    ((fullBits W H).headD []).length = W := by
  obtain ⟨Hp, rfl⟩ : ∃ Hp, H = Hp + 1 := ⟨H - 1, by omega⟩
  simp [fullBits, List.replicate_succ]

/-- The fuel budget dominates the rectangle walk length. -/
lemma gridFuel_big (W H : Nat) : 2 * W + 2 * H + 2 ≤ gridFuel H W := by
  have h1 : W + 2 ≤ (H + 2) * (W + 2) := Nat.le_mul_of_pos_left (W + 2) (by omega)
  have h2 : H + 2 ≤ (H + 2) * (W + 2) := Nat.le_mul_of_pos_right (H + 2) (by omega)
  simp only [gridFuel]
  omega

/-- C6: for every `W ≥ 1` and `H ≥ 1`, `bits_to_paths` on the fully foreground
`W × H` grid produces exactly one boundary group, the minimal 4-vertex
rectangle `M0 0H{W}V{H}H0`, followed by `Z` when `closepaths` is true (stated
for grid dimensions below the `usize` wrap bound used by the coordinate
arithmetic). -/
theorem full_grid_minimal_rectangle (W H : Nat) (cp : Bool) (hW : 1 ≤ W)
    (hH : 1 ≤ H) (hW64 : W + 2 < 2 ^ 64) (hH64 : H + 2 < 2 ^ 64) :
    bitsToPathsOps (fullBits W H) cp =
      some ([Op.M 0 0, Op.H W, Op.V H, Op.H 0] ++ if cp then [Op.Z] else []) ∧
    bits_to_paths (fullBits W H) cp =
      some ("M0 0H" ++ toString W ++ "V" ++ toString H ++ "H0" ++
        if cp then "Z" else "") := by
  suffices hops : bitsToPathsOps (fullBits W H) cp =
      some ([Op.M 0 0, Op.H W, Op.V H, Op.H 0] ++ if cp then [Op.Z] else []) by
    refine ⟨hops, ?_⟩
    rw [bits_to_paths, hops]
    show some (renderOps ([Op.M 0 0, Op.H W, Op.V H, Op.H 0] ++
      if cp then [Op.Z] else [])) = _
    rw [renderOps_rect W H cp]
  simp only [bitsToPathsOps]
  rw [fullBits_length W H, fullBits_headD W H hH, initContours_full W H]
  rcases eq_or_lt_of_le hW with hW1 | hW2 <;> rcases eq_or_lt_of_le hH with hH1 | hH2
  · obtain rfl := hW1.symm
    obtain rfl := hH1.symm
    cases cp <;> decide
  · obtain rfl := hW1.symm
    have hscan := scan_full_col H (gridFuel H 1) cp (by omega) hH64
      (by have := gridFuel_big 1 H; omega)
    simp only [hscan]
  · obtain rfl := hH1.symm
    have hscan := scan_full_row W (gridFuel 1 W) cp (by omega) hW64
      (by have := gridFuel_big W 1; omega)
    simp only [hscan]
  · have hscan := scan_full W H (gridFuel H W) cp (by omega) (by omega) hW64 hH64
      (by have := gridFuel_big W H; omega)
    simp only [hscan]

/-- Witness for C6 at `W = 3`, `H = 2`, `closepaths = true`. -/
theorem full_grid_minimal_rectangle_w :
    bitsToPathsOps (fullBits 3 2) true =
      some [Op.M 0 0, Op.H 3, Op.V 2, Op.H 0, Op.Z] ∧
    bits_to_paths (fullBits 3 2) true = some "M0 0H3V2H0Z" := by
  have h := full_grid_minimal_rectangle 3 2 true (by norm_num) (by norm_num)
    (by norm_num) (by norm_num)
  exact ⟨h.1.trans (by decide), h.2.trans (by decide)⟩

end ContourTracing
